import Mathlib

/-!
Impulse2D: a shallow embedding of the particle core.

The C++ sources `Vector2.h`, `Particle.h`, `GravityForceGenerator.h` and
`ParticleForceRegistry.h` are embedded as pure functions.

Modelling conventions.

* The functions of the source are embedded once, over a carrier `α` of which only the
  operations they use are assumed (`+`, `-`, `*`, `/`, `0`, `1`, `<`, `≤`, `==`), with no
  arithmetic law.
* `F32` is a model of the IEEE-754 binary32 type `float` of the source: signed zeros,
  subnormal numbers, infinities, NaN and round-to-nearest-even.  Every operation of the
  source on `float` is one binary32 operation: no excess precision and no fused
  multiply-add.  A property that depends on rounding is stated and proved over `F32`.
* A property whose proof uses no arithmetic law is stated over an arbitrary linearly
  ordered field; of that structure it uses the operations and the order only.
* The `<cmath>` functions `pow` and `sqrt` are not part of the repository, so the
  functions that call them take them as parameters.  `F32.sqrt` is the correctly
  rounded square root of IEEE-754 (which is also what the `double` square root yields
  once converted to `float`).  The parameter `pow` stands for the `float` that reaches
  `operator*=`; `F32.powSmall` gives it at the exponents `0`, `1` and `2`, where the value
  is fixed by the C standard or exactly representable.
* `F32.IsFinite`, `F32.IsValue`, `F32.NonNeg`, `F32.Close` and `Vector2.Collinear` are
  predicates of the statements, not functions of the source.
* A C++ member function that mutates `*this` becomes a function returning the new
  object.
* Pointers (`Particle*`, `ParticleForceGenerator*`) are modelled by natural-number
  addresses; the objects they point to live in stores `Nat → _`.
-/

namespace Impulse2D

/-! ## Vector2.h -/

/-- Source `struct Vector2`: two `float` members `X` and `Y`. -/
structure Vector2 (α : Type) where
  X : α
  Y : α
deriving DecidableEq

namespace Vector2

variable {α : Type}

/-- Source `Vector2::Clear`: sets both components to `0`. -/
def Clear [Zero α] (_v : Vector2 α) : Vector2 α :=
  { X := 0, Y := 0 }

/-- Source `Vector2::Zero`: the vector `{0, 0}`. -/
def Zero [Zero α] : Vector2 α :=
  { X := 0, Y := 0 }

/-- Source `Vector2::operator+`. -/
def opAdd [Add α] (a b : Vector2 α) : Vector2 α :=
  { X := a.X + b.X, Y := a.Y + b.Y }

/-- Source `Vector2::operator+=`: `X += b.X; Y += b.Y`. -/
def opAddAssign [Add α] (a b : Vector2 α) : Vector2 α :=
  { X := a.X + b.X, Y := a.Y + b.Y }

/-- Source `Vector2::operator%`: the scalar `X * b.Y - Y * b.X`. -/
def opMod [Mul α] [Sub α] (a b : Vector2 α) : α :=
  a.X * b.Y - a.Y * b.X

/-- Source binary `Vector2::operator-`. -/
def opSub [Sub α] (a b : Vector2 α) : Vector2 α :=
  { X := a.X - b.X, Y := a.Y - b.Y }

/-- Source unary `Vector2::operator-`. -/
def opNeg [Neg α] (a : Vector2 α) : Vector2 α :=
  { X := -a.X, Y := -a.Y }

/-- Source `Vector2::AddScaledVector`: `X += b.X * s; Y += b.Y * s`. -/
def AddScaledVector [Add α] [Mul α] (a b : Vector2 α) (s : α) : Vector2 α :=
  { X := a.X + b.X * s, Y := a.Y + b.Y * s }

/-- Source `Vector2::operator*=` with a scalar: `X = X * s; Y = Y * s`. -/
def opMulAssign [Mul α] (a : Vector2 α) (s : α) : Vector2 α :=
  { X := a.X * s, Y := a.Y * s }

/-- Source `Vector2::operator*` with a scalar operand. -/
def opMul [Mul α] (a : Vector2 α) (s : α) : Vector2 α :=
  { X := a.X * s, Y := a.Y * s }

/-- Source `Vector2::operator*` with a vector operand: the dot product. -/
def opDot [Add α] [Mul α] (a b : Vector2 α) : α :=
  (a.X * b.X) + (a.Y * b.Y)

/-- Source `Vector2::operator==`: `X == b.X && Y == b.Y`, with the `==` of the carrier. -/
def opEq [BEq α] (a b : Vector2 α) : Bool :=
  a.X == b.X && a.Y == b.Y

/-- Source `Vector2::operator/` with a scalar denominator. -/
def opDiv [Div α] (a : Vector2 α) (d : α) : Vector2 α :=
  { X := a.X / d, Y := a.Y / d }

/-- Source `Vector2::Magnitude`: `sqrt(X * X + Y * Y)`; `sqrt` is the `<cmath>` function. -/
def Magnitude [Add α] [Mul α] (sqrt : α → α) (a : Vector2 α) : α :=
  sqrt (a.X * a.X + a.Y * a.Y)

/-- Source `Vector2::Normalize`: both components divided by the magnitude. -/
def Normalize [Add α] [Mul α] [Div α] (sqrt : α → α) (a : Vector2 α) : Vector2 α :=
  let mag := Magnitude sqrt a
  { X := a.X / mag, Y := a.Y / mag }

/-- Source `Vector2::Lerp`. -/
def Lerp [Add α] [Sub α] [Mul α] [One α] (a b : Vector2 α) (f : α) : Vector2 α :=
  { X := a.X * (1 - f) + b.X * f, Y := a.Y * (1 - f) + b.Y * f }

/-- Source `Vector2::Distance`. -/
def Distance [Add α] [Sub α] [Mul α] (sqrt : α → α) (a b : Vector2 α) : α :=
  let deltaX := a.X - b.X
  let deltaY := a.Y - b.Y
  sqrt ((deltaX * deltaX) + (deltaY * deltaY))

end Vector2

/-! ## Particle.h -/

/-- Source `class Particle`: the six data members, in declaration order. -/
structure Particle (α : Type) where
  Position : Vector2 α
  Velocity : Vector2 α
  Acceleration : Vector2 α
  ForceAccumulation : Vector2 α
  Drag : α
  InverseMass : α
deriving DecidableEq

namespace Particle

variable {α : Type}

/-- Source `Particle::SetMass`: `if (m > 0) InverseMass = 1 / m;` and nothing otherwise. -/
def SetMass [Zero α] [One α] [Div α] [LT α] [DecidableRel (fun a b : α => a < b)]
    (p : Particle α) (newMass : α) : Particle α :=
  if newMass > 0 then { p with InverseMass := 1 / newMass } else p

/-- Source `Particle::GetMass`: `1.0f / InverseMass`. -/
def GetMass [One α] [Div α] (p : Particle α) : α :=
  1 / p.InverseMass

/-- Source `Particle::HasFiniteMass`: `InverseMass > 0`. -/
def HasFiniteMass [Zero α] [LT α] [DecidableRel (fun a b : α => a < b)]
    (p : Particle α) : Bool :=
  decide (p.InverseMass > 0)

/-- Source `Particle::SetInverseMass`. -/
def SetInverseMass (p : Particle α) (newInverseMass : α) : Particle α :=
  { p with InverseMass := newInverseMass }

/-- Source `Particle::AddForce`: `ForceAccumulation += force`. -/
def AddForce [Add α] (p : Particle α) (force : Vector2 α) : Particle α :=
  { p with ForceAccumulation := p.ForceAccumulation.opAddAssign force }

/-- Source `Particle::ClearForces`: `ForceAccumulation.Clear()`. -/
def ClearForces [Zero α] (p : Particle α) : Particle α :=
  { p with ForceAccumulation := p.ForceAccumulation.Clear }

/-- Source `Particle::Integrate`.  The statements of the body, in order:
the early return for `InverseMass <= 0`, the position update, the resulting
acceleration, the velocity update, the drag factor `pow(Drag, time)` and
`ClearForces()`. -/
def Integrate [Zero α] [Add α] [Mul α] [LE α] [DecidableRel (fun a b : α => a ≤ b)]
    (pow : α → α → α) (p : Particle α) (time : α) : Particle α :=
  if p.InverseMass ≤ 0 then p
  else
    let p1 := { p with Position := p.Position.AddScaledVector p.Velocity time }
    let resultingAcceleration := p1.Acceleration
    let resultingAcceleration :=
      resultingAcceleration.AddScaledVector p1.ForceAccumulation p1.InverseMass
    let p2 := { p1 with Velocity := p1.Velocity.AddScaledVector resultingAcceleration time }
    let p3 := { p2 with Velocity := p2.Velocity.opMulAssign (pow p2.Drag time) }
    p3.ClearForces

end Particle

/-- A call made on a particle by a client: either `AddForce(force)` or `Integrate(time)`. -/
inductive ParticleCall (α : Type) where
  | addForce (force : Vector2 α)
  | integrate (time : α)

/-- The particle after one client call. -/
def ParticleCall.apply {α : Type} [Zero α] [Add α] [Mul α] [LE α]
    [DecidableRel (fun a b : α => a ≤ b)] (pow : α → α → α)
    (p : Particle α) : ParticleCall α → Particle α
  | ParticleCall.addForce force => p.AddForce force
  | ParticleCall.integrate time => Particle.Integrate pow p time

/-- The particle after a finite sequence of client calls, made from left to right. -/
def ParticleCall.applyAll {α : Type} [Zero α] [Add α] [Mul α] [LE α]
    [DecidableRel (fun a b : α => a ≤ b)] (pow : α → α → α) :
    Particle α → List (ParticleCall α) → Particle α
  | p, [] => p
  | p, c :: cs => ParticleCall.applyAll pow (ParticleCall.apply pow p c) cs

/-- A state-changing member call other than `SetInverseMass`: `SetMass(mass)`,
`AddForce(force)`, `ClearForces()` or `Integrate(time)`. -/
inductive ParticleMutation (α : Type) where
  | setMass (mass : α)
  | addForce (force : Vector2 α)
  | clearForces
  | integrate (time : α)

/-- The particle after one such member call. -/
def ParticleMutation.apply {α : Type} [Zero α] [One α] [Add α] [Mul α] [Div α] [LT α] [LE α]
    [DecidableRel (fun a b : α => a < b)] [DecidableRel (fun a b : α => a ≤ b)]
    (pow : α → α → α) (p : Particle α) : ParticleMutation α → Particle α
  | ParticleMutation.setMass mass => p.SetMass mass
  | ParticleMutation.addForce force => p.AddForce force
  | ParticleMutation.clearForces => p.ClearForces
  | ParticleMutation.integrate time => Particle.Integrate pow p time

/-- The particle after a finite sequence of such member calls, made from left to right. -/
def ParticleMutation.applyAll {α : Type} [Zero α] [One α] [Add α] [Mul α] [Div α] [LT α]
    [LE α] [DecidableRel (fun a b : α => a < b)] [DecidableRel (fun a b : α => a ≤ b)]
    (pow : α → α → α) : Particle α → List (ParticleMutation α) → Particle α
  | p, [] => p
  | p, c :: cs => ParticleMutation.applyAll pow (ParticleMutation.apply pow p c) cs

/-! ## ParticleForceGenerator.h and GravityForceGenerator.h -/

/-- Source `class ParticleForceGenerator`: the abstract interface with the one virtual
method `UpdateForce(Particle*, float)`.  The method is modelled by its effect on the
particle it is handed. -/
structure ParticleForceGenerator (α : Type) where
  UpdateForce : Particle α → α → Particle α

/-- Source `class GravityForceGenerator`: the one data member `Gravity`. -/
structure GravityForceGenerator (α : Type) where
  Gravity : Vector2 α
deriving DecidableEq

namespace GravityForceGenerator

variable {α : Type}

/-- Source `GravityForceGenerator::SetGravity`. -/
def SetGravity (_g : GravityForceGenerator α) (gravity : Vector2 α) : GravityForceGenerator α :=
  { Gravity := gravity }

/-- Source `GravityForceGenerator::GetGravity`. -/
def GetGravity (g : GravityForceGenerator α) : Vector2 α :=
  g.Gravity

/-- Source `GravityForceGenerator::UpdateForce`:
`if (!p->HasFiniteMass()) return; p->AddForce(Gravity * p->GetMass());`.
The time step is not used by the body. -/
def UpdateForce [Zero α] [One α] [Add α] [Mul α] [Div α] [LT α]
    [DecidableRel (fun a b : α => a < b)]
    (g : GravityForceGenerator α) (p : Particle α) (_time : α) : Particle α :=
  if !p.HasFiniteMass then p
  else p.AddForce (g.Gravity.opMul p.GetMass)

/-- The upcast of a gravity generator to the interface it overrides. -/
def toGenerator [Zero α] [One α] [Add α] [Mul α] [Div α] [LT α]
    [DecidableRel (fun a b : α => a < b)]
    (g : GravityForceGenerator α) : ParticleForceGenerator α :=
  { UpdateForce := g.UpdateForce }

end GravityForceGenerator

/-! ## ParticleForceRegistry.h -/

/-- Source `ParticleForceRegistry::RegistryEntry`: a particle pointer and a generator
pointer, both modelled by their addresses. -/
structure RegistryEntry where
  Particle : Nat
  ForceGenerator : Nat
deriving DecidableEq

/-- Source `RegistryEntry::operator==`: both pointers compare equal. -/
def RegistryEntry.opEq (a b : RegistryEntry) : Bool :=
  a.Particle == b.Particle && a.ForceGenerator == b.ForceGenerator

/-- Source `class ParticleForceRegistry`: the vector `Registry` of entries. -/
structure ParticleForceRegistry where
  Registry : List RegistryEntry
deriving DecidableEq

namespace ParticleForceRegistry

/-- Source `ParticleForceRegistry::AddEntry`: `Registry.push_back({p, g})`. -/
def AddEntry (r : ParticleForceRegistry) (particle forceGenerator : Nat) :
    ParticleForceRegistry :=
  let nEntry : RegistryEntry := { Particle := particle, ForceGenerator := forceGenerator }
  { Registry := r.Registry ++ [nEntry] }

/-- The `for` loop of source `ParticleForceRegistry::RemoveEntry`, started at index `i`:
the first index from `i` on whose entry compares equal to `dEntry` is erased and the
loop is left; when the index reaches the size, the vector is returned as it is. -/
def RemoveEntry.loop (dEntry : RegistryEntry) (Registry : List RegistryEntry) (i : Nat) :
    List RegistryEntry :=
  if h : i < Registry.length then
    if (Registry.get ⟨i, h⟩).opEq dEntry then Registry.eraseIdx i
    else RemoveEntry.loop dEntry Registry (i + 1)
  else Registry
termination_by Registry.length - i

/-- Source `ParticleForceRegistry::RemoveEntry`. -/
def RemoveEntry (r : ParticleForceRegistry) (particle forceGenerator : Nat) :
    ParticleForceRegistry :=
  let dEntry : RegistryEntry := { Particle := particle, ForceGenerator := forceGenerator }
  { Registry := RemoveEntry.loop dEntry r.Registry 0 }

/-- Source `ParticleForceRegistry::Clear`. -/
def Clear (_r : ParticleForceRegistry) : ParticleForceRegistry :=
  { Registry := [] }

/-- The range-`for` loop of source `ParticleForceRegistry::UpdateForces` over the
entries still to visit: `entry.ForceGenerator->UpdateForce(entry.Particle, time)`.
`generators` maps a generator address to the object there, `heap` maps a particle
address to the particle there; the call writes the particle back at its address. -/
def UpdateForces.loop {α : Type} (generators : Nat → ParticleForceGenerator α) (time : α) :
    List RegistryEntry → (Nat → Particle α) → (Nat → Particle α)
  | [], heap => heap
  | entry :: rest, heap =>
    UpdateForces.loop generators time rest
      (Function.update heap entry.Particle
        ((generators entry.ForceGenerator).UpdateForce (heap entry.Particle) time))

/-- Source `ParticleForceRegistry::UpdateForces`. -/
def UpdateForces {α : Type} (r : ParticleForceRegistry)
    (generators : Nat → ParticleForceGenerator α) (time : α) (heap : Nat → Particle α) :
    Nat → Particle α :=
  UpdateForces.loop generators time r.Registry heap

end ParticleForceRegistry

/-! ## The type `float`: IEEE-754 binary32 -/

/-- A value of the IEEE-754 binary32 format: NaN, an infinity with its sign, or a finite
number given by its sign and its magnitude (a rational, `0` for the two zeros).  The
values that the format holds are the finite ones whose magnitude is `F32.Representable`;
every operation below returns such a value, an infinity or NaN. -/
inductive F32 where
  | nan
  | inf (neg : Bool)
  | finite (neg : Bool) (mag : ℚ)
deriving DecidableEq

namespace F32

/-- Rounding of a rational to the nearest integer, a tie going to the even integer. -/
def roundEven (x : ℚ) : ℤ :=
  let f := ⌊x⌋
  if x - f < 1 / 2 then f
  else if 1 / 2 < x - f then f + 1
  else if f % 2 = 0 then f else f + 1

/-- The binary exponent that binary32 uses for the magnitude `q`: the `e` with
`2 ^ e ≤ q < 2 ^ (e + 1)`, and `-126` for every magnitude below `2 ^ (-126)` (the
subnormal range). -/
def expOf (q : ℚ) : ℤ :=
  max (Int.log 2 q) (-126)

/-- Rounding of the magnitude `q ≥ 0` to a significand of 24 bits at the exponent
`expOf q`, to nearest, ties to even, with no upper bound on the exponent. -/
def roundMag (q : ℚ) : ℚ :=
  let u : ℚ := 2 ^ (expOf q - 23)
  (roundEven (q / u) : ℚ) * u

/-- The binary32 value of sign `neg` nearest to the magnitude `q ≥ 0`: the rounded
magnitude, or the infinity when the rounded magnitude reaches `2 ^ 128`. -/
def ofSignMag (neg : Bool) (q : ℚ) : F32 :=
  let r := roundMag q
  if r < 2 ^ 128 then finite neg r else inf neg

/-- The rational value of a finite number; `0` for the infinities and NaN. -/
def toRat : F32 → ℚ
  | finite neg mag => if neg then -mag else mag
  | _ => 0

/-- The binary32 value nearest to the rational `q`: the value of a literal such as
`0.1f`, and the rounding step of every arithmetic operation. -/
def ofRat (q : ℚ) : F32 :=
  ofSignMag (decide (q < 0)) |q|

/-- The magnitudes that binary32 holds: the fixed points of the rounding below
`2 ^ 128`. -/
def Representable (m : ℚ) : Prop :=
  0 ≤ m ∧ roundMag m = m ∧ m < 2 ^ 128

/-- A finite value of the format. -/
def IsFinite : F32 → Prop
  | finite _ m => Representable m
  | _ => False

/-- A value of the format: NaN, an infinity, or a finite number whose magnitude is
representable. -/
def IsValue : F32 → Prop
  | finite _ m => Representable m
  | _ => True

/-- IEEE-754 addition.  An exact sum of zero is `+0`, except that `(-0) + (-0)` is `-0`. -/
def add : F32 → F32 → F32
  | nan, _ => nan
  | _, nan => nan
  | inf s, inf t => if s = t then inf s else nan
  | inf s, finite _ _ => inf s
  | finite _ _, inf t => inf t
  | finite s a, finite t b =>
    let q := toRat (finite s a) + toRat (finite t b)
    if q = 0 then finite (s && t) 0 else ofRat q

/-- IEEE-754 negation: the sign is flipped. -/
def neg : F32 → F32
  | nan => nan
  | inf s => inf (!s)
  | finite s a => finite (!s) a

/-- IEEE-754 subtraction: `a - b` is `a + (-b)`. -/
def sub (a b : F32) : F32 :=
  add a (neg b)

/-- IEEE-754 multiplication: the sign is the exclusive or of the signs, `0 * inf` is
NaN. -/
def mul : F32 → F32 → F32
  | nan, _ => nan
  | _, nan => nan
  | inf s, inf t => inf (xor s t)
  | inf s, finite t b => if b = 0 then nan else inf (xor s t)
  | finite s a, inf t => if a = 0 then nan else inf (xor s t)
  | finite s a, finite t b => ofSignMag (xor s t) (a * b)

/-- IEEE-754 division: `0 / 0` and `inf / inf` are NaN, a non-zero number divided by a
zero is an infinity. -/
def div : F32 → F32 → F32
  | nan, _ => nan
  | _, nan => nan
  | inf _, inf _ => nan
  | inf s, finite t _ => inf (xor s t)
  | finite s _, inf t => finite (xor s t) 0
  | finite s a, finite t b =>
    if b = 0 then (if a = 0 then nan else inf (xor s t))
    else ofSignMag (xor s t) (a / b)

/-- The comparison `<` of `float`: false when an operand is NaN. -/
def lt : F32 → F32 → Bool
  | nan, _ => false
  | _, nan => false
  | inf s, inf t => s && !t
  | inf s, finite _ _ => s
  | finite _ _, inf t => !t
  | finite s a, finite t b => decide (toRat (finite s a) < toRat (finite t b))

/-- The comparison `<=` of `float`: false when an operand is NaN. -/
def le : F32 → F32 → Bool
  | nan, _ => false
  | _, nan => false
  | inf s, inf t => s || !t
  | inf s, finite _ _ => s
  | finite _ _, inf t => !t
  | finite s a, finite t b => decide (toRat (finite s a) ≤ toRat (finite t b))

/-- The comparison `==` of `float`: false when an operand is NaN, true for `-0 == +0`. -/
def eq : F32 → F32 → Bool
  | nan, _ => false
  | _, nan => false
  | inf s, inf t => s == t
  | inf _, finite _ _ => false
  | finite _ _, inf _ => false
  | finite s a, finite t b => decide (toRat (finite s a) = toRat (finite t b))

/-- A rational within `2 ^ (-129)` of the square root of `q ≥ 0`, on the same side of
every binary32 rounding boundary as the square root: the integer square root of
`q * 4 ^ 128`, scaled back, plus half a unit when that root is not exact. -/
def sqrtApprox (q : ℚ) : ℚ :=
  let n : ℕ := ⌊q * 4 ^ 128⌋₊
  let r : ℕ := Nat.sqrt n
  if (r : ℚ) * r = q * 4 ^ 128 then (r : ℚ) / 2 ^ 128 else ((r : ℚ) + 1 / 2) / 2 ^ 128

/-- The `<cmath>` function `sqrt` on `float`, correctly rounded as IEEE-754 requires:
NaN for a negative number, `sqrt(-0) = -0`, `sqrt(+inf) = +inf`. -/
def sqrt : F32 → F32
  | nan => nan
  | inf s => if s then nan else inf false
  | finite s a =>
    if a = 0 then finite s 0 else if s then nan else ofSignMag false (sqrtApprox a)

/-- The `<cmath>` function `pow` at the exponents `0`, `1` and `2`: `pow(x, ±0)` is `1`
for every `x`, `pow(x, 1)` is `x` and `pow(x, 2)` is the rounded square.  No other
exponent is modelled (`nan` stands there); the function is used at these three only. -/
def powSmall (x y : F32) : F32 :=
  match y with
  | finite _ m =>
    if m = 0 then finite false 1
    else if y = finite false 1 then x
    else if y = finite false 2 then mul x x
    else nan
  | _ => nan

end F32

instance : Zero F32 := ⟨F32.finite false 0⟩

instance : One F32 := ⟨F32.finite false 1⟩

instance : Add F32 := ⟨F32.add⟩

instance : Sub F32 := ⟨F32.sub⟩

instance : Mul F32 := ⟨F32.mul⟩

instance : Div F32 := ⟨F32.div⟩

instance : Neg F32 := ⟨F32.neg⟩

instance : LT F32 := ⟨fun a b => F32.lt a b = true⟩

instance : LE F32 := ⟨fun a b => F32.le a b = true⟩

instance : BEq F32 := ⟨F32.eq⟩

instance : DecidableRel (fun a b : F32 => a < b) :=
  fun a b => inferInstanceAs (Decidable (F32.lt a b = true))

instance : DecidableRel (fun a b : F32 => a ≤ b) :=
  fun a b => inferInstanceAs (Decidable (F32.le a b = true))

/-- Source `Particle() = default`: the default member initialisers, that is zero
vectors (`Vector2` members default to `0`), `Drag{0.9995f}` and `InverseMass{0.1f}`. -/
def Particle.new : Particle F32 :=
  { Position := { X := 0, Y := 0 }, Velocity := { X := 0, Y := 0 },
    Acceleration := { X := 0, Y := 0 }, ForceAccumulation := { X := 0, Y := 0 },
    Drag := F32.ofRat (9995 / 10000), InverseMass := F32.ofRat (1 / 10) }

/-- Source `Particle(position, velocity, acceleration, mass)`: the members start from
their default initialisers, the three vectors are assigned and `SetMass(mass)` is
called. -/
def Particle.newWith (position velocity acceleration : Vector2 F32) (mass : F32) :
    Particle F32 :=
  let p : Particle F32 := Particle.new
  let p := { p with Position := position }
  let p := { p with Velocity := velocity }
  let p := { p with Acceleration := acceleration }
  p.SetMass mass

/-- Linear dependence of two `float` vectors over their exact values: there are rational
scalars `s` and `t`, not both zero, with `s * A = t * B`. -/
def Vector2.Collinear (A B : Vector2 F32) : Prop :=
  ∃ s t : ℚ, (s ≠ 0 ∨ t ≠ 0)
    ∧ s * F32.toRat A.X = t * F32.toRat B.X ∧ s * F32.toRat A.Y = t * F32.toRat B.Y

/-- A value of `float` that is `+inf` or a finite number of sign `+` with a non-negative
magnitude: the values that a square, a sum of squares and a square root take. -/
def F32.NonNeg : F32 → Prop
  | F32.inf s => s = false
  | F32.finite s m => s = false ∧ 0 ≤ m
  | F32.nan => False

/-- The factor `1 / (1 - 2 ^ (-24))` by which one binary32 rounding in the normal range
can change a magnitude, in either direction. -/
def F32.roundFactor : ℚ := 16777216 / 16777215

/-- Relative closeness of two magnitudes after `k` roundings: each is at most
`roundFactor ^ k` times the other. -/
def F32.Close (k : ℕ) (x y : ℚ) : Prop :=
  x ≤ F32.roundFactor ^ k * y ∧ y ≤ F32.roundFactor ^ k * x

/-! ## Properties of `Particle::Integrate` -/

section IntegrateFacts

variable {α : Type} [LinearOrderedField α]

/-- Claim C1. For a particle with `InverseMass > 0`, `Integrate pow p dt` has position
`Position + Velocity * dt` (old velocity), velocity
`(Velocity + (Acceleration + ForceAccumulation * InverseMass) * dt) * pow Drag dt`,
force accumulator `(0, 0)`, and the same `Acceleration`, `Drag` and `InverseMass`. -/
theorem integrate_finite_mass (pow : α → α → α) (p : Particle α) (dt : α)
    (hm : p.InverseMass > 0) :
    (Particle.Integrate pow p dt).Position
        = p.Position.opAdd (p.Velocity.opMul dt)
    ∧ (Particle.Integrate pow p dt).Velocity
        = ((p.Velocity.opAdd
              ((p.Acceleration.opAdd (p.ForceAccumulation.opMul p.InverseMass)).opMul dt)).opMul
            (pow p.Drag dt))
    ∧ (Particle.Integrate pow p dt).ForceAccumulation = { X := 0, Y := 0 }
    ∧ (Particle.Integrate pow p dt).Acceleration = p.Acceleration
    ∧ (Particle.Integrate pow p dt).Drag = p.Drag
    ∧ (Particle.Integrate pow p dt).InverseMass = p.InverseMass := by
  have hguard : ¬ p.InverseMass ≤ 0 := not_le.mpr hm
  simp [Particle.Integrate, hguard, Particle.ClearForces, Vector2.Clear,
    Vector2.AddScaledVector, Vector2.opMulAssign, Vector2.opAdd, Vector2.opMul]

/-- Witness of C1: position `(1, 2)`, velocity `(3, 4)`, acceleration `(0, -1)`,
accumulated force `(6, 8)`, drag `1 / 2` and inverse mass `1 / 2`, integrated over the
time step `2` with a `pow` that returns `1 / 4` for `(1 / 2, 2)`. -/
theorem integrate_finite_mass_witness :
    let p : Particle ℚ :=
      { Position := ⟨1, 2⟩, Velocity := ⟨3, 4⟩, Acceleration := ⟨0, -1⟩,
        ForceAccumulation := ⟨6, 8⟩, Drag := 1 / 2, InverseMass := 1 / 2 }
    p.InverseMass > 0
    ∧ (Particle.Integrate (fun d t => d * d * (t / 2)) p 2).Position = ⟨7, 10⟩
    ∧ (Particle.Integrate (fun d t => d * d * (t / 2)) p 2).Velocity = ⟨9 / 4, 5 / 2⟩
    ∧ (Particle.Integrate (fun d t => d * d * (t / 2)) p 2).ForceAccumulation = ⟨0, 0⟩
    ∧ (Particle.Integrate (fun d t => d * d * (t / 2)) p 2).Acceleration = ⟨0, -1⟩
    ∧ (Particle.Integrate (fun d t => d * d * (t / 2)) p 2).Drag = 1 / 2
    ∧ (Particle.Integrate (fun d t => d * d * (t / 2)) p 2).InverseMass = 1 / 2 := by
  have h := integrate_finite_mass (fun d t => d * d * (t / 2))
    ({ Position := ⟨1, 2⟩, Velocity := ⟨3, 4⟩, Acceleration := ⟨0, -1⟩,
       ForceAccumulation := ⟨6, 8⟩, Drag := 1 / 2, InverseMass := 1 / 2 } : Particle ℚ) 2
    (by norm_num)
  refine ⟨by norm_num, ?_⟩
  norm_num [Vector2.opAdd, Vector2.opMul] at h
  exact h

/-- For a particle whose inverse mass is not positive, `Integrate` takes the early
return: nothing is written. -/
theorem integrate_of_inverseMass_nonpos (pow : α → α → α) (p : Particle α) (dt : α)
    (hm : p.InverseMass ≤ 0) : Particle.Integrate pow p dt = p := by
  simp [Particle.Integrate, hm]

/-- One client call on a particle with `InverseMass = 0` keeps the inverse mass, the
position and the velocity. -/
theorem call_keeps_immovable (pow : α → α → α) (p : Particle α) (c : ParticleCall α)
    (hm : p.InverseMass = 0) :
    (ParticleCall.apply pow p c).InverseMass = 0
    ∧ (ParticleCall.apply pow p c).Position = p.Position
    ∧ (ParticleCall.apply pow p c).Velocity = p.Velocity := by
  cases c with
  | addForce force => simp [ParticleCall.apply, Particle.AddForce, hm]
  | integrate time =>
    have hle : p.InverseMass ≤ 0 := le_of_eq hm
    simp [ParticleCall.apply, integrate_of_inverseMass_nonpos pow p time hle, hm]

/-- Claim C2 (infinite mass invariance). For a particle with `InverseMass = 0`, every
finite sequence of `AddForce` and `Integrate` calls, with any forces and any time
steps, leaves `Position` and `Velocity` equal to their initial values. -/
theorem infinite_mass_invariance (pow : α → α → α) (p : Particle α)
    (calls : List (ParticleCall α)) (hm : p.InverseMass = 0) :
    (ParticleCall.applyAll pow p calls).Position = p.Position
    ∧ (ParticleCall.applyAll pow p calls).Velocity = p.Velocity := by
  induction calls generalizing p with
  | nil => exact ⟨rfl, rfl⟩
  | cons c cs ih =>
    obtain ⟨hm', hpos, hvel⟩ := call_keeps_immovable pow p c hm
    obtain ⟨h1, h2⟩ := ih (ParticleCall.apply pow p c) hm'
    exact ⟨by simpa [ParticleCall.applyAll] using h1.trans hpos,
      by simpa [ParticleCall.applyAll] using h2.trans hvel⟩

/-- Witness of C2: an immovable particle at `(1, 2)` with velocity `(3, 4)` receives a
force, is integrated, receives another force and is integrated again. -/
theorem infinite_mass_invariance_witness :
    let p : Particle ℚ :=
      { Position := ⟨1, 2⟩, Velocity := ⟨3, 4⟩, Acceleration := ⟨0, -1⟩,
        ForceAccumulation := ⟨0, 0⟩, Drag := 1 / 2, InverseMass := 0 }
    let calls : List (ParticleCall ℚ) :=
      [ParticleCall.addForce ⟨5, 6⟩, ParticleCall.integrate 2,
        ParticleCall.addForce ⟨-1, 7⟩, ParticleCall.integrate (1 / 3)]
    p.InverseMass = 0
    ∧ (ParticleCall.applyAll (fun d _ => d) p calls).Position = ⟨1, 2⟩
    ∧ (ParticleCall.applyAll (fun d _ => d) p calls).Velocity = ⟨3, 4⟩ :=
  ⟨rfl, infinite_mass_invariance (fun d _ => d) _ _ rfl⟩

/-- Claim C6. For `m ≤ 0`, `SetMass(m)` returns the particle it was given: every field,
`InverseMass` and hence `GetMass()` included, is as before. The function is total, so
no error is signalled. -/
theorem setMass_nonpositive_ignored (p : Particle α) (m : α) (hm : m ≤ 0) :
    p.SetMass m = p ∧ (p.SetMass m).GetMass = p.GetMass := by
  have hguard : ¬ m > 0 := not_lt.mpr hm
  simp [Particle.SetMass, hguard]

/-- Witness of C6: the default particle given the mass `-3`. -/
theorem setMass_nonpositive_ignored_witness :
    let p : Particle ℚ :=
      { Position := ⟨0, 0⟩, Velocity := ⟨0, 0⟩, Acceleration := ⟨0, 0⟩,
        ForceAccumulation := ⟨0, 0⟩, Drag := 9995 / 10000, InverseMass := 1 / 10 }
    (-3 : ℚ) ≤ 0 ∧ p.SetMass (-3) = p ∧ (p.SetMass (-3)).GetMass = p.GetMass :=
  ⟨by norm_num, setMass_nonpositive_ignored _ (-3) (by norm_num)⟩

/-- Gravity on a particle with finite mass adds `Gravity * GetMass()` to the accumulator,
over any carrier. -/
theorem UpdateForce_of_finite {β : Type} [Zero β] [One β] [Add β] [Mul β] [Div β] [LT β]
    [DecidableRel (fun a b : β => a < b)]
    (g : GravityForceGenerator β) (p : Particle β) (dt : β)
    (h : p.HasFiniteMass = true) :
    g.UpdateForce p dt
      = { p with ForceAccumulation := p.ForceAccumulation.opAdd (g.Gravity.opMul p.GetMass) } := by
  simp [GravityForceGenerator.UpdateForce, h, Particle.AddForce, Vector2.opAddAssign,
    Vector2.opAdd]

/-- Gravity on a particle without finite mass returns the particle, over any carrier. -/
theorem UpdateForce_of_not_finite {β : Type} [Zero β] [One β] [Add β] [Mul β] [Div β] [LT β]
    [DecidableRel (fun a b : β => a < b)]
    (g : GravityForceGenerator β) (p : Particle β) (dt : β)
    (h : p.HasFiniteMass = false) : g.UpdateForce p dt = p := by
  simp [GravityForceGenerator.UpdateForce, h]

/-- Claim C7. `GravityForceGenerator::UpdateForce(p, dt)`: for a particle with finite
mass the result is `p` with `Gravity * GetMass()` added to the force accumulator, for
every `dt`, all other fields as in `p`; for a particle without finite mass the result
is `p`. -/
theorem gravity_updateForce (g : GravityForceGenerator α) (p : Particle α) (dt : α) :
    (p.HasFiniteMass = true →
      g.UpdateForce p dt
        = { p with ForceAccumulation := p.ForceAccumulation.opAdd (g.Gravity.opMul p.GetMass) })
    ∧ (p.HasFiniteMass = false → g.UpdateForce p dt = p) := by
  constructor
  · intro h
    simp [GravityForceGenerator.UpdateForce, h, Particle.AddForce, Vector2.opAddAssign,
      Vector2.opAdd]
  · intro h
    simp [GravityForceGenerator.UpdateForce, h]

/-- Witness of C7: gravity `(0, -981/100)` on a particle of mass `2` and on an
immovable particle. -/
theorem gravity_updateForce_witness :
    let g : GravityForceGenerator ℚ := { Gravity := ⟨0, -981 / 100⟩ }
    let p : Particle ℚ :=
      { Position := ⟨1, 2⟩, Velocity := ⟨3, 4⟩, Acceleration := ⟨0, 0⟩,
        ForceAccumulation := ⟨5, 6⟩, Drag := 9995 / 10000, InverseMass := 1 / 2 }
    let q : Particle ℚ := { p with InverseMass := 0 }
    (p.HasFiniteMass = true ∧ q.HasFiniteMass = false)
    ∧ g.UpdateForce p 1 = { p with ForceAccumulation := ⟨5, 6 + -981 / 100 * 2⟩ }
    ∧ g.UpdateForce q 1 = q := by
  refine ⟨⟨by simp [Particle.HasFiniteMass], by simp [Particle.HasFiniteMass]⟩, ?_, ?_⟩
  · have h := (gravity_updateForce (⟨⟨0, -981 / 100⟩⟩ : GravityForceGenerator ℚ)
      { Position := ⟨1, 2⟩, Velocity := ⟨3, 4⟩, Acceleration := ⟨0, 0⟩,
        ForceAccumulation := ⟨5, 6⟩, Drag := 9995 / 10000, InverseMass := 1 / 2 } 1).1
      (by simp [Particle.HasFiniteMass])
    simpa [Vector2.opAdd, Vector2.opMul, Particle.GetMass] using h
  · exact (gravity_updateForce (⟨⟨0, -981 / 100⟩⟩ : GravityForceGenerator ℚ)
      { Position := ⟨1, 2⟩, Velocity := ⟨3, 4⟩, Acceleration := ⟨0, 0⟩,
        ForceAccumulation := ⟨5, 6⟩, Drag := 9995 / 10000, InverseMass := 0 } 1).2
      (by simp [Particle.HasFiniteMass])

end IntegrateFacts

/-! ## Properties of `ParticleForceRegistry` -/

section RegistryFacts

/-- Source `RegistryEntry::operator==` holds exactly for equal pairs of addresses. -/
theorem RegistryEntry.opEq_iff (a b : RegistryEntry) : a.opEq b = true ↔ a = b := by
  cases a
  cases b
  simp [RegistryEntry.opEq]

/-- The loop of `RemoveEntry` started at index `i` keeps the first `i` entries and
erases the first occurrence of `dEntry` among the others. -/
theorem RemoveEntry_loop_eq (dEntry : RegistryEntry) (Registry : List RegistryEntry) :
    ∀ (n i : Nat), Registry.length - i = n →
      ParticleForceRegistry.RemoveEntry.loop dEntry Registry i
        = Registry.take i ++ (Registry.drop i).erase dEntry := by
  intro n
  induction n with
  | zero =>
    intro i hi
    have hle : Registry.length ≤ i := by omega
    have hnot : ¬ i < Registry.length := by omega
    rw [ParticleForceRegistry.RemoveEntry.loop]
    simp [hnot, List.take_of_length_le hle, List.drop_of_length_le hle]
  | succ n ih =>
    intro i hi
    have hlt : i < Registry.length := by omega
    rw [ParticleForceRegistry.RemoveEntry.loop]
    simp only [hlt, dite_true]
    rw [List.drop_eq_getElem_cons hlt]
    by_cases heq : (Registry.get ⟨i, hlt⟩).opEq dEntry = true
    · have hd : Registry[i] = dEntry := (RegistryEntry.opEq_iff _ _).mp heq
      simp only [heq, if_true]
      rw [List.eraseIdx_eq_take_drop_succ, hd, List.erase_cons_head]
    · have hd : ¬ Registry[i] = dEntry := fun h => heq ((RegistryEntry.opEq_iff _ _).mpr h)
      simp only [heq, Bool.false_eq_true, if_false]
      rw [ih (i + 1) (by omega), List.erase_cons_tail (by simpa using hd),
        List.take_succ, List.getElem?_eq_getElem hlt]
      simp only [Option.toList, List.append_assoc, List.singleton_append]

/-- Source `RemoveEntry` erases the first occurrence of the pair from the vector. -/
theorem RemoveEntry_eq_erase (r : ParticleForceRegistry) (particle forceGenerator : Nat) :
    (r.RemoveEntry particle forceGenerator).Registry
      = r.Registry.erase { Particle := particle, ForceGenerator := forceGenerator } := by
  simp [ParticleForceRegistry.RemoveEntry, RemoveEntry_loop_eq _ _ _ 0 rfl]

/-- Claim C9. `RemoveEntry(p, g)`: when the registry holds an entry with both addresses
equal to `(p, g)`, the registry splits as `before ++ (p, g) :: after` with no such entry
in `before`, the result is `before ++ after` (the first match is the one removed, every
other entry, later duplicates included, stays in order) and the length drops by one;
when no entry matches, the registry is returned unchanged. The function is total. -/
theorem removeEntry_first_match (r : ParticleForceRegistry) (p g : Nat) :
    ((∃ e ∈ r.Registry, e.Particle = p ∧ e.ForceGenerator = g) →
      ∃ before after : List RegistryEntry,
        r.Registry = before ++ { Particle := p, ForceGenerator := g } :: after
        ∧ (∀ e ∈ before, ¬ (e.Particle = p ∧ e.ForceGenerator = g))
        ∧ (r.RemoveEntry p g).Registry = before ++ after
        ∧ (r.RemoveEntry p g).Registry.length + 1 = r.Registry.length)
    ∧ ((¬ ∃ e ∈ r.Registry, e.Particle = p ∧ e.ForceGenerator = g) →
      r.RemoveEntry p g = r) := by
  constructor
  · rintro ⟨e, he, hp, hg⟩
    have hmem : ({ Particle := p, ForceGenerator := g } : RegistryEntry) ∈ r.Registry := by
      cases e
      simp only at hp hg
      subst hp hg
      exact he
    obtain ⟨before, after, hnot, hsplit, herase⟩ := List.exists_erase_eq hmem
    refine ⟨before, after, hsplit, ?_, ?_, ?_⟩
    · rintro x hx ⟨hxp, hxg⟩
      apply hnot
      cases x
      simp only at hxp hxg
      subst hxp hxg
      exact hx
    · rw [RemoveEntry_eq_erase, herase]
    · rw [RemoveEntry_eq_erase, herase, hsplit]
      simp
      omega
  · intro hnone
    have hnot : ({ Particle := p, ForceGenerator := g } : RegistryEntry) ∉ r.Registry :=
      fun hmem => hnone ⟨_, hmem, rfl, rfl⟩
    have h := RemoveEntry_eq_erase r p g
    rw [List.erase_of_not_mem hnot] at h
    cases r
    cases hr : ParticleForceRegistry.RemoveEntry _ p g
    simp_all

/-- Witness of C9: in the registry `[(1,7), (2,7), (1,8), (2,7), (3,7)]` the call
`RemoveEntry(2, 7)` removes the entry at index `1` and keeps the duplicate; the call
`RemoveEntry(9, 9)` changes nothing. -/
theorem removeEntry_first_match_witness :
    let r : ParticleForceRegistry := { Registry := [⟨1, 7⟩, ⟨2, 7⟩, ⟨1, 8⟩, ⟨2, 7⟩, ⟨3, 7⟩] }
    ((∃ e ∈ r.Registry, e.Particle = 2 ∧ e.ForceGenerator = 7)
      ∧ ¬ ∃ e ∈ r.Registry, e.Particle = 9 ∧ e.ForceGenerator = 9)
    ∧ (r.RemoveEntry 2 7).Registry = [⟨1, 7⟩, ⟨1, 8⟩, ⟨2, 7⟩, ⟨3, 7⟩]
    ∧ (∃ before after : List RegistryEntry,
        r.Registry = before ++ ⟨2, 7⟩ :: after
        ∧ (r.RemoveEntry 2 7).Registry = before ++ after)
    ∧ r.RemoveEntry 9 9 = r := by
  have h := removeEntry_first_match
    { Registry := [⟨1, 7⟩, ⟨2, 7⟩, ⟨1, 8⟩, ⟨2, 7⟩, ⟨3, 7⟩] } 2 7
  have h9 := removeEntry_first_match
    { Registry := [⟨1, 7⟩, ⟨2, 7⟩, ⟨1, 8⟩, ⟨2, 7⟩, ⟨3, 7⟩] } 9 9
  have hyes : ∃ e ∈ [(⟨1, 7⟩ : RegistryEntry), ⟨2, 7⟩, ⟨1, 8⟩, ⟨2, 7⟩, ⟨3, 7⟩],
      e.Particle = 2 ∧ e.ForceGenerator = 7 := ⟨⟨2, 7⟩, by decide, rfl, rfl⟩
  have hno : ¬ ∃ e ∈ [(⟨1, 7⟩ : RegistryEntry), ⟨2, 7⟩, ⟨1, 8⟩, ⟨2, 7⟩, ⟨3, 7⟩],
      e.Particle = 9 ∧ e.ForceGenerator = 9 := by decide
  obtain ⟨before, after, hsplit, _, hres, _⟩ := h.1 hyes
  refine ⟨⟨hyes, hno⟩, ?_, ⟨before, after, hsplit, hres⟩, h9.2 hno⟩
  simp [ParticleForceRegistry.RemoveEntry, ParticleForceRegistry.RemoveEntry.loop,
    RegistryEntry.opEq]

/-- The loop of `UpdateForces` is the left fold of the per-entry call. -/
theorem UpdateForces_loop_eq_foldl {β : Type} (generators : Nat → ParticleForceGenerator β)
    (time : β) (entries : List RegistryEntry) (heap : Nat → Particle β) :
    ParticleForceRegistry.UpdateForces.loop generators time entries heap
      = entries.foldl
          (fun (h : Nat → Particle β) (entry : RegistryEntry) =>
            Function.update h entry.Particle
              ((generators entry.ForceGenerator).UpdateForce (h entry.Particle) time))
          heap := by
  induction entries generalizing heap with
  | nil => rfl
  | cons entry rest ih =>
    simp only [ParticleForceRegistry.UpdateForces.loop, List.foldl_cons]
    exact ih _

/-- The loop of `UpdateForces` with gravity generators, seen from one particle address
`a`, over any carrier: a finite-mass particle gains `Gravity * GetMass()` once for each
entry that names `a`, added to the accumulator from left to right in the order of the
entries; a particle without finite mass is unchanged. -/
theorem UpdateForces_loop_gravity {β : Type} [Zero β] [One β] [Add β] [Mul β] [Div β]
    [LT β] [DecidableRel (fun a b : β => a < b)]
    (gravity : Nat → GravityForceGenerator β) (time : β) (a : Nat)
    (entries : List RegistryEntry) (heap : Nat → Particle β) :
    ((heap a).HasFiniteMass = true →
      ParticleForceRegistry.UpdateForces.loop (fun k => (gravity k).toGenerator) time
          entries heap a
        = { heap a with
            ForceAccumulation :=
              (entries.filter (fun (e : RegistryEntry) => decide (e.Particle = a))).foldl
                (fun (acc : Vector2 β) (e : RegistryEntry) =>
                  acc.opAdd ((gravity e.ForceGenerator).Gravity.opMul (heap a).GetMass))
                (heap a).ForceAccumulation })
    ∧ ((heap a).HasFiniteMass = false →
      ParticleForceRegistry.UpdateForces.loop (fun k => (gravity k).toGenerator) time
          entries heap a = heap a) := by
  induction entries generalizing heap with
  | nil =>
    constructor
    · intro _
      simp [ParticleForceRegistry.UpdateForces.loop]
    · intro _
      rfl
  | cons entry rest ih =>
    by_cases hea : entry.Particle = a
    · constructor
      · intro hfin
        have hstep : Function.update heap entry.Particle
            ((gravity entry.ForceGenerator).toGenerator.UpdateForce (heap entry.Particle) time) a
            = { heap a with
                ForceAccumulation :=
                  (heap a).ForceAccumulation.opAdd
                    ((gravity entry.ForceGenerator).Gravity.opMul (heap a).GetMass) } := by
          subst hea
          rw [Function.update_same]
          exact UpdateForce_of_finite (gravity entry.ForceGenerator)
            (heap entry.Particle) time hfin
        have hfin' : (Function.update heap entry.Particle
            ((gravity entry.ForceGenerator).toGenerator.UpdateForce (heap entry.Particle) time)
            a).HasFiniteMass = true := by
          rw [hstep]
          simpa [Particle.HasFiniteMass] using hfin
        have h := (ih (Function.update heap entry.Particle
          ((gravity entry.ForceGenerator).toGenerator.UpdateForce (heap entry.Particle)
            time))).1 hfin'
        simp only [ParticleForceRegistry.UpdateForces.loop]
        rw [h, hstep]
        simp [hea, Particle.GetMass]
      · intro hinf
        have hstep : Function.update heap entry.Particle
            ((gravity entry.ForceGenerator).toGenerator.UpdateForce (heap entry.Particle) time) a
            = heap a := by
          subst hea
          rw [Function.update_same]
          exact UpdateForce_of_not_finite (gravity entry.ForceGenerator)
            (heap entry.Particle) time hinf
        have h := (ih (Function.update heap entry.Particle
          ((gravity entry.ForceGenerator).toGenerator.UpdateForce (heap entry.Particle)
            time))).2 (by rw [hstep]; exact hinf)
        simp only [ParticleForceRegistry.UpdateForces.loop]
        rw [h, hstep]
    · have hstep : Function.update heap entry.Particle
          ((gravity entry.ForceGenerator).toGenerator.UpdateForce (heap entry.Particle) time) a
          = heap a := Function.update_noteq (fun h => hea h.symm) _ _
      obtain ⟨ih1, ih2⟩ := ih (Function.update heap entry.Particle
        ((gravity entry.ForceGenerator).toGenerator.UpdateForce (heap entry.Particle) time))
      rw [hstep] at ih1 ih2
      constructor
      · intro hfin
        simp only [ParticleForceRegistry.UpdateForces.loop]
        rw [ih1 hfin]
        simp [hea]
      · intro hinf
        simp only [ParticleForceRegistry.UpdateForces.loop]
        exact ih2 hinf

/-- The loop of `UpdateForces` leaves alone every particle that no visited entry names. -/
theorem UpdateForces_loop_no_entry {β : Type} (generators : Nat → ParticleForceGenerator β)
    (time : β) (a : Nat) (entries : List RegistryEntry) (heap : Nat → Particle β)
    (hno : ∀ e ∈ entries, e.Particle ≠ a) :
    ParticleForceRegistry.UpdateForces.loop generators time entries heap a = heap a := by
  induction entries generalizing heap with
  | nil => rfl
  | cons entry rest ih =>
    have hea : a ≠ entry.Particle := fun h => hno entry (List.mem_cons_self _ _) h.symm
    simp only [ParticleForceRegistry.UpdateForces.loop]
    rw [ih _ (fun e he => hno e (List.mem_cons_of_mem _ he)), Function.update_noteq hea]

/-- Claim C10, as amended. Over any carrier: `UpdateForces(dt)` is the left fold, over the
entries in insertion order, of the call `generator->UpdateForce(particle, dt)`, so each
entry is visited exactly once; a particle that no entry names is unchanged. With gravity
generators, a finite-mass particle at address `a` ends with the accumulator
`((acc + Gravity_1 * mass) + Gravity_2 * mass) + ...`, the contributions of the entries
that name `a` added one after the other in insertion order, each entry as often as it
occurs, and with all other fields unchanged; a particle without finite mass is
unchanged. -/
theorem updateForces_fold {β : Type} [Zero β] [One β] [Add β] [Mul β] [Div β] [LT β]
    [DecidableRel (fun a b : β => a < b)]
    (r : ParticleForceRegistry) (dt : β) (heap : Nat → Particle β) :
    (∀ generators : Nat → ParticleForceGenerator β,
      r.UpdateForces generators dt heap
        = r.Registry.foldl
            (fun (h : Nat → Particle β) (entry : RegistryEntry) =>
              Function.update h entry.Particle
                ((generators entry.ForceGenerator).UpdateForce (h entry.Particle) dt))
            heap)
    ∧ (∀ (generators : Nat → ParticleForceGenerator β) (a : Nat),
      (∀ e ∈ r.Registry, e.Particle ≠ a) → r.UpdateForces generators dt heap a = heap a)
    ∧ (∀ (gravity : Nat → GravityForceGenerator β) (a : Nat),
      ((heap a).HasFiniteMass = true →
        r.UpdateForces (fun k => (gravity k).toGenerator) dt heap a
          = { heap a with
              ForceAccumulation :=
                (r.Registry.filter
                    (fun (e : RegistryEntry) => decide (e.Particle = a))).foldl
                  (fun (acc : Vector2 β) (e : RegistryEntry) =>
                    acc.opAdd ((gravity e.ForceGenerator).Gravity.opMul (heap a).GetMass))
                  (heap a).ForceAccumulation })
      ∧ ((heap a).HasFiniteMass = false →
        r.UpdateForces (fun k => (gravity k).toGenerator) dt heap a = heap a)) := by
  refine ⟨fun generators => ?_, fun generators a hno => ?_, fun gravity a => ?_⟩
  · exact UpdateForces_loop_eq_foldl generators dt r.Registry heap
  · exact UpdateForces_loop_no_entry generators dt a r.Registry heap hno
  · exact UpdateForces_loop_gravity gravity dt a r.Registry heap

/-- Claim C11. `AddEntry(p, g)` appends the pair at the end of the registry: the length
grows by one, the entries that were there keep their indices, the entry at the old
length is `(p, g)`, and the number of occurrences of `(p, g)` grows by one, so a pair
that is already registered is added again. -/
theorem addEntry_appends (r : ParticleForceRegistry) (p g : Nat) :
    (r.AddEntry p g).Registry = r.Registry ++ [{ Particle := p, ForceGenerator := g }]
    ∧ (r.AddEntry p g).Registry.length = r.Registry.length + 1
    ∧ (r.AddEntry p g).Registry.take r.Registry.length = r.Registry
    ∧ (∀ i : Nat, i < r.Registry.length →
        (r.AddEntry p g).Registry[i]? = r.Registry[i]?)
    ∧ (r.AddEntry p g).Registry[r.Registry.length]?
        = some { Particle := p, ForceGenerator := g }
    ∧ (r.AddEntry p g).Registry.count { Particle := p, ForceGenerator := g }
        = r.Registry.count { Particle := p, ForceGenerator := g } + 1 := by
  refine ⟨rfl, ?_, ?_, ?_, ?_, ?_⟩
  · simp [ParticleForceRegistry.AddEntry]
  · simp [ParticleForceRegistry.AddEntry]
  · intro i hi
    simp only [ParticleForceRegistry.AddEntry]
    exact List.getElem?_append_left hi
  · simp [ParticleForceRegistry.AddEntry]
  · simp [ParticleForceRegistry.AddEntry]

/-- Witness of C11: the pair `(1, 7)` is added to the registry `[(1,7), (2,7)]`, which
already holds it. -/
theorem addEntry_appends_witness :
    let r : ParticleForceRegistry := { Registry := [⟨1, 7⟩, ⟨2, 7⟩] }
    (r.AddEntry 1 7).Registry = [⟨1, 7⟩, ⟨2, 7⟩, ⟨1, 7⟩]
    ∧ ((1 : Nat) < r.Registry.length ∧ (r.AddEntry 1 7).Registry[1]? = some ⟨2, 7⟩)
    ∧ (r.AddEntry 1 7).Registry.count ⟨1, 7⟩ = 2 := by
  intro r
  obtain ⟨happ, _, _, hidx, _, hcount⟩ := addEntry_appends r 1 7
  have hlt : (1 : Nat) < r.Registry.length := by decide
  refine ⟨happ, ⟨hlt, ?_⟩, ?_⟩
  · rw [hidx 1 hlt]
    rfl
  · rw [hcount]
    decide

/-- Claim C20. `AddEntry(p, g)` followed by `RemoveEntry(p, g)`: the result holds the same
entries as the registry `r` with the same multiplicities; it is `r` itself when `(p, g)`
did not occur in `r`; when `(p, g)` occurred, `r` splits as `before ++ (p, g) :: after`
with no `(p, g)` in `before` and the result is `before ++ after ++ [(p, g)]`, the earlier
occurrence being the one removed. For instance `[a, b]` becomes `[b, a]` for the pair
`a = (1, 1)` with `b = (2, 2)`. -/
theorem addEntry_then_removeEntry (r : ParticleForceRegistry) (p g : Nat) :
    List.Perm ((r.AddEntry p g).RemoveEntry p g).Registry r.Registry
    ∧ (({ Particle := p, ForceGenerator := g } : RegistryEntry) ∉ r.Registry →
        (r.AddEntry p g).RemoveEntry p g = r)
    ∧ (({ Particle := p, ForceGenerator := g } : RegistryEntry) ∈ r.Registry →
        ∃ before after : List RegistryEntry,
          r.Registry = before ++ { Particle := p, ForceGenerator := g } :: after
          ∧ ({ Particle := p, ForceGenerator := g } : RegistryEntry) ∉ before
          ∧ ((r.AddEntry p g).RemoveEntry p g).Registry
              = before ++ after ++ [{ Particle := p, ForceGenerator := g }])
    ∧ ((ParticleForceRegistry.AddEntry { Registry := [⟨1, 1⟩, ⟨2, 2⟩] } 1 1).RemoveEntry
          1 1).Registry = [⟨2, 2⟩, ⟨1, 1⟩] := by
  have hin : ({ Particle := p, ForceGenerator := g } : RegistryEntry) ∈ r.Registry →
      ((r.AddEntry p g).RemoveEntry p g).Registry
        = r.Registry.erase { Particle := p, ForceGenerator := g }
          ++ [{ Particle := p, ForceGenerator := g }] := by
    intro hmem
    rw [RemoveEntry_eq_erase]
    simp only [ParticleForceRegistry.AddEntry]
    exact List.erase_append_left _ hmem
  have hout : ({ Particle := p, ForceGenerator := g } : RegistryEntry) ∉ r.Registry →
      ((r.AddEntry p g).RemoveEntry p g).Registry = r.Registry := by
    intro hnot
    rw [RemoveEntry_eq_erase]
    simp only [ParticleForceRegistry.AddEntry]
    rw [List.erase_append_right _ hnot]
    simp
  refine ⟨?_, ?_, ?_, ?_⟩
  · by_cases hmem : ({ Particle := p, ForceGenerator := g } : RegistryEntry) ∈ r.Registry
    · rw [hin hmem]
      exact (List.perm_append_comm.trans (List.perm_cons_erase hmem).symm)
    · rw [hout hmem]
  · intro hnot
    have h := hout hnot
    cases r
    cases hr : ParticleForceRegistry.RemoveEntry _ p g
    simp_all
  · intro hmem
    obtain ⟨before, after, hnot, hsplit, herase⟩ := List.exists_erase_eq hmem
    exact ⟨before, after, hsplit, hnot, by rw [hin hmem, herase]⟩
  · simp [ParticleForceRegistry.AddEntry, ParticleForceRegistry.RemoveEntry,
      ParticleForceRegistry.RemoveEntry.loop, RegistryEntry.opEq]

/-- Witness of C20: on the registry `[(1,1), (2,2), (1,1)]` the pair `(1, 1)` occurs and
the round trip moves its first occurrence to the end; the pair `(3, 3)` does not occur and
the round trip returns the registry. -/
theorem addEntry_then_removeEntry_witness :
    let r : ParticleForceRegistry := { Registry := [⟨1, 1⟩, ⟨2, 2⟩, ⟨1, 1⟩] }
    ((⟨1, 1⟩ : RegistryEntry) ∈ r.Registry ∧ (⟨3, 3⟩ : RegistryEntry) ∉ r.Registry)
    ∧ ((r.AddEntry 1 1).RemoveEntry 1 1).Registry = [⟨2, 2⟩, ⟨1, 1⟩, ⟨1, 1⟩]
    ∧ (∃ before after : List RegistryEntry,
        r.Registry = before ++ ⟨1, 1⟩ :: after
        ∧ ((r.AddEntry 1 1).RemoveEntry 1 1).Registry = before ++ after ++ [⟨1, 1⟩])
    ∧ (r.AddEntry 3 3).RemoveEntry 3 3 = r := by
  intro r
  have hyes : (⟨1, 1⟩ : RegistryEntry) ∈ r.Registry := by decide
  have hno : (⟨3, 3⟩ : RegistryEntry) ∉ r.Registry := by decide
  obtain ⟨_, habsent, hpresent, _⟩ := addEntry_then_removeEntry r 1 1
  obtain ⟨before, after, hsplit, _, hres⟩ := hpresent hyes
  refine ⟨⟨hyes, hno⟩, ?_, ⟨before, after, hsplit, hres⟩,
    (addEntry_then_removeEntry r 3 3).2.1 hno⟩
  simp [r, ParticleForceRegistry.AddEntry, ParticleForceRegistry.RemoveEntry,
    ParticleForceRegistry.RemoveEntry.loop, RegistryEntry.opEq]

end RegistryFacts

/-! ## Properties of the binary32 model -/

section FloatFacts

open F32

/-- The carrier operations on `F32` are the IEEE-754 operations. -/
theorem F32.add_def (a b : F32) : a + b = F32.add a b := rfl

/-- Subtraction on `F32` unfolds to `F32.sub`. -/
theorem F32.sub_def (a b : F32) : a - b = F32.sub a b := rfl

/-- Multiplication on `F32` unfolds to `F32.mul`. -/
theorem F32.mul_def (a b : F32) : a * b = F32.mul a b := rfl

/-- Division on `F32` unfolds to `F32.div`. -/
theorem F32.div_def (a b : F32) : a / b = F32.div a b := rfl

/-- Order `<` on `F32` unfolds to `F32.lt`. -/
theorem F32.lt_def (a b : F32) : a < b ↔ F32.lt a b = true := Iff.rfl

/-- Order `≤` on `F32` unfolds to `F32.le`. -/
theorem F32.le_def (a b : F32) : a ≤ b ↔ F32.le a b = true := Iff.rfl

/-- The zero of `F32` is `+0`. -/
theorem F32.zero_def : (0 : F32) = F32.finite false 0 := rfl

/-- The one of `F32`. -/
theorem F32.one_def : (1 : F32) = F32.finite false 1 := rfl

/-- An integer rounds to itself. -/
theorem F32.roundEven_intCast (n : ℤ) : F32.roundEven (n : ℚ) = n := by
  simp [F32.roundEven]

/-- A rational strictly within half a unit of an integer rounds to that integer. -/
theorem F32.roundEven_of_lt (x : ℚ) (n : ℤ) (h1 : (n : ℚ) - 1 / 2 < x)
    (h2 : x < (n : ℚ) + 1 / 2) : F32.roundEven x = n := by
  have hfl : (⌊x⌋ : ℚ) ≤ x := Int.floor_le x
  have hfu : x < (⌊x⌋ : ℚ) + 1 := Int.lt_floor_add_one x
  simp only [F32.roundEven]
  by_cases hlow : x - (⌊x⌋ : ℚ) < 1 / 2
  · rw [if_pos hlow]
    have ha : ((⌊x⌋ : ℤ) : ℚ) < (n : ℚ) + 1 := by linarith
    have hb : (n : ℚ) < ((⌊x⌋ : ℤ) : ℚ) + 1 := by linarith
    have ha' : ⌊x⌋ < n + 1 := by exact_mod_cast ha
    have hb' : n < ⌊x⌋ + 1 := by exact_mod_cast hb
    omega
  · rw [if_neg hlow]
    by_cases hhigh : 1 / 2 < x - (⌊x⌋ : ℚ)
    · rw [if_pos hhigh]
      have ha : ((⌊x⌋ : ℤ) : ℚ) < (n : ℚ) := by linarith
      have hb : (n : ℚ) < ((⌊x⌋ : ℤ) : ℚ) + 2 := by linarith
      have ha' : ⌊x⌋ < n := by exact_mod_cast ha
      have hb' : n < ⌊x⌋ + 2 := by exact_mod_cast hb
      omega
    · exfalso
      have heq : x - (⌊x⌋ : ℚ) = 1 / 2 := le_antisymm (not_lt.mp hhigh) (not_lt.mp hlow)
      have ha : ((⌊x⌋ : ℤ) : ℚ) < (n : ℚ) := by linarith
      have hb : (n : ℚ) < ((⌊x⌋ : ℤ) : ℚ) + 1 := by linarith
      have ha' : ⌊x⌋ < n := by exact_mod_cast ha
      have hb' : n < ⌊x⌋ + 1 := by exact_mod_cast hb
      omega

/-- A tie between an even integer and its successor rounds to the even one. -/
theorem F32.roundEven_tie_even (n : ℤ) (he : n % 2 = 0) :
    F32.roundEven ((n : ℚ) + 1 / 2) = n := by
  have hfloor : ⌊(n : ℚ) + 1 / 2⌋ = n := by
    rw [Int.floor_eq_iff]
    constructor <;> linarith
  have hfrac : (n : ℚ) + 1 / 2 - (n : ℚ) = 1 / 2 := by ring
  simp only [F32.roundEven, hfloor, hfrac, lt_irrefl, if_false, he, if_true]

/-- The rounded integer is the floor or its successor. -/
theorem F32.roundEven_bounds (x : ℚ) :
    ⌊x⌋ ≤ F32.roundEven x ∧ F32.roundEven x ≤ ⌊x⌋ + 1 := by
  unfold F32.roundEven
  simp only
  split_ifs <;> constructor <;> omega

/-- Rounding to the nearest integer moves a rational by at most one half. -/
theorem F32.abs_roundEven_sub_le (x : ℚ) : |(F32.roundEven x : ℚ) - x| ≤ 1 / 2 := by
  have hfl : (⌊x⌋ : ℚ) ≤ x := Int.floor_le x
  have hfu : x < (⌊x⌋ : ℚ) + 1 := Int.lt_floor_add_one x
  rw [abs_le]
  unfold F32.roundEven
  simp only
  split_ifs with h1 h2 h3
  · constructor <;> linarith
  · push_cast
    constructor <;> linarith
  · have heq : x - (⌊x⌋ : ℚ) = 1 / 2 := le_antisymm (not_lt.mp h2) (not_lt.mp h1)
    constructor <;> linarith
  · have heq : x - (⌊x⌋ : ℚ) = 1 / 2 := le_antisymm (not_lt.mp h2) (not_lt.mp h1)
    push_cast
    constructor <;> linarith

/-- The exponent of a positive magnitude, from bounds by powers of two. -/
theorem F32.expOf_eq (q : ℚ) (e : ℤ) (hq : 0 < q) (he : -126 ≤ e)
    (hlo : (2 : ℚ) ^ e ≤ q ∨ e = -126) (hhi : q < (2 : ℚ) ^ (e + 1)) :
    F32.expOf q = e := by
  have hupper : Int.log 2 q < e + 1 := by
    have := (Int.lt_zpow_iff_log_lt (R := ℚ) (b := 2) (by norm_num) (x := e + 1) hq).mp
      (by exact_mod_cast hhi)
    exact this
  unfold F32.expOf
  rcases hlo with hlo | hlo
  · have hlower : e ≤ Int.log 2 q :=
      (Int.zpow_le_iff_le_log (R := ℚ) (b := 2) (by norm_num) (x := e) hq).mp
        (by exact_mod_cast hlo)
    have : Int.log 2 q = e := by omega
    rw [this]
    exact max_eq_left he
  · subst hlo
    exact max_eq_right (by omega)

/-- Zero rounds to zero. -/
theorem F32.roundMag_zero : F32.roundMag 0 = 0 := by
  simp [F32.roundMag, F32.roundEven]

/-- The unit in the last place of a magnitude is positive. -/
theorem F32.ulp_pos (q : ℚ) : (0 : ℚ) < 2 ^ (F32.expOf q - 23) := by
  positivity

/-- The exponent is at least `-126`. -/
theorem F32.expOf_ge (q : ℚ) : -126 ≤ F32.expOf q :=
  le_max_right _ _

/-- A positive magnitude lies below the next power of two above its exponent. -/
theorem F32.lt_pow_expOf (q : ℚ) : q < 2 ^ (F32.expOf q + 1) := by
  have h1 : q < ((2 : ℕ) : ℚ) ^ (Int.log 2 q + 1) := Int.lt_zpow_succ_log_self (by norm_num) q
  have h2 : ((2 : ℕ) : ℚ) ^ (Int.log 2 q + 1) ≤ ((2 : ℕ) : ℚ) ^ (F32.expOf q + 1) :=
    zpow_le_zpow_right₀ (by norm_num) (by unfold F32.expOf; omega)
  exact_mod_cast lt_of_lt_of_le h1 h2

/-- A magnitude in the normal range is at least the power of two of its exponent. -/
theorem F32.pow_expOf_le (q : ℚ) (hq : (2 : ℚ) ^ (-126 : ℤ) ≤ q) :
    (2 : ℚ) ^ F32.expOf q ≤ q := by
  have hpos : 0 < q := lt_of_lt_of_le (by positivity) hq
  have hlog : (-126 : ℤ) ≤ Int.log 2 q :=
    (Int.zpow_le_iff_le_log (R := ℚ) (b := 2) (by norm_num) (x := -126) hpos).mp
      (by exact_mod_cast hq)
  have he : F32.expOf q = Int.log 2 q := max_eq_left hlog
  rw [he]
  exact_mod_cast Int.zpow_log_le_self (R := ℚ) (b := 2) (by norm_num) hpos

/-- Rounding a magnitude, given its exponent and the rounded significand. -/
theorem F32.roundMag_eq (q : ℚ) (k n : ℤ) (hq : 0 < q) (hk : -149 ≤ k)
    (hlo : (2 : ℚ) ^ (k + 23) ≤ q ∨ k = -149) (hhi : q < (2 : ℚ) ^ (k + 24))
    (hn : F32.roundEven (q / 2 ^ k) = n) : F32.roundMag q = (n : ℚ) * 2 ^ k := by
  have he : F32.expOf q = k + 23 := by
    apply F32.expOf_eq q (k + 23) hq (by omega)
    · rcases hlo with h | h
      · exact Or.inl h
      · exact Or.inr (by omega)
    · have : k + 23 + 1 = k + 24 := by ring
      rw [this]
      exact hhi
  have hu : F32.expOf q - 23 = k := by omega
  simp only [F32.roundMag, hu, hn]

/-- Evaluation of a rounding whose significand is not a tie. -/
theorem F32.ofSignMag_eval (s : Bool) (q r : ℚ) (k n : ℤ) (hq : 0 < q) (hk : -149 ≤ k)
    (hlo : (2 : ℚ) ^ (k + 23) ≤ q ∨ k = -149) (hhi : q < (2 : ℚ) ^ (k + 24))
    (h1 : (n : ℚ) - 1 / 2 < q / 2 ^ k) (h2 : q / 2 ^ k < (n : ℚ) + 1 / 2)
    (hr : (n : ℚ) * 2 ^ k = r) (hlt : r < 2 ^ 128) :
    F32.ofSignMag s q = F32.finite s r := by
  have h := F32.roundMag_eq q k n hq hk hlo hhi (F32.roundEven_of_lt _ n h1 h2)
  simp only [F32.ofSignMag, h, hr, hlt, if_true]

/-- Evaluation of a rounding whose significand is a tie above an even integer. -/
theorem F32.ofSignMag_eval_tie_even (s : Bool) (q r : ℚ) (k n : ℤ) (hq : 0 < q)
    (hk : -149 ≤ k) (hlo : (2 : ℚ) ^ (k + 23) ≤ q ∨ k = -149) (hhi : q < (2 : ℚ) ^ (k + 24))
    (htie : q / 2 ^ k = (n : ℚ) + 1 / 2) (he : n % 2 = 0)
    (hr : (n : ℚ) * 2 ^ k = r) (hlt : r < 2 ^ 128) :
    F32.ofSignMag s q = F32.finite s r := by
  have hn : F32.roundEven (q / 2 ^ k) = n := by rw [htie]; exact F32.roundEven_tie_even n he
  have h := F32.roundMag_eq q k n hq hk hlo hhi hn
  simp only [F32.ofSignMag, h, hr, hlt, if_true]

/-- A zero magnitude stays a zero of the same sign. -/
theorem F32.ofSignMag_zero (s : Bool) : F32.ofSignMag s 0 = F32.finite s 0 := by
  simp [F32.ofSignMag, F32.roundMag_zero]

/-- A representable magnitude is kept by the rounding. -/
theorem F32.ofSignMag_of_representable (s : Bool) (m : ℚ) (h : F32.Representable m) :
    F32.ofSignMag s m = F32.finite s m := by
  obtain ⟨_, hfix, hlt⟩ := h
  simp only [F32.ofSignMag, hfix, hlt, if_true]

/-- Rounding does not go below a power of two that the magnitude reaches. -/
theorem F32.pow_le_roundMag (q : ℚ) (e : ℤ) (he : -126 ≤ e) (h : (2 : ℚ) ^ e ≤ q) :
    (2 : ℚ) ^ e ≤ F32.roundMag q := by
  have h126 : (2 : ℚ) ^ (-126 : ℤ) ≤ q :=
    le_trans (zpow_le_zpow_right₀ (by norm_num) he) h
  have hpos : 0 < q := lt_of_lt_of_le (by positivity) h126
  have hE : (2 : ℚ) ^ F32.expOf q ≤ q := F32.pow_expOf_le q h126
  have heE : e ≤ F32.expOf q := by
    by_contra hcon
    have hlt : F32.expOf q + 1 ≤ e := by omega
    have h1 : q < (2 : ℚ) ^ (F32.expOf q + 1) := F32.lt_pow_expOf q
    have h2 : (2 : ℚ) ^ (F32.expOf q + 1) ≤ (2 : ℚ) ^ e :=
      zpow_le_zpow_right₀ (by norm_num) hlt
    linarith
  have hu := F32.ulp_pos q
  have hsig : ((2 : ℤ) ^ 23 : ℤ) ≤ ⌊q / 2 ^ (F32.expOf q - 23)⌋ := by
    rw [Int.le_floor]
    rw [le_div_iff₀ hu]
    have : ((((2 : ℤ) ^ 23 : ℤ)) : ℚ) * 2 ^ (F32.expOf q - 23) = 2 ^ F32.expOf q := by
      rw [zpow_sub₀ (by norm_num : (2 : ℚ) ≠ 0)]
      push_cast
      field_simp
      ring
    rw [this]
    exact hE
  have hround := (F32.roundEven_bounds (q / 2 ^ (F32.expOf q - 23))).1
  have hcast : (((2 : ℤ) ^ 23 : ℤ) : ℚ) ≤ (F32.roundEven (q / 2 ^ (F32.expOf q - 23)) : ℚ) := by
    exact_mod_cast le_trans hsig hround
  have hfinal : (2 : ℚ) ^ F32.expOf q ≤ F32.roundMag q := by
    have : ((((2 : ℤ) ^ 23 : ℤ)) : ℚ) * 2 ^ (F32.expOf q - 23) = 2 ^ F32.expOf q := by
      rw [zpow_sub₀ (by norm_num : (2 : ℚ) ≠ 0)]
      push_cast
      field_simp
      ring
    rw [← this]
    simp only [F32.roundMag]
    exact mul_le_mul_of_nonneg_right hcast hu.le
  exact le_trans (zpow_le_zpow_right₀ (by norm_num) heE) hfinal

/-- The rounding error of a magnitude is at most half a unit in the last place. -/
theorem F32.abs_roundMag_sub_le (q : ℚ) :
    |F32.roundMag q - q| ≤ 2 ^ (F32.expOf q - 24) := by
  have hu := F32.ulp_pos q
  have h := F32.abs_roundEven_sub_le (q / 2 ^ (F32.expOf q - 23))
  have hq : q = q / 2 ^ (F32.expOf q - 23) * 2 ^ (F32.expOf q - 23) := by
    field_simp
  have hhalf : (2 : ℚ) ^ (F32.expOf q - 24) = 1 / 2 * 2 ^ (F32.expOf q - 23) := by
    have : F32.expOf q - 24 = F32.expOf q - 23 - 1 := by ring
    rw [this, zpow_sub_one₀ (by norm_num : (2 : ℚ) ≠ 0)]
    ring
  have hdiff : F32.roundMag q - q
      = ((F32.roundEven (q / 2 ^ (F32.expOf q - 23)) : ℚ) - q / 2 ^ (F32.expOf q - 23))
        * 2 ^ (F32.expOf q - 23) := by
    simp only [F32.roundMag]
    field_simp
  rw [hdiff, abs_mul, abs_of_pos hu, hhalf]
  exact mul_le_mul_of_nonneg_right h hu.le

/-- In the normal range the rounding error is at most `2 ^ (-24)` times the magnitude. -/
theorem F32.abs_roundMag_sub_le_rel (q : ℚ) (hq : (2 : ℚ) ^ (-126 : ℤ) ≤ q) :
    |F32.roundMag q - q| ≤ 2 ^ (-24 : ℤ) * q := by
  have h1 := F32.abs_roundMag_sub_le q
  have h2 := F32.pow_expOf_le q hq
  have hsplit : (2 : ℚ) ^ (F32.expOf q - 24) = 2 ^ (-24 : ℤ) * 2 ^ F32.expOf q := by
    rw [← zpow_add₀ (by norm_num : (2 : ℚ) ≠ 0)]
    congr 1
    ring
  rw [hsplit] at h1
  have hpos : (0 : ℚ) < 2 ^ (-24 : ℤ) := by positivity
  exact le_trans h1 (mul_le_mul_of_nonneg_left h2 hpos.le)

/-- Rounding to an integer does not pass an integer bound from below. -/
theorem F32.roundEven_le_of_le (x : ℚ) (N : ℤ) (h : x ≤ (N : ℚ)) : F32.roundEven x ≤ N := by
  rcases eq_or_lt_of_le h with heq | hlt
  · rw [heq, F32.roundEven_intCast]
  · have hfloor : ⌊x⌋ < N := Int.floor_lt.mpr hlt
    have := (F32.roundEven_bounds x).2
    omega

/-- Rounding to an integer does not pass an integer bound from above. -/
theorem F32.le_roundEven_of_le (x : ℚ) (N : ℤ) (h : (N : ℚ) ≤ x) : N ≤ F32.roundEven x := by
  have hfloor : N ≤ ⌊x⌋ := Int.le_floor.mpr h
  have := (F32.roundEven_bounds x).1
  omega

/-- The exponent of a positive magnitude below a power of two is at most that power's. -/
theorem F32.expOf_le_of_le_pow (q : ℚ) (e : ℤ) (hq : 0 < q) (he : -126 ≤ e)
    (h : q ≤ (2 : ℚ) ^ e) : F32.expOf q ≤ e := by
  unfold F32.expOf
  apply max_le _ he
  have h1 : Int.log 2 q ≤ Int.log 2 (((2 : ℕ) : ℚ) ^ e) :=
    Int.log_mono_right hq (by exact_mod_cast h)
  rwa [Int.log_zpow (by norm_num)] at h1

/-- Rounding does not go above a power of two that bounds the magnitude. -/
theorem F32.roundMag_le_pow (q : ℚ) (e : ℤ) (hq : 0 ≤ q) (he : -126 ≤ e)
    (h : q ≤ (2 : ℚ) ^ e) : F32.roundMag q ≤ (2 : ℚ) ^ e := by
  rcases eq_or_lt_of_le hq with hzero | hpos
  · rw [← hzero, F32.roundMag_zero]
    positivity
  have hE : F32.expOf q ≤ e := F32.expOf_le_of_le_pow q e hpos he h
  have hu := F32.ulp_pos q
  obtain ⟨n, hn⟩ : ∃ n : ℕ, e - (F32.expOf q - 23) = (n : ℤ) :=
    ⟨(e - (F32.expOf q - 23)).toNat, (Int.toNat_of_nonneg (by omega)).symm⟩
  have hsplit : (2 : ℚ) ^ e = (((2 : ℤ) ^ n : ℤ) : ℚ) * 2 ^ (F32.expOf q - 23) := by
    have : e = (n : ℤ) + (F32.expOf q - 23) := by omega
    rw [this, zpow_add₀ (by norm_num : (2 : ℚ) ≠ 0), zpow_natCast]
    push_cast
    ring
  have hx : q / 2 ^ (F32.expOf q - 23) ≤ (((2 : ℤ) ^ n : ℤ) : ℚ) := by
    rw [div_le_iff₀ hu, ← hsplit]
    exact h
  have hr := F32.roundEven_le_of_le _ _ hx
  have hr' : (F32.roundEven (q / 2 ^ (F32.expOf q - 23)) : ℚ) ≤ (((2 : ℤ) ^ n : ℤ) : ℚ) := by
    exact_mod_cast hr
  rw [hsplit]
  simp only [F32.roundMag]
  exact mul_le_mul_of_nonneg_right hr' hu.le

/-- The rounded significand is not negative for a magnitude that is not negative. -/
theorem F32.roundEven_nonneg (x : ℚ) (hx : 0 ≤ x) : 0 ≤ F32.roundEven x :=
  F32.le_roundEven_of_le x 0 (by simpa using hx)

/-- The rounded magnitude is not negative. -/
theorem F32.roundMag_nonneg (q : ℚ) (hq : 0 ≤ q) : 0 ≤ F32.roundMag q := by
  have hu := F32.ulp_pos q
  have hx : 0 ≤ q / 2 ^ (F32.expOf q - 23) := div_nonneg hq hu.le
  have hn : (0 : ℚ) ≤ (F32.roundEven (q / 2 ^ (F32.expOf q - 23)) : ℚ) := by
    exact_mod_cast F32.roundEven_nonneg _ hx
  simp only [F32.roundMag]
  exact mul_nonneg hn hu.le

/-- The unit in the last place, times `2 ^ 24`, is the next power of two. -/
theorem F32.pow24_mul_ulp (E : ℤ) :
    (((2 : ℤ) ^ 24 : ℤ) : ℚ) * 2 ^ (E - 23) = 2 ^ (E + 1) := by
  have h : E + 1 = 24 + (E - 23) := by ring
  rw [h, zpow_add₀ (by norm_num : (2 : ℚ) ≠ 0)]
  norm_num

/-- The unit in the last place, times `2 ^ 23`, is the power of two of the exponent. -/
theorem F32.pow23_mul_ulp (E : ℤ) :
    (((2 : ℤ) ^ 23 : ℤ) : ℚ) * 2 ^ (E - 23) = 2 ^ E := by
  have h : E = 23 + (E - 23) := by ring
  nth_rewrite 2 [h]
  rw [zpow_add₀ (by norm_num : (2 : ℚ) ≠ 0)]
  norm_num

/-- The rounded significand has at most 24 bits, or is `2 ^ 24`. -/
theorem F32.roundEven_le_pow24 (q : ℚ) :
    F32.roundEven (q / 2 ^ (F32.expOf q - 23)) ≤ (2 : ℤ) ^ 24 := by
  apply F32.roundEven_le_of_le
  have hu := F32.ulp_pos q
  rw [div_le_iff₀ hu, F32.pow24_mul_ulp]
  exact (F32.lt_pow_expOf q).le

/-- The rounding of a magnitude is a magnitude that the rounding keeps. -/
theorem F32.roundMag_idem (q : ℚ) (hq : 0 ≤ q) :
    F32.roundMag (F32.roundMag q) = F32.roundMag q := by
  have hu := F32.ulp_pos q
  have hE := F32.expOf_ge q
  have hn0 : 0 ≤ F32.roundEven (q / 2 ^ (F32.expOf q - 23)) :=
    F32.roundEven_nonneg _ (div_nonneg hq hu.le)
  have hn24 := F32.roundEven_le_pow24 q
  have hr : F32.roundMag q
      = (F32.roundEven (q / 2 ^ (F32.expOf q - 23)) : ℚ) * 2 ^ (F32.expOf q - 23) := rfl
  rcases eq_or_lt_of_le hn0 with hzero | hpos
  · rw [hr, ← hzero]
    simp [F32.roundMag_zero]
  have hrpos : 0 < F32.roundMag q := by
    rw [hr]
    exact mul_pos (by exact_mod_cast hpos) hu
  rcases eq_or_lt_of_le hn24 with h24 | hlt24
  · have hval : F32.roundMag q = 2 ^ (F32.expOf q + 1) := by
      rw [hr, h24, F32.pow24_mul_ulp]
    have h := F32.roundMag_eq (F32.roundMag q) (F32.expOf q - 22) ((2 : ℤ) ^ 23) hrpos
      (by omega)
      (Or.inl (by
        rw [hval]
        exact zpow_le_zpow_right₀ (by norm_num) (by omega)))
      (by
        rw [hval]
        exact zpow_lt_zpow_right₀ (by norm_num) (by omega))
      (by
        have : F32.roundMag q / 2 ^ (F32.expOf q - 22) = (((2 : ℤ) ^ 23 : ℤ) : ℚ) := by
          rw [hval, div_eq_iff (by positivity)]
          have h2 : F32.expOf q + 1 = 23 + (F32.expOf q - 22) := by ring
          rw [h2, zpow_add₀ (by norm_num : (2 : ℚ) ≠ 0)]
          norm_num
        rw [this, F32.roundEven_intCast])
    rw [h, hval]
    have h2 : F32.expOf q + 1 = 23 + (F32.expOf q - 22) := by ring
    rw [h2, zpow_add₀ (by norm_num : (2 : ℚ) ≠ 0)]
    norm_num
  · have hlo : (2 : ℚ) ^ (F32.expOf q - 23 + 23) ≤ F32.roundMag q ∨ F32.expOf q - 23 = -149 := by
      by_cases h126 : F32.expOf q = -126
      · exact Or.inr (by omega)
      · left
        have hlog : -126 < Int.log 2 q := by
          unfold F32.expOf at h126 hE
          by_contra hcon
          exact h126 (max_eq_right (by omega))
        have hq126 : (2 : ℚ) ^ (-126 : ℤ) ≤ q := by
          have hqpos : 0 < q := by
            by_contra hcon
            have : Int.log 2 q = 0 := Int.log_of_right_le_zero 2 (not_lt.mp hcon)
            rw [hr] at hrpos
            have hq0 : q = 0 := le_antisymm (not_lt.mp hcon) hq
            rw [hq0] at hpos
            simp [F32.roundEven] at hpos
          have h1 : (((2 : ℕ) : ℚ)) ^ Int.log 2 q ≤ q :=
            Int.zpow_log_le_self (by norm_num) hqpos
          have h2 : (((2 : ℕ) : ℚ)) ^ (-126 : ℤ) ≤ ((2 : ℕ) : ℚ) ^ Int.log 2 q :=
            zpow_le_zpow_right₀ (by norm_num) (by omega)
          exact_mod_cast le_trans h2 h1
        have h3 := F32.pow_le_roundMag q (F32.expOf q) hE (F32.pow_expOf_le q hq126)
        have h4 : F32.expOf q - 23 + 23 = F32.expOf q := by ring
        rw [h4]
        exact h3
    have hhi : F32.roundMag q < (2 : ℚ) ^ (F32.expOf q - 23 + 24) := by
      have h4 : F32.expOf q - 23 + 24 = F32.expOf q + 1 := by ring
      rw [h4, ← F32.pow24_mul_ulp, hr]
      exact mul_lt_mul_of_pos_right (by exact_mod_cast hlt24) hu
    have hn : F32.roundEven (F32.roundMag q / 2 ^ (F32.expOf q - 23))
        = F32.roundEven (q / 2 ^ (F32.expOf q - 23)) := by
      rw [hr, mul_div_assoc, div_self (ne_of_gt hu), mul_one, F32.roundEven_intCast]
    rw [F32.roundMag_eq (F32.roundMag q) (F32.expOf q - 23) _ hrpos (by omega) hlo hhi hn]
    exact hr.symm

/-- The rounding of a magnitude below `2 ^ 128` is representable. -/
theorem F32.representable_roundMag (q : ℚ) (hq : 0 ≤ q) (hlt : F32.roundMag q < 2 ^ 128) :
    F32.Representable (F32.roundMag q) :=
  ⟨F32.roundMag_nonneg q hq, F32.roundMag_idem q hq, hlt⟩

/-- A magnitude of at least `2 ^ 128` rounds to the infinity. -/
theorem F32.ofSignMag_overflow (s : Bool) (q : ℚ) (hq : (2 : ℚ) ^ (128 : ℤ) ≤ q) :
    F32.ofSignMag s q = F32.inf s := by
  have h := F32.pow_le_roundMag q 128 (by norm_num) hq
  have hnot : ¬ F32.roundMag q < 2 ^ 128 := by
    have : (2 : ℚ) ^ (128 : ℤ) = 2 ^ 128 := by norm_num
    rw [this] at h
    exact not_lt.mpr h
  simp only [F32.ofSignMag, hnot, if_false]

/-- A positive magnitude of at least `2 ^ (-149)` does not round to zero. -/
theorem F32.roundMag_pos (q : ℚ) (hq : (2 : ℚ) ^ (-149 : ℤ) ≤ q) : 0 < F32.roundMag q := by
  by_cases h126 : (2 : ℚ) ^ (-126 : ℤ) ≤ q
  · exact lt_of_lt_of_le (by positivity) (F32.pow_le_roundMag q (-126) (by norm_num) h126)
  · have hqpos : 0 < q := lt_of_lt_of_le (by positivity) hq
    have he : F32.expOf q = -126 :=
      F32.expOf_eq q (-126) hqpos (by norm_num) (Or.inr rfl)
        (lt_trans (not_le.mp h126) (by norm_num))
    have hx : ((1 : ℤ) : ℚ) ≤ q / 2 ^ (F32.expOf q - 23) := by
      rw [he, le_div_iff₀ (by positivity)]
      simpa using hq
    have hn := F32.le_roundEven_of_le _ 1 hx
    have hn' : (0 : ℚ) < (F32.roundEven (q / 2 ^ (F32.expOf q - 23)) : ℚ) := by
      exact_mod_cast (by omega : 0 < F32.roundEven (q / 2 ^ (F32.expOf q - 23)))
    simp only [F32.roundMag]
    exact mul_pos hn' (F32.ulp_pos q)

/-- IEEE-754 addition is commutative. -/
theorem F32.add_commutes (a b : F32) : a + b = b + a := by
  show F32.add a b = F32.add b a
  cases a with
  | nan => cases b <;> rfl
  | inf s =>
    cases b with
    | nan => rfl
    | inf t =>
      simp only [F32.add]
      by_cases h : s = t
      · subst h; rfl
      · have h' : ¬ t = s := fun e => h e.symm
        simp [h, h']
    | finite t m => rfl
  | finite s m =>
    cases b with
    | nan => rfl
    | inf t => rfl
    | finite t n =>
      simp only [F32.add, Bool.and_comm s t, add_comm (F32.toRat (F32.finite s m))]

/-- A positive magnitude with an integral significand at its exponent is representable. -/
theorem F32.representable_eval (m : ℚ) (k n : ℤ) (hm : 0 < m) (hk : -149 ≤ k)
    (hlo : (2 : ℚ) ^ (k + 23) ≤ m ∨ k = -149) (hhi : m < (2 : ℚ) ^ (k + 24))
    (hn : m / 2 ^ k = (n : ℚ)) (hlt : m < 2 ^ 128) : F32.Representable m := by
  refine ⟨hm.le, ?_, hlt⟩
  have h := F32.roundMag_eq m k n hm hk hlo hhi (by rw [hn, F32.roundEven_intCast])
  rw [h, ← hn]
  field_simp

/-- Zero is representable. -/
theorem F32.representable_zero : F32.Representable 0 :=
  ⟨le_refl _, F32.roundMag_zero, by norm_num⟩

/-- A natural number below `2 ^ 24` is representable. -/
theorem F32.representable_nat (n : ℕ) (h : n < 2 ^ 24) : F32.Representable (n : ℚ) := by
  rcases Nat.eq_zero_or_pos n with hz | hpos
  · subst hz
    simpa using F32.representable_zero
  · have h1 : 2 ^ Nat.log 2 n ≤ n := Nat.pow_log_le_self 2 hpos.ne'
    have h2 : n < 2 ^ (Nat.log 2 n + 1) := Nat.lt_pow_succ_log_self (by norm_num) n
    have he : Nat.log 2 n < 24 := by
      by_contra hcon
      have : 2 ^ 24 ≤ 2 ^ Nat.log 2 n := Nat.pow_le_pow_right (by norm_num) (by omega)
      omega
    have hcast : (((23 - Nat.log 2 n : ℕ)) : ℤ) = 23 - (Nat.log 2 n : ℤ) := by omega
    apply F32.representable_eval (n : ℚ) ((Nat.log 2 n : ℤ) - 23)
      ((n * 2 ^ (23 - Nat.log 2 n) : ℕ) : ℤ)
    · exact_mod_cast hpos
    · omega
    · left
      have : (Nat.log 2 n : ℤ) - 23 + 23 = (Nat.log 2 n : ℤ) := by ring
      rw [this, zpow_natCast]
      exact_mod_cast h1
    · have : (Nat.log 2 n : ℤ) - 23 + 24 = ((Nat.log 2 n + 1 : ℕ) : ℤ) := by
        push_cast; ring
      rw [this, zpow_natCast]
      exact_mod_cast h2
    · rw [div_eq_iff (by positivity)]
      push_cast
      rw [mul_assoc, ← zpow_natCast (2 : ℚ) (23 - Nat.log 2 n), hcast,
        ← zpow_add₀ (by norm_num : (2 : ℚ) ≠ 0)]
      have : 23 - (Nat.log 2 n : ℤ) + ((Nat.log 2 n : ℤ) - 23) = 0 := by ring
      rw [this, zpow_zero, mul_one]
    · have : (n : ℚ) < 2 ^ 24 := by exact_mod_cast h
      exact lt_trans this (by norm_num)

/-- A natural number below `2 ^ 24` is kept by the rounding. -/
theorem F32.ofSignMag_nat (s : Bool) (n : ℕ) (h : n < 2 ^ 24) :
    F32.ofSignMag s (n : ℚ) = F32.finite s (n : ℚ) :=
  F32.ofSignMag_of_representable s _ (F32.representable_nat n h)

/-- The product of two finite numbers is the rounding of the exact product, with the
exclusive or of the signs. -/
theorem F32.mul_finite (s t : Bool) (a b : ℚ) :
    F32.finite s a * F32.finite t b = F32.ofSignMag (xor s t) (a * b) := rfl

/-- The quotient of two finite numbers with a non-zero divisor is the rounding of the
exact quotient, with the exclusive or of the signs. -/
theorem F32.div_finite (s t : Bool) (a b : ℚ) (hb : b ≠ 0) :
    F32.finite s a / F32.finite t b = F32.ofSignMag (xor s t) (a / b) := by
  show F32.div _ _ = _
  simp only [F32.div, hb, if_false]

end FloatFacts

/-! ## Mass and inverse mass in binary32 -/

section MassFacts

open F32

/-- In binary32, `1 / 7` is `9586981 / 2 ^ 26`. -/
theorem F32.one_div_seven :
    (1 : F32) / F32.finite false 7 = F32.finite false (9586981 / 67108864) := by
  show F32.ofSignMag false ((1 : ℚ) / 7) = _
  exact F32.ofSignMag_eval false _ _ (-26) 9586981 (by norm_num) (by norm_num)
    (Or.inl (by norm_num)) (by norm_num) (by norm_num) (by norm_num) (by norm_num)
    (by norm_num)

/-- In binary32, the reciprocal of the float `1 / 7` is `14680063 / 2 ^ 21`, the float
just below `7`. -/
theorem F32.one_div_one_div_seven :
    (1 : F32) / F32.finite false (9586981 / 67108864)
      = F32.finite false (14680063 / 2097152) := by
  have hne : ¬ ((9586981 : ℚ) / 67108864 = 0) := by norm_num
  show F32.div (F32.finite false 1) (F32.finite false (9586981 / 67108864)) = _
  simp only [F32.div, hne, if_false, Bool.xor_false]
  exact F32.ofSignMag_eval false _ _ (-21) 14680063 (by norm_num) (by norm_num)
    (Or.inl (by norm_num)) (by norm_num) (by norm_num) (by norm_num) (by norm_num)
    (by norm_num)

/-- A `float` that is greater than zero is not less than or equal to zero. -/
theorem F32.not_le_zero_of_pos (x : F32) (h : x > 0) : ¬ x ≤ 0 := by
  cases x with
  | nan => simp [GT.gt, F32.lt_def, F32.lt, F32.zero_def] at h
  | inf s =>
    simp only [GT.gt, F32.lt_def, F32.lt, F32.zero_def] at h
    simp only [F32.le_def, F32.le, F32.zero_def]
    cases s <;> simp_all
  | finite s m =>
    simp only [GT.gt, F32.lt_def, F32.lt, F32.zero_def, decide_eq_true_eq] at h
    simp only [F32.le_def, F32.le, F32.zero_def, decide_eq_true_eq, not_le]
    exact h

/-- Claim C3, as amended (force accumulator clearing). In binary32, for every `pow` and
every `dt`: after `Integrate(dt)` on a particle with `InverseMass > 0` the force
accumulator is `(0, 0)`, whatever it held before; on a particle with `InverseMass <= 0`
the early return leaves the whole particle, accumulator included, as it was. -/
theorem force_clearing (pow : F32 → F32 → F32) (p : Particle F32) (dt : F32) :
    (p.InverseMass > 0 → (Particle.Integrate pow p dt).ForceAccumulation = ⟨0, 0⟩)
    ∧ (p.InverseMass ≤ 0 → Particle.Integrate pow p dt = p) := by
  constructor
  · intro hm
    have hguard : ¬ p.InverseMass ≤ 0 := F32.not_le_zero_of_pos _ hm
    simp [Particle.Integrate, hguard, Particle.ClearForces, Vector2.Clear]
  · intro hle
    simp [Particle.Integrate, hle]

/-- Witness of C3 as amended: accumulated force `(1, 0)` on a particle of inverse mass
`1 / 2` and on a particle of inverse mass `0`, integrated over the time step `1`. -/
theorem force_clearing_witness :
    let p : Particle F32 :=
      { Position := ⟨0, 0⟩, Velocity := ⟨0, 0⟩, Acceleration := ⟨0, 0⟩,
        ForceAccumulation := ⟨1, 0⟩, Drag := 1, InverseMass := F32.finite false (1 / 2) }
    let q : Particle F32 := { p with InverseMass := 0 }
    (p.InverseMass > 0 ∧ q.InverseMass ≤ 0)
    ∧ (Particle.Integrate F32.powSmall p 1).ForceAccumulation = ⟨0, 0⟩
    ∧ Particle.Integrate F32.powSmall q 1 = q := by
  intro p q
  have hp : p.InverseMass > 0 := by
    simp only [p, GT.gt, F32.lt_def, F32.lt, F32.zero_def, F32.toRat]
    norm_num
  have hq : q.InverseMass ≤ 0 := by
    simp only [q, F32.le_def, F32.le, F32.zero_def, F32.toRat]
    norm_num
  exact ⟨⟨hp, hq⟩, (force_clearing F32.powSmall p 1).1 hp,
    (force_clearing F32.powSmall q 1).2 hq⟩

/-- Claim C3 fails as stated: a particle with `InverseMass = 0` that holds the accumulated
force `(1, 0)` still holds `(1, 0)`, not `(0, 0)`, after `Integrate(1)`; the early return
of `Integrate` comes before `ClearForces()`. -/
theorem force_clearing_fails :
    (Particle.Integrate F32.powSmall
      { Position := ⟨0, 0⟩, Velocity := ⟨0, 0⟩, Acceleration := ⟨0, 0⟩,
        ForceAccumulation := ⟨1, 0⟩, Drag := F32.ofRat (9995 / 10000),
        InverseMass := 0 } 1).ForceAccumulation = ⟨1, 0⟩
    ∧ (⟨1, 0⟩ : Vector2 F32) ≠ ⟨0, 0⟩ := by
  constructor
  · have hle : (0 : F32) ≤ 0 := by
      simp only [F32.le_def, F32.le, F32.zero_def, F32.toRat]
      norm_num
    simp [Particle.Integrate, hle]
  · simp only [F32.zero_def, F32.one_def, ne_eq, Vector2.mk.injEq, F32.finite.injEq]
    norm_num

/-- The reciprocal of a finite positive `float` in the range `[2 ^ (-126), 2 ^ 126]`: a
finite `float` in the same range, within relative error `2 ^ (-24)` of the exact
reciprocal. -/
theorem F32.one_div_finite (q : ℚ) (hlo : (2 : ℚ) ^ (-126 : ℤ) ≤ q)
    (hhi : q ≤ (2 : ℚ) ^ (126 : ℤ)) :
    (1 : F32) / F32.finite false q = F32.finite false (F32.roundMag (1 / q))
    ∧ (2 : ℚ) ^ (-126 : ℤ) ≤ F32.roundMag (1 / q)
    ∧ F32.roundMag (1 / q) ≤ (2 : ℚ) ^ (126 : ℤ)
    ∧ |F32.roundMag (1 / q) - 1 / q| ≤ 2 ^ (-24 : ℤ) * (1 / q) := by
  have hq : 0 < q := lt_of_lt_of_le (by positivity) hlo
  have hx1 : (2 : ℚ) ^ (-126 : ℤ) ≤ 1 / q := by
    rw [le_div_iff₀ hq]
    calc (2 : ℚ) ^ (-126 : ℤ) * q ≤ 2 ^ (-126 : ℤ) * 2 ^ (126 : ℤ) :=
          mul_le_mul_of_nonneg_left hhi (by positivity)
      _ = 1 := by rw [← zpow_add₀ (by norm_num : (2 : ℚ) ≠ 0)]; norm_num
  have hx2 : 1 / q ≤ (2 : ℚ) ^ (126 : ℤ) := by
    rw [div_le_iff₀ hq]
    calc (1 : ℚ) = 2 ^ (126 : ℤ) * 2 ^ (-126 : ℤ) := by
          rw [← zpow_add₀ (by norm_num : (2 : ℚ) ≠ 0)]; norm_num
      _ ≤ 2 ^ (126 : ℤ) * q := mul_le_mul_of_nonneg_left hlo (by positivity)
  have hy1 := F32.pow_le_roundMag (1 / q) (-126) (by norm_num) hx1
  have hy2 := F32.roundMag_le_pow (1 / q) 126 (by positivity) (by norm_num) hx2
  have hlt : F32.roundMag (1 / q) < 2 ^ 128 :=
    lt_of_le_of_lt hy2 (by norm_num)
  refine ⟨?_, hy1, hy2, F32.abs_roundMag_sub_le_rel _ hx1⟩
  show F32.div (F32.finite false 1) (F32.finite false q) = _
  simp only [F32.div, ne_of_gt hq, if_false, Bool.xor_false, F32.ofSignMag, hlt, if_true]

/-- Claim C5, as amended (mass / inverse-mass duality within float tolerance). In binary32,
for every finite `m` with `2 ^ (-126) ≤ m ≤ 2 ^ 126` and every particle, `SetMass(m)`
followed by `GetMass()` returns a finite value `r` with `|r - m| ≤ 2 ^ (-22) * m`, and
`HasFiniteMass()` is then true. -/
theorem setMass_getMass_tolerance (p : Particle F32) (q : ℚ)
    (hlo : (2 : ℚ) ^ (-126 : ℤ) ≤ q) (hhi : q ≤ (2 : ℚ) ^ (126 : ℤ)) :
    ∃ r : ℚ, (p.SetMass (F32.finite false q)).GetMass = F32.finite false r
      ∧ |r - q| ≤ 2 ^ (-22 : ℤ) * q
      ∧ (p.SetMass (F32.finite false q)).HasFiniteMass = true := by
  have hq : 0 < q := lt_of_lt_of_le (by positivity) hlo
  obtain ⟨hdiv1, hy1, hy2, herr1⟩ := F32.one_div_finite q hlo hhi
  obtain ⟨hdiv2, _, _, herr2⟩ := F32.one_div_finite (F32.roundMag (1 / q)) hy1 hy2
  have hy : 0 < F32.roundMag (1 / q) := lt_of_lt_of_le (by positivity) hy1
  have hguard : F32.finite false q > 0 := by
    simp only [GT.gt, F32.lt_def, F32.lt, F32.zero_def, F32.toRat, decide_eq_true_eq]
    simpa using hq
  have hset : (p.SetMass (F32.finite false q)).InverseMass
      = F32.finite false (F32.roundMag (1 / q)) := by
    simp only [Particle.SetMass, hguard, if_true, hdiv1]
  refine ⟨F32.roundMag (1 / F32.roundMag (1 / q)), ?_, ?_, ?_⟩
  · simp only [Particle.GetMass, hset, hdiv2]
  · have hz : 0 < 1 / F32.roundMag (1 / q) := by positivity
    have hzq : |1 / F32.roundMag (1 / q) - q| ≤ 2 ^ (-24 : ℤ) * (1 / F32.roundMag (1 / q)) := by
      have hrew : 1 / F32.roundMag (1 / q) - q
          = (1 / q - F32.roundMag (1 / q)) / (1 / q) * (1 / F32.roundMag (1 / q)) := by
        field_simp
        ring
      rw [hrew, abs_mul, abs_of_pos hz, abs_div, abs_of_pos (by positivity : (0 : ℚ) < 1 / q)]
      apply mul_le_mul_of_nonneg_right _ hz.le
      rw [div_le_iff₀ (by positivity : (0 : ℚ) < 1 / q), abs_sub_comm]
      exact herr1
    have he : (2 : ℚ) ^ (-24 : ℤ) = 1 / 16777216 := by norm_num
    have he2 : (2 : ℚ) ^ (-22 : ℤ) = 1 / 4194304 := by norm_num
    rw [he] at hzq herr2
    rw [he2]
    rw [abs_le] at hzq herr2 ⊢
    constructor <;> linarith [hzq.1, hzq.2, herr2.1, herr2.2]
  · simp only [Particle.HasFiniteMass, hset, GT.gt, F32.lt_def, F32.lt, F32.zero_def,
      F32.toRat, decide_eq_true_eq]
    simpa using hy

/-- Witness of C5 as amended: the mass `7`, for which `GetMass()` returns the float
`14680063 / 2 ^ 21` just below `7`. -/
theorem setMass_getMass_tolerance_witness :
    ((2 : ℚ) ^ (-126 : ℤ) ≤ 7 ∧ (7 : ℚ) ≤ 2 ^ (126 : ℤ))
    ∧ ∃ r : ℚ, (Particle.new.SetMass (F32.finite false 7)).GetMass = F32.finite false r
      ∧ |r - 7| ≤ 2 ^ (-22 : ℤ) * 7
      ∧ (Particle.new.SetMass (F32.finite false 7)).HasFiniteMass = true :=
  ⟨⟨by norm_num, by norm_num⟩,
    setMass_getMass_tolerance Particle.new 7 (by norm_num) (by norm_num)⟩

/-- Claim C5 fails as stated, at two masses greater than zero: after `SetMass(7)`,
`GetMass()` returns `14680063 / 2 ^ 21 = 6.99999952...`, not `7`; after
`SetMass(+inf)` the inverse mass is `1 / inf = 0` and `HasFiniteMass()` is false. -/
theorem setMass_getMass_fails :
    (F32.finite false 7 > 0
      ∧ (Particle.new.SetMass (F32.finite false 7)).GetMass
          = F32.finite false (14680063 / 2097152)
      ∧ (Particle.new.SetMass (F32.finite false 7)).GetMass ≠ F32.finite false 7)
    ∧ (F32.inf false > 0
      ∧ (Particle.new.SetMass (F32.inf false)).HasFiniteMass = false) := by
  have h7 : F32.finite false 7 > 0 := by
    simp only [GT.gt, F32.lt_def, F32.lt, F32.zero_def, F32.toRat]
    norm_num
  have hinf : F32.inf false > 0 := by
    simp [GT.gt, F32.lt_def, F32.lt, F32.zero_def]
  have hget : (Particle.new.SetMass (F32.finite false 7)).GetMass
      = F32.finite false (14680063 / 2097152) := by
    simp only [Particle.SetMass, h7, if_true, Particle.GetMass, F32.one_div_seven,
      F32.one_div_one_div_seven]
  refine ⟨⟨h7, hget, ?_⟩, hinf, ?_⟩
  · rw [hget]
    simp only [ne_eq, F32.finite.injEq, true_and]
    norm_num
  · simp only [Particle.SetMass, hinf, if_true, Particle.HasFiniteMass]
    simp [GT.gt, F32.lt_def, F32.lt, F32.zero_def, F32.one_def, F32.div_def, F32.div,
      F32.toRat]

/-- The literal `0.1f` is `13421773 / 2 ^ 27`. -/
theorem F32.ofRat_tenth : F32.ofRat (1 / 10) = F32.finite false (13421773 / 134217728) := by
  have hdec : decide ((1 : ℚ) / 10 < 0) = false := by norm_num
  have habs : |(1 : ℚ) / 10| = 1 / 10 := by norm_num
  simp only [F32.ofRat, hdec, habs]
  exact F32.ofSignMag_eval false _ _ (-27) 13421773 (by norm_num) (by norm_num)
    (Or.inl (by norm_num)) (by norm_num) (by norm_num) (by norm_num) (by norm_num)
    (by norm_num)

/-- The literal `0.9995f` is `16768827 / 2 ^ 24`. -/
theorem F32.ofRat_drag : F32.ofRat (9995 / 10000) = F32.finite false (16768827 / 16777216) := by
  have hdec : decide ((9995 : ℚ) / 10000 < 0) = false := by norm_num
  have habs : |(9995 : ℚ) / 10000| = 9995 / 10000 := by norm_num
  simp only [F32.ofRat, hdec, habs]
  exact F32.ofSignMag_eval false _ _ (-24) 16768827 (by norm_num) (by norm_num)
    (Or.inl (by norm_num)) (by norm_num) (by norm_num) (by norm_num) (by norm_num)
    (by norm_num)

/-- In binary32, the reciprocal of `0.1f` is `10`. -/
theorem F32.one_div_tenth :
    (1 : F32) / F32.finite false (13421773 / 134217728) = F32.finite false 10 := by
  have hne : ¬ ((13421773 : ℚ) / 134217728 = 0) := by norm_num
  show F32.div (F32.finite false 1) (F32.finite false (13421773 / 134217728)) = _
  simp only [F32.div, hne, if_false, Bool.xor_false]
  exact F32.ofSignMag_eval false _ _ (-20) 10485760 (by norm_num) (by norm_num)
    (Or.inl (by norm_num)) (by norm_num) (by norm_num) (by norm_num) (by norm_num)
    (by norm_num)

/-- A `float` that is less than or equal to zero is not greater than zero. -/
theorem F32.not_pos_of_le_zero (x : F32) (h : x ≤ 0) : ¬ x > 0 := fun hpos =>
  F32.not_le_zero_of_pos x hpos h

/-- The reciprocal of a positive value of the format other than `+inf` is greater than
zero: it is a positive finite number or `+inf`. -/
theorem F32.one_div_pos (m : F32) (hv : m.IsValue) (hne : m ≠ F32.inf false) (hpos : m > 0) :
    (1 : F32) / m > 0 := by
  cases m with
  | nan => simp [GT.gt, F32.lt_def, F32.lt, F32.zero_def] at hpos
  | inf s =>
    cases s
    · exact absurd rfl hne
    · simp [GT.gt, F32.lt_def, F32.lt, F32.zero_def] at hpos
  | finite s q =>
    obtain ⟨hq0, _, hq128⟩ := hv
    simp only [GT.gt, F32.lt_def, F32.lt, F32.zero_def, F32.toRat, decide_eq_true_eq,
      Bool.false_eq_true, if_false] at hpos
    have hs : s = false := by
      cases s
      · rfl
      · simp only [if_true] at hpos
        linarith
    subst hs
    simp only [Bool.false_eq_true, if_false] at hpos
    have hx : (2 : ℚ) ^ (-149 : ℤ) ≤ 1 / q := by
      rw [le_div_iff₀ hpos]
      calc (2 : ℚ) ^ (-149 : ℤ) * q ≤ 2 ^ (-149 : ℤ) * 2 ^ 128 :=
            mul_le_mul_of_nonneg_left hq128.le (by positivity)
        _ ≤ 1 := by norm_num
    have hr := F32.roundMag_pos (1 / q) hx
    show F32.lt (F32.finite false 0) (F32.div (F32.finite false 1) (F32.finite false q)) = true
    simp only [F32.div, ne_of_gt hpos, if_false, Bool.xor_false, F32.ofSignMag]
    by_cases hlt : F32.roundMag (1 / q) < 2 ^ 128
    · simp only [hlt, if_true, F32.lt, F32.toRat, Bool.false_eq_true, if_false,
        decide_eq_true_eq]
      exact hr
    · simp only [hlt, if_false, F32.lt, Bool.not_false]

/-- One member call other than `SetInverseMass`, with an argument of `SetMass` that is a
value of the format other than `+inf`, keeps a positive inverse mass positive. -/
theorem mutation_keeps_finite (pow : F32 → F32 → F32) (p : Particle F32)
    (c : ParticleMutation F32)
    (hc : ∀ x, c = ParticleMutation.setMass x → x.IsValue ∧ x ≠ F32.inf false)
    (hm : p.InverseMass > 0) : (ParticleMutation.apply pow p c).InverseMass > 0 := by
  cases c with
  | setMass mass =>
    obtain ⟨hv, hne⟩ := hc mass rfl
    by_cases hpos : mass > 0
    · simp only [ParticleMutation.apply, Particle.SetMass, hpos, if_true]
      exact F32.one_div_pos mass hv hne hpos
    · simpa [ParticleMutation.apply, Particle.SetMass, hpos] using hm
  | addForce force => simpa [ParticleMutation.apply, Particle.AddForce] using hm
  | clearForces => simpa [ParticleMutation.apply, Particle.ClearForces] using hm
  | integrate time =>
    have hguard : ¬ p.InverseMass ≤ 0 := F32.not_le_zero_of_pos _ hm
    simpa [ParticleMutation.apply, Particle.Integrate, hguard, Particle.ClearForces] using hm

/-- A finite sequence of such calls keeps a positive inverse mass positive. -/
theorem mutations_keep_finite (pow : F32 → F32 → F32) (calls : List (ParticleMutation F32))
    (hcalls : ∀ x, ParticleMutation.setMass x ∈ calls → x.IsValue ∧ x ≠ F32.inf false)
    (p : Particle F32) (hm : p.InverseMass > 0) :
    (ParticleMutation.applyAll pow p calls).InverseMass > 0 := by
  induction calls generalizing p with
  | nil => exact hm
  | cons c cs ih =>
    apply ih (fun x hx => hcalls x (List.mem_cons_of_mem _ hx))
    apply mutation_keeps_finite pow p c _ hm
    intro x hx
    exact hcalls x (by rw [hx]; exact List.mem_cons_self _ _)

/-- The default inverse mass `0.1f` is greater than zero. -/
theorem Particle.new_inverseMass_pos : (Particle.new).InverseMass > 0 := by
  show F32.lt (F32.finite false 0) (F32.ofRat (1 / 10)) = true
  rw [F32.ofRat_tenth]
  simp only [F32.lt, F32.toRat, Bool.false_eq_true, if_false, decide_eq_true_eq]
  norm_num

/-- Claim C19, as amended (finite mass is invariant without `SetInverseMass` and without
an infinite mass). In binary32: a particle made by `Particle()` or by
`Particle(pos, vel, acc, m)` and then changed by any finite sequence of `SetMass`,
`AddForce`, `ClearForces` and `Integrate` calls has `InverseMass > 0`, so
`HasFiniteMass()` is true, provided every mass passed to the constructor or to `SetMass`
is a value of the format other than `+inf`; for `m <= 0` the second constructor leaves
the default `InverseMass = 0.1f`, for which `GetMass()` is `10`; `SetInverseMass(0)`
produces a particle without finite mass. -/
theorem finite_mass_invariant (pow : F32 → F32 → F32) (calls : List (ParticleMutation F32))
    (position velocity acceleration : Vector2 F32) (m : F32)
    (hcalls : ∀ x, ParticleMutation.setMass x ∈ calls → x.IsValue ∧ x ≠ F32.inf false)
    (hm : m.IsValue ∧ m ≠ F32.inf false) :
    ((ParticleMutation.applyAll pow Particle.new calls).InverseMass > 0
      ∧ (ParticleMutation.applyAll pow Particle.new calls).HasFiniteMass = true)
    ∧ ((ParticleMutation.applyAll pow
          (Particle.newWith position velocity acceleration m) calls).InverseMass > 0
      ∧ (ParticleMutation.applyAll pow
          (Particle.newWith position velocity acceleration m) calls).HasFiniteMass = true)
    ∧ (m ≤ 0 →
        (Particle.newWith position velocity acceleration m).InverseMass = F32.ofRat (1 / 10)
        ∧ (Particle.newWith position velocity acceleration m).GetMass = F32.finite false 10)
    ∧ (Particle.new.SetInverseMass 0).HasFiniteMass = false := by
  have hnew := Particle.new_inverseMass_pos
  have hwith : (Particle.newWith position velocity acceleration m).InverseMass > 0 := by
    by_cases hpos : m > 0
    · simp only [Particle.newWith, Particle.SetMass, hpos, if_true]
      exact F32.one_div_pos m hm.1 hm.2 hpos
    · simp only [Particle.newWith, Particle.SetMass, hpos, if_false]
      exact hnew
  have h1 := mutations_keep_finite pow calls hcalls Particle.new hnew
  have h2 := mutations_keep_finite pow calls hcalls _ hwith
  refine ⟨⟨h1, ?_⟩, ⟨h2, ?_⟩, ?_, ?_⟩
  · simp only [Particle.HasFiniteMass, decide_eq_true_eq]
    exact h1
  · simp only [Particle.HasFiniteMass, decide_eq_true_eq]
    exact h2
  · intro hle
    have hguard : ¬ m > 0 := F32.not_pos_of_le_zero m hle
    have hinv : (Particle.newWith position velocity acceleration m).InverseMass
        = F32.ofRat (1 / 10) := by
      simp only [Particle.newWith, Particle.SetMass, hguard, if_false, Particle.new]
    refine ⟨hinv, ?_⟩
    simp only [Particle.GetMass, hinv, F32.ofRat_tenth, F32.one_div_tenth]
  · simp [Particle.SetInverseMass, Particle.HasFiniteMass, GT.gt, F32.lt_def, F32.lt,
      F32.zero_def, F32.toRat]

/-- Witness of C19 as amended: the constructor is given the mass `-5`; the particle then
receives `SetMass(0)`, a force, `Integrate(1)`, `SetMass(4)`, `ClearForces()` and
`SetMass(-1)`. -/
theorem finite_mass_invariant_witness :
    let calls : List (ParticleMutation F32) :=
      [ParticleMutation.setMass 0, ParticleMutation.addForce ⟨1, 1⟩,
        ParticleMutation.integrate 1, ParticleMutation.setMass (F32.finite false 4),
        ParticleMutation.clearForces, ParticleMutation.setMass (F32.finite true 1)]
    let m : F32 := F32.finite true 5
    (m ≤ 0 ∧ m.IsValue ∧ m ≠ F32.inf false)
    ∧ (Particle.newWith ⟨1, 1⟩ ⟨1, 0⟩ ⟨0, 0⟩ m).InverseMass = F32.ofRat (1 / 10)
    ∧ (Particle.newWith ⟨1, 1⟩ ⟨1, 0⟩ ⟨0, 0⟩ m).GetMass = F32.finite false 10
    ∧ (ParticleMutation.applyAll F32.powSmall
        (Particle.newWith ⟨1, 1⟩ ⟨1, 0⟩ ⟨0, 0⟩ m) calls).HasFiniteMass = true := by
  intro calls m
  have h1 : F32.Representable 1 :=
    F32.representable_eval 1 (-23) 8388608 (by norm_num) (by norm_num)
      (Or.inl (by norm_num)) (by norm_num) (by norm_num) (by norm_num)
  have h4 : F32.Representable 4 :=
    F32.representable_eval 4 (-21) 8388608 (by norm_num) (by norm_num)
      (Or.inl (by norm_num)) (by norm_num) (by norm_num) (by norm_num)
  have h5 : F32.Representable 5 :=
    F32.representable_eval 5 (-21) 10485760 (by norm_num) (by norm_num)
      (Or.inl (by norm_num)) (by norm_num) (by norm_num) (by norm_num)
  have hcalls : ∀ x, ParticleMutation.setMass x ∈ calls → x.IsValue ∧ x ≠ F32.inf false := by
    intro x hx
    simp only [calls, List.mem_cons, ParticleMutation.setMass.injEq, List.mem_singleton,
      reduceCtorEq, false_or, or_false, List.not_mem_nil] at hx
    rcases hx with rfl | rfl | rfl
    · exact ⟨F32.representable_zero, by simp [F32.zero_def]⟩
    · exact ⟨h4, by simp⟩
    · exact ⟨h1, by simp⟩
  have hm : m.IsValue ∧ m ≠ F32.inf false := ⟨h5, by simp [m]⟩
  have hle : m ≤ 0 := by
    simp only [m, F32.le_def, F32.le, F32.zero_def, F32.toRat]
    norm_num
  obtain ⟨_, ⟨_, hfin⟩, hneg, _⟩ :=
    finite_mass_invariant F32.powSmall calls ⟨1, 1⟩ ⟨1, 0⟩ ⟨0, 0⟩ m hcalls hm
  exact ⟨⟨hle, hm.1, hm.2⟩, (hneg hle).1, (hneg hle).2, hfin⟩

/-- Claim C19 fails as stated: `SetMass(+inf)` on a default particle, and the constructor
given the mass `+inf`, pass the guard `m > 0` and store `1 / inf = 0`, so the particle
has no finite mass although `SetInverseMass` was never called. -/
theorem finite_mass_invariant_fails :
    (ParticleMutation.applyAll F32.powSmall Particle.new
        [ParticleMutation.setMass (F32.inf false)]).HasFiniteMass = false
    ∧ (Particle.newWith ⟨0, 0⟩ ⟨0, 0⟩ ⟨0, 0⟩ (F32.inf false)).HasFiniteMass = false := by
  have hinf : F32.inf false > 0 := by
    simp [GT.gt, F32.lt_def, F32.lt, F32.zero_def]
  have hdiv : (1 : F32) / F32.inf false = F32.finite false 0 := rfl
  have hzero : ¬ F32.finite false 0 > 0 := by
    simp [GT.gt, F32.lt_def, F32.lt, F32.zero_def, F32.toRat]
  constructor
  · simp only [ParticleMutation.applyAll, ParticleMutation.apply, Particle.SetMass, hinf,
      if_true, Particle.HasFiniteMass, hdiv, hzero, decide_False]
  · simp only [Particle.newWith, Particle.SetMass, hinf, if_true, Particle.HasFiniteMass,
      hdiv, hzero, decide_False]

end MassFacts

/-! ## Accumulation of forces in binary32 -/

section AccumulationFacts

open F32

/-- The rounding of a positive rational. -/
theorem F32.ofRat_of_pos (q : ℚ) (h : 0 < q) : F32.ofRat q = F32.ofSignMag false q := by
  have hdec : decide (q < 0) = false := by simpa using h.le
  simp only [F32.ofRat, hdec, abs_of_pos h]

/-- The rounding of a negative rational. -/
theorem F32.ofRat_of_neg (q : ℚ) (h : q < 0) : F32.ofRat q = F32.ofSignMag true (-q) := by
  have hdec : decide (q < 0) = true := by simpa using h
  simp only [F32.ofRat, hdec, abs_of_neg h]

/-- The sum of two finite numbers whose exact sum is not zero. -/
theorem F32.add_finite_of_ne (s t : Bool) (a b : ℚ)
    (h : F32.toRat (F32.finite s a) + F32.toRat (F32.finite t b) ≠ 0) :
    F32.finite s a + F32.finite t b
      = F32.ofRat (F32.toRat (F32.finite s a) + F32.toRat (F32.finite t b)) := by
  show F32.add _ _ = _
  simp only [F32.add, h, if_false]

/-- The sum of two finite numbers whose exact sum is zero. -/
theorem F32.add_finite_of_eq (s t : Bool) (a b : ℚ)
    (h : F32.toRat (F32.finite s a) + F32.toRat (F32.finite t b) = 0) :
    F32.finite s a + F32.finite t b = F32.finite (s && t) 0 := by
  show F32.add _ _ = _
  simp only [F32.add, h, if_true]

/-- In binary32, `2 ^ 27 + 1` is `2 ^ 27`. -/
theorem F32.pow27_add_one :
    F32.finite false 134217728 + F32.finite false 1 = F32.finite false 134217728 := by
  rw [F32.add_finite_of_ne _ _ _ _ (by simp only [F32.toRat]; norm_num)]
  have hq : F32.toRat (F32.finite false 134217728) + F32.toRat (F32.finite false 1)
      = 134217729 := by
    simp only [F32.toRat]; norm_num
  rw [hq, F32.ofRat_of_pos _ (by norm_num)]
  exact F32.ofSignMag_eval false _ _ 4 8388608 (by norm_num) (by norm_num)
    (Or.inl (by norm_num)) (by norm_num) (by norm_num) (by norm_num) (by norm_num)
    (by norm_num)

/-- In binary32, `0 + 1` is `1`. -/
theorem F32.zero_add_one : F32.finite false 0 + F32.finite false 1 = F32.finite false 1 := by
  rw [F32.add_finite_of_ne _ _ _ _ (by simp only [F32.toRat]; norm_num)]
  have hq : F32.toRat (F32.finite false 0) + F32.toRat (F32.finite false 1) = 1 := by
    simp only [F32.toRat]; norm_num
  rw [hq, F32.ofRat_of_pos _ (by norm_num)]
  exact F32.ofSignMag_eval false _ _ (-23) 8388608 (by norm_num) (by norm_num)
    (Or.inl (by norm_num)) (by norm_num) (by norm_num) (by norm_num) (by norm_num)
    (by norm_num)

/-- Claim C12, as amended. In binary32, `AddForce` accumulates with the addition of
`float`: `AddForce(f1)` then `AddForce(f2)` leaves the accumulator `(acc + f1) + f2` with
no other field changed, and one addition is commutative, `acc + f = f + acc`. -/
theorem addForce_accumulates (p : Particle F32) (f1 f2 : Vector2 F32) :
    (p.AddForce f1).AddForce f2
        = { p with ForceAccumulation := (p.ForceAccumulation.opAdd f1).opAdd f2 }
    ∧ (p.AddForce f1).ForceAccumulation = p.ForceAccumulation.opAdd f1
    ∧ p.ForceAccumulation.opAdd f1 = f1.opAdd p.ForceAccumulation := by
  refine ⟨rfl, rfl, ?_⟩
  simp only [Vector2.opAdd, F32.add_commutes p.ForceAccumulation.X,
    F32.add_commutes p.ForceAccumulation.Y]

/-- Claim C12 fails as stated: with the accumulator `(2 ^ 27, 0)`, `f1 = (1, 0)` and
`f2 = (-2 ^ 27, 0)`, `AddForce(f1)` then `AddForce(f2)` leaves the accumulator `(0, 0)`,
because `2 ^ 27 + 1` rounds to `2 ^ 27`, while `AddForce(f2)` then `AddForce(f1)` leaves
`(1, 0)`. -/
theorem addForce_comm_fails :
    let p : Particle F32 :=
      { Position := ⟨0, 0⟩, Velocity := ⟨0, 0⟩, Acceleration := ⟨0, 0⟩,
        ForceAccumulation := ⟨F32.finite false 134217728, 0⟩,
        Drag := F32.ofRat (9995 / 10000), InverseMass := F32.ofRat (1 / 10) }
    let f1 : Vector2 F32 := ⟨1, 0⟩
    let f2 : Vector2 F32 := ⟨F32.finite true 134217728, 0⟩
    ((p.AddForce f1).AddForce f2).ForceAccumulation = ⟨0, 0⟩
    ∧ ((p.AddForce f2).AddForce f1).ForceAccumulation = ⟨1, 0⟩
    ∧ (p.AddForce f1).AddForce f2 ≠ (p.AddForce f2).AddForce f1 := by
  intro p f1 f2
  have hcancel : F32.finite false 134217728 + F32.finite true 134217728
      = F32.finite false 0 :=
    F32.add_finite_of_eq _ _ _ _ (by simp only [F32.toRat]; norm_num)
  have hzero : F32.finite false 0 + F32.finite false 0 = F32.finite false 0 :=
    F32.add_finite_of_eq _ _ _ _ (by simp only [F32.toRat]; norm_num)
  have hA : ((p.AddForce f1).AddForce f2).ForceAccumulation = ⟨0, 0⟩ := by
    simp only [p, f1, f2, Particle.AddForce, Vector2.opAddAssign, F32.zero_def, F32.one_def,
      F32.pow27_add_one, hcancel, hzero]
  have hB : ((p.AddForce f2).AddForce f1).ForceAccumulation = ⟨1, 0⟩ := by
    simp only [p, f1, f2, Particle.AddForce, Vector2.opAddAssign, F32.zero_def, F32.one_def,
      hcancel, hzero, F32.zero_add_one]
  refine ⟨hA, hB, ?_⟩
  intro heq
  have h := congrArg Particle.ForceAccumulation heq
  rw [hA, hB] at h
  simp only [F32.zero_def, F32.one_def, Vector2.mk.injEq, F32.finite.injEq, true_and,
    and_true] at h
  norm_num at h

/-- In binary32, `1 / 1`, `1 * 1` and `0 * 1` are exact. -/
theorem F32.small_products :
    (1 : F32) / 1 = 1 ∧ (1 : F32) * 1 = 1 ∧ (0 : F32) * 1 = 0 := by
  have h1 := F32.ofSignMag_nat false 1 (by norm_num)
  have h0 := F32.ofSignMag_zero false
  refine ⟨?_, ?_, ?_⟩
  · rw [F32.one_def, F32.div_finite _ _ _ _ (by norm_num)]
    simpa using h1
  · rw [F32.one_def, F32.mul_finite]
    simpa using h1
  · rw [F32.one_def, F32.zero_def, F32.mul_finite]
    simpa using h0

/-- The one of `float` is greater than zero. -/
theorem F32.one_pos : (1 : F32) > 0 := by
  simp only [GT.gt, F32.lt_def, F32.lt, F32.zero_def, F32.one_def, F32.toRat]
  norm_num

/-- In binary32, `2 ^ 24 + 1` is `2 ^ 24`: the tie goes to the even significand. -/
theorem F32.pow24_add_one :
    F32.finite false 16777216 + 1 = F32.finite false 16777216 := by
  rw [F32.one_def, F32.add_finite_of_ne _ _ _ _ (by simp only [F32.toRat]; norm_num)]
  have hq : F32.toRat (F32.finite false 16777216) + F32.toRat (F32.finite false 1)
      = 16777217 := by
    simp only [F32.toRat]; norm_num
  rw [hq, F32.ofRat_of_pos _ (by norm_num)]
  exact F32.ofSignMag_eval_tie_even false _ _ 1 8388608 (by norm_num) (by norm_num)
    (Or.inl (by norm_num)) (by norm_num) (by norm_num) (by norm_num) (by norm_num)
    (by norm_num)

/-- In binary32, `1 + 1` is `2` and `2 ^ 24 + 2` is `16777218`. -/
theorem F32.pow24_add_two :
    (1 : F32) + 1 = F32.finite false 2
    ∧ F32.finite false 16777216 + F32.finite false 2 = F32.finite false 16777218 := by
  constructor
  · rw [F32.one_def, F32.add_finite_of_ne _ _ _ _ (by simp only [F32.toRat]; norm_num)]
    have hq : F32.toRat (F32.finite false 1) + F32.toRat (F32.finite false 1) = 2 := by
      simp only [F32.toRat]; norm_num
    rw [hq, F32.ofRat_of_pos _ (by norm_num)]
    simpa using F32.ofSignMag_nat false 2 (by norm_num)
  · rw [F32.add_finite_of_ne _ _ _ _ (by simp only [F32.toRat]; norm_num)]
    have hq : F32.toRat (F32.finite false 16777216) + F32.toRat (F32.finite false 2)
        = 16777218 := by
      simp only [F32.toRat]; norm_num
    rw [hq, F32.ofRat_of_pos _ (by norm_num)]
    exact F32.ofSignMag_eval false _ _ 1 8388609 (by norm_num) (by norm_num)
      (Or.inl (by norm_num)) (by norm_num) (by norm_num) (by norm_num) (by norm_num)
      (by norm_num)

/-- In binary32, `0 + 0` is `0`. -/
theorem F32.zero_add_zero : (0 : F32) + 0 = 0 := by
  rw [F32.zero_def]
  exact F32.add_finite_of_eq _ _ _ _ (by simp only [F32.toRat]; norm_num)

/-- Claim C10 fails as stated: the pair `(0, 0)` is registered twice, the generator has
gravity `(1, 0)`, the particle has mass `1` and the accumulator `(2 ^ 24, 0)`. Each call
adds `1 * 1 = 1`, and `2 ^ 24 + 1` rounds to `2 ^ 24`, so `UpdateForces` leaves the
accumulator at `(2 ^ 24, 0)`; the accumulator plus the sum of the two contributions is
`(2 ^ 24 + 2, 0)`. -/
theorem updateForces_sum_fails :
    let r : ParticleForceRegistry := { Registry := [⟨0, 0⟩, ⟨0, 0⟩] }
    let gravity : Nat → GravityForceGenerator F32 := fun _ => { Gravity := ⟨1, 0⟩ }
    let p : Particle F32 :=
      { Position := ⟨0, 0⟩, Velocity := ⟨0, 0⟩, Acceleration := ⟨0, 0⟩,
        ForceAccumulation := ⟨F32.finite false 16777216, 0⟩,
        Drag := F32.ofRat (9995 / 10000), InverseMass := 1 }
    let heap : Nat → Particle F32 := fun _ => p
    let contribution : Vector2 F32 := (gravity 0).Gravity.opMul p.GetMass
    p.HasFiniteMass = true
    ∧ (r.UpdateForces (fun k => (gravity k).toGenerator) 1 heap 0).ForceAccumulation
        = ⟨F32.finite false 16777216, 0⟩
    ∧ p.ForceAccumulation.opAdd (contribution.opAdd contribution)
        = ⟨F32.finite false 16777218, 0⟩
    ∧ (r.UpdateForces (fun k => (gravity k).toGenerator) 1 heap 0).ForceAccumulation
        ≠ p.ForceAccumulation.opAdd (contribution.opAdd contribution) := by
  intro r gravity p heap contribution
  obtain ⟨hdiv, hmul1, hmul0⟩ := F32.small_products
  obtain ⟨h11, h242⟩ := F32.pow24_add_two
  have hfin : p.HasFiniteMass = true := by
    simp only [p, Particle.HasFiniteMass, decide_eq_true_eq]
    exact F32.one_pos
  have hrun : (r.UpdateForces (fun k => (gravity k).toGenerator) 1 heap 0).ForceAccumulation
      = ⟨F32.finite false 16777216, 0⟩ := by
    have h := (UpdateForces_loop_gravity gravity 1 0 r.Registry heap).1 hfin
    simp only [ParticleForceRegistry.UpdateForces]
    rw [h]
    simp only [r, gravity, heap, p, List.filter, decide_True, List.foldl, Vector2.opAdd,
      Vector2.opMul, Particle.GetMass, hdiv, hmul1, hmul0, F32.pow24_add_one,
      F32.zero_add_zero]
  have hsum : p.ForceAccumulation.opAdd (contribution.opAdd contribution)
      = ⟨F32.finite false 16777218, 0⟩ := by
    simp only [contribution, gravity, p, Vector2.opAdd, Vector2.opMul, Particle.GetMass, hdiv,
      hmul1, hmul0, h11, h242, F32.zero_add_zero]
  refine ⟨hfin, hrun, hsum, ?_⟩
  rw [hrun, hsum]
  simp only [ne_eq, Vector2.mk.injEq, F32.finite.injEq, true_and, and_true]
  norm_num

/-- Witness of C10 as amended, in binary32: the registry `[(0,0), (1,0), (0,0)]` with
gravity `(0, -10)`; the particle at address `0` has mass `1` and an empty accumulator,
the one at address `1` is immovable, and address `2` is not registered. The pair `(0,0)`
is registered twice and contributes twice. -/
theorem updateForces_fold_witness :
    let r : ParticleForceRegistry := { Registry := [⟨0, 0⟩, ⟨1, 0⟩, ⟨0, 0⟩] }
    let gravity : Nat → GravityForceGenerator F32 :=
      fun _ => { Gravity := ⟨0, F32.finite true 10⟩ }
    let p : Particle F32 :=
      { Position := ⟨1, 1⟩, Velocity := ⟨1, 0⟩, Acceleration := ⟨0, 0⟩,
        ForceAccumulation := ⟨0, 0⟩, Drag := F32.ofRat (9995 / 10000), InverseMass := 1 }
    let heap : Nat → Particle F32 := fun a => if a = 0 then p else { p with InverseMass := 0 }
    ((heap 0).HasFiniteMass = true ∧ (heap 1).HasFiniteMass = false
      ∧ ∀ e ∈ r.Registry, e.Particle ≠ 2)
    ∧ r.UpdateForces (fun k => (gravity k).toGenerator) 1 heap 0
        = { p with ForceAccumulation := ⟨0, F32.finite true 20⟩ }
    ∧ r.UpdateForces (fun k => (gravity k).toGenerator) 1 heap 1 = heap 1
    ∧ r.UpdateForces (fun k => (gravity k).toGenerator) 1 heap 2 = heap 2 := by
  intro r gravity p heap
  obtain ⟨_, hnone, hgrav⟩ := updateForces_fold r (1 : F32) heap
  obtain ⟨hdiv, _, hmul0⟩ := F32.small_products
  have h0 : (heap 0).HasFiniteMass = true := by
    simp only [heap, p, if_true, Particle.HasFiniteMass, decide_eq_true_eq]
    exact F32.one_pos
  have h1 : (heap 1).HasFiniteMass = false := by
    simp [heap, p, Particle.HasFiniteMass, GT.gt, F32.lt_def, F32.lt, F32.zero_def, F32.toRat]
  have h2 : ∀ e ∈ r.Registry, e.Particle ≠ 2 := by decide
  have hten : F32.finite true 10 * 1 = F32.finite true 10 := by
    rw [F32.one_def, F32.mul_finite]
    simpa using F32.ofSignMag_nat true 10 (by norm_num)
  have hadd1 : (0 : F32) + F32.finite true 10 = F32.finite true 10 := by
    rw [F32.zero_def, F32.add_finite_of_ne _ _ _ _ (by simp only [F32.toRat]; norm_num)]
    have hq : F32.toRat (F32.finite false 0) + F32.toRat (F32.finite true 10) = -10 := by
      simp only [F32.toRat]; norm_num
    rw [hq, F32.ofRat_of_neg _ (by norm_num)]
    simpa using F32.ofSignMag_nat true 10 (by norm_num)
  have hadd2 : F32.finite true 10 + F32.finite true 10 = F32.finite true 20 := by
    rw [F32.add_finite_of_ne _ _ _ _ (by simp only [F32.toRat]; norm_num)]
    have hq : F32.toRat (F32.finite true 10) + F32.toRat (F32.finite true 10) = -20 := by
      simp only [F32.toRat]; norm_num
    rw [hq, F32.ofRat_of_neg _ (by norm_num)]
    simpa using F32.ofSignMag_nat true 20 (by norm_num)
  refine ⟨⟨h0, h1, h2⟩, ?_, (hgrav gravity 1).2 h1,
    hnone (fun k => (gravity k).toGenerator) 2 h2⟩
  rw [(hgrav gravity 0).1 h0]
  simp only [r, gravity, heap, p, if_true, List.filter, decide_True, decide_False, List.foldl,
    Vector2.opAdd, Vector2.opMul, Particle.GetMass, hdiv, hmul0, hten, hadd1, hadd2,
    F32.zero_add_zero]

end AccumulationFacts

/-! ## Gravity and integration in binary32 -/

section FallFacts

open F32

/-- A representable finite number times `1` is itself. -/
theorem F32.mul_one_of_representable (s : Bool) (m : ℚ) (h : F32.Representable m) :
    F32.finite s m * 1 = F32.finite s m := by
  rw [F32.one_def, F32.mul_finite]
  simpa using F32.ofSignMag_of_representable s m h

/-- Zero plus a representable non-zero finite number is that number. -/
theorem F32.zero_add_of_representable (s : Bool) (m : ℚ) (h : F32.Representable m)
    (hm : m ≠ 0) : (0 : F32) + F32.finite s m = F32.finite s m := by
  have hpos : 0 < m := lt_of_le_of_ne h.1 (Ne.symm hm)
  cases s with
  | false =>
    rw [F32.zero_def, F32.add_finite_of_ne _ _ _ _ (by simp only [F32.toRat]; simpa using hm)]
    have hq : F32.toRat (F32.finite false 0) + F32.toRat (F32.finite false m) = m := by
      simp only [F32.toRat]; simp
    rw [hq, F32.ofRat_of_pos _ hpos]
    exact F32.ofSignMag_of_representable false m h
  | true =>
    rw [F32.zero_def, F32.add_finite_of_ne _ _ _ _ (by simp only [F32.toRat]; simpa using hm)]
    have hq : F32.toRat (F32.finite false 0) + F32.toRat (F32.finite true m) = -m := by
      simp only [F32.toRat]; simp
    rw [hq, F32.ofRat_of_neg _ (by linarith), neg_neg]
    exact F32.ofSignMag_of_representable true m h

end FallFacts

/-! ## Magnitude and distance in binary32 -/

section MagnitudeFacts

open F32

/-- The approximation of the square root is exact on the square of a natural number. -/
theorem F32.sqrtApprox_sq (c : ℕ) : F32.sqrtApprox ((c : ℚ) * c) = c := by
  have hcast : (c : ℚ) * c * 4 ^ 128 = (((c * 2 ^ 128) * (c * 2 ^ 128) : ℕ) : ℚ) := by
    push_cast
    ring
  have hfloor : ⌊(c : ℚ) * c * 4 ^ 128⌋₊ = (c * 2 ^ 128) * (c * 2 ^ 128) := by
    rw [hcast, Nat.floor_natCast]
  have hsqrt : Nat.sqrt ((c * 2 ^ 128) * (c * 2 ^ 128)) = c * 2 ^ 128 := Nat.sqrt_eq _
  have hexact : (((c * 2 ^ 128 : ℕ)) : ℚ) * ((c * 2 ^ 128 : ℕ) : ℚ) = (c : ℚ) * c * 4 ^ 128 := by
    push_cast
    ring
  simp only [F32.sqrtApprox, hfloor, hsqrt, hexact, if_true]
  push_cast
  norm_num

/-- The approximation of the square root is not negative. -/
theorem F32.sqrtApprox_nonneg (q : ℚ) : 0 ≤ F32.sqrtApprox q := by
  unfold F32.sqrtApprox
  simp only
  split_ifs <;> positivity

/-- The square root of a `float` is never less than zero. -/
theorem F32.sqrt_not_neg (x : F32) : ¬ F32.sqrt x < 0 := by
  rw [F32.lt_def, F32.zero_def]
  cases x with
  | nan => simp [F32.sqrt, F32.lt]
  | inf s => cases s <;> simp [F32.sqrt, F32.lt]
  | finite s a =>
    by_cases ha : a = 0
    · simp only [F32.sqrt, ha, if_true, F32.lt, F32.toRat]
      cases s <;> simp
    · cases s with
      | true => simp [F32.sqrt, ha, F32.lt]
      | false =>
        simp only [F32.sqrt, ha, if_false, Bool.false_eq_true, F32.ofSignMag]
        have hr := F32.roundMag_nonneg _ (F32.sqrtApprox_nonneg a)
        split_ifs
        · simp only [F32.lt, F32.toRat, Bool.false_eq_true, if_false, decide_eq_true_eq,
            not_lt]
          exact hr
        · simp [F32.lt]

/-- In binary32, `3 * 3 + 4 * 4` is `25` and its square root is `5`. -/
theorem F32.three_four_five :
    F32.finite false 3 * F32.finite false 3 + F32.finite false 4 * F32.finite false 4
        = F32.finite false 25
    ∧ F32.finite true 3 * F32.finite true 3 + F32.finite true 4 * F32.finite true 4
        = F32.finite false 25
    ∧ F32.sqrt (F32.finite false 25) = F32.finite false 5 := by
  have h9 : F32.ofSignMag false (3 * 3) = F32.finite false 9 := by
    have : (3 : ℚ) * 3 = ((9 : ℕ) : ℚ) := by norm_num
    rw [this]
    simpa using F32.ofSignMag_nat false 9 (by norm_num)
  have h16 : F32.ofSignMag false (4 * 4) = F32.finite false 16 := by
    have : (4 : ℚ) * 4 = ((16 : ℕ) : ℚ) := by norm_num
    rw [this]
    simpa using F32.ofSignMag_nat false 16 (by norm_num)
  have hsum : F32.finite false 9 + F32.finite false 16 = F32.finite false 25 := by
    rw [F32.add_finite_of_ne _ _ _ _ (by simp only [F32.toRat]; norm_num)]
    have hq : F32.toRat (F32.finite false 9) + F32.toRat (F32.finite false 16)
        = ((25 : ℕ) : ℚ) := by
      simp only [F32.toRat]; norm_num
    rw [hq, F32.ofRat_of_pos _ (by norm_num)]
    simpa using F32.ofSignMag_nat false 25 (by norm_num)
  refine ⟨?_, ?_, ?_⟩
  · rw [F32.mul_finite, F32.mul_finite]
    simp only [Bool.xor_false]
    rw [h9, h16, hsum]
  · rw [F32.mul_finite, F32.mul_finite]
    simp only [Bool.xor_self]
    rw [h9, h16, hsum]
  · have hsq : F32.sqrtApprox 25 = ((5 : ℕ) : ℚ) := by
      have := F32.sqrtApprox_sq 5
      have h25 : ((5 : ℕ) : ℚ) * ((5 : ℕ) : ℚ) = 25 := by norm_num
      rwa [h25] at this
    have hne : ¬ ((25 : ℚ) = 0) := by norm_num
    simp only [F32.sqrt, hne, if_false, Bool.false_eq_true, hsq]
    simpa using F32.ofSignMag_nat false 5 (by norm_num)

end MagnitudeFacts

/-! ## The cross scalar in binary32 -/

section CrossFacts

open F32

/-- A finite value is a sign with a representable magnitude. -/
theorem F32.isFinite_iff (x : F32) :
    x.IsFinite ↔ ∃ s m, x = F32.finite s m ∧ F32.Representable m := by
  cases x with
  | nan => simp [F32.IsFinite]
  | inf s => simp [F32.IsFinite]
  | finite s m =>
    simp only [F32.IsFinite]
    constructor
    · intro h
      exact ⟨s, m, rfl, h⟩
    · rintro ⟨s2, m2, heq, h⟩
      cases heq
      exact h

/-- A rounding that is finite is the rounded magnitude with the sign. -/
theorem F32.ofSignMag_of_isFinite (s : Bool) (q : ℚ) (h : (F32.ofSignMag s q).IsFinite) :
    F32.ofSignMag s q = F32.finite s (F32.roundMag q) := by
  by_cases hlt : F32.roundMag q < 2 ^ 128
  · simp only [F32.ofSignMag, hlt, if_true]
  · simp only [F32.ofSignMag, hlt, if_false, F32.IsFinite] at h

/-- The exact value of a finite number is its magnitude with its sign. -/
theorem F32.toRat_finite (s : Bool) (a : ℚ) :
    F32.toRat (F32.finite s a) = (if s then -1 else 1) * a := by
  cases s <;> simp [F32.toRat]

/-- Two finite numbers of the same magnitude, and of the same sign unless the magnitude
is zero, have a zero as their difference. -/
theorem F32.sub_same_mag (s t : Bool) (r : ℚ) (h : r ≠ 0 → s = t) :
    F32.finite s r - F32.finite t r = F32.finite (s && !t) 0 := by
  show F32.add (F32.finite s r) (F32.neg (F32.finite t r)) = _
  have hq : F32.toRat (F32.finite s r) + F32.toRat (F32.finite (!t) r) = 0 := by
    by_cases hr : r = 0
    · subst hr
      cases s <;> cases t <;> simp [F32.toRat]
    · have hst := h hr
      subst hst
      cases s <;> simp [F32.toRat]
  simp only [F32.neg, F32.add, hq, if_true]

/-- Linearly dependent vectors have an exact cross product of zero. -/
theorem Vector2.Collinear.cross_eq {A B : Vector2 F32} (h : Vector2.Collinear A B) :
    F32.toRat A.X * F32.toRat B.Y = F32.toRat A.Y * F32.toRat B.X := by
  obtain ⟨s, t, hst, h1, h2⟩ := h
  rcases hst with hs | ht
  · have hmul : s * (F32.toRat A.X * F32.toRat B.Y - F32.toRat A.Y * F32.toRat B.X) = 0 := by
      calc s * (F32.toRat A.X * F32.toRat B.Y - F32.toRat A.Y * F32.toRat B.X)
          = (s * F32.toRat A.X) * F32.toRat B.Y - (s * F32.toRat A.Y) * F32.toRat B.X := by
            ring
        _ = (t * F32.toRat B.X) * F32.toRat B.Y - (t * F32.toRat B.Y) * F32.toRat B.X := by
            rw [h1, h2]
        _ = 0 := by ring
    exact sub_eq_zero.mp ((mul_eq_zero.mp hmul).resolve_left hs)
  · have hmul : t * (F32.toRat A.X * F32.toRat B.Y - F32.toRat A.Y * F32.toRat B.X) = 0 := by
      calc t * (F32.toRat A.X * F32.toRat B.Y - F32.toRat A.Y * F32.toRat B.X)
          = F32.toRat A.X * (t * F32.toRat B.Y) - F32.toRat A.Y * (t * F32.toRat B.X) := by
            ring
        _ = F32.toRat A.X * (s * F32.toRat A.Y) - F32.toRat A.Y * (s * F32.toRat A.X) := by
            rw [h1, h2]
        _ = 0 := by ring
    exact sub_eq_zero.mp ((mul_eq_zero.mp hmul).resolve_left ht)

/-- Two signed products of non-negative magnitudes that agree have the same magnitude,
and the same sign unless they are zero. -/
theorem F32.signed_products (s1 s2 t1 t2 : Bool) (a1 a2 b1 b2 : ℚ)
    (ha1 : 0 ≤ a1) (ha2 : 0 ≤ a2) (hb1 : 0 ≤ b1) (hb2 : 0 ≤ b2)
    (h : ((if s1 then -1 else 1) * a1) * ((if t2 then -1 else 1) * b2)
      = ((if s2 then -1 else 1) * a2) * ((if t1 then -1 else 1) * b1)) :
    a1 * b2 = a2 * b1 ∧ (a1 * b2 ≠ 0 → xor s1 t2 = xor s2 t1) := by
  have hp : 0 ≤ a1 * b2 := mul_nonneg ha1 hb2
  have hq : 0 ≤ a2 * b1 := mul_nonneg ha2 hb1
  cases s1 <;> cases s2 <;> cases t1 <;> cases t2 <;>
    simp only [Bool.false_eq_true, if_false, if_true, Bool.xor_false, Bool.xor_true,
      Bool.not_false, Bool.not_true, Bool.false_xor, Bool.true_xor, ne_eq, not_true_eq_false,
      not_false_eq_true, implies_true, and_true, imp_false, not_not, Bool.true_eq_false,
      Bool.xor_self] at h ⊢ <;>
    first
      | (constructor <;> nlinarith)
      | nlinarith

/-- Claim C18, as amended. The scalar `A % B` is `A.X * B.Y - A.Y * B.X`, each operation
rounded to binary32. When the four components are finite, `A` and `B` are linearly
dependent over their exact values and the product `A.X * B.Y` does not overflow, the
result is a zero (`+0` or `-0`). -/
theorem cross_of_collinear (A B : Vector2 F32) :
    A.opMod B = A.X * B.Y - A.Y * B.X
    ∧ (A.X.IsFinite → A.Y.IsFinite → B.X.IsFinite → B.Y.IsFinite →
        (A.X * B.Y).IsFinite → Vector2.Collinear A B →
        ∃ s, A.opMod B = F32.finite s 0) := by
  refine ⟨rfl, ?_⟩
  intro hAX hAY hBX hBY hprod hcol
  have hcross := hcol.cross_eq
  obtain ⟨ax, ay⟩ := A
  obtain ⟨bx, byy⟩ := B
  obtain ⟨s1, a1, rfl, ha1, -⟩ := (F32.isFinite_iff ax).mp hAX
  obtain ⟨s2, a2, rfl, ha2, -⟩ := (F32.isFinite_iff ay).mp hAY
  obtain ⟨t1, b1, rfl, hb1, -⟩ := (F32.isFinite_iff bx).mp hBX
  obtain ⟨t2, b2, rfl, hb2, -⟩ := (F32.isFinite_iff byy).mp hBY
  rw [F32.toRat_finite, F32.toRat_finite, F32.toRat_finite, F32.toRat_finite] at hcross
  obtain ⟨hmag, hsign⟩ := F32.signed_products s1 s2 t1 t2 a1 a2 b1 b2 ha1 ha2 hb1 hb2 hcross
  rw [F32.mul_finite] at hprod
  have hp := F32.ofSignMag_of_isFinite _ _ hprod
  have hlt : F32.roundMag (a1 * b2) < 2 ^ 128 := by
    rw [hp] at hprod
    exact hprod.2.2
  have hq : F32.ofSignMag (xor s2 t1) (a2 * b1)
      = F32.finite (xor s2 t1) (F32.roundMag (a1 * b2)) := by
    simp only [F32.ofSignMag, ← hmag, hlt, if_true]
  refine ⟨xor s1 t2 && !(xor s2 t1), ?_⟩
  rw [Vector2.opMod, F32.mul_finite, F32.mul_finite, hp, hq]
  apply F32.sub_same_mag
  intro hr
  apply hsign
  intro hzero
  rw [hzero, F32.roundMag_zero] at hr
  exact hr rfl

/-- In binary32, `1 * 4` and `2 * 2` are both `4`. -/
theorem F32.one_four_two_two :
    F32.finite false 1 * F32.finite false 4 = F32.finite false 4
    ∧ F32.finite false 2 * F32.finite false 2 = F32.finite false 4 := by
  have h4 : F32.ofSignMag false 4 = F32.finite false 4 := by
    simpa using F32.ofSignMag_nat false 4 (by norm_num)
  constructor
  · rw [F32.mul_finite]
    have : (1 : ℚ) * 4 = 4 := by norm_num
    rw [this]
    exact h4
  · rw [F32.mul_finite]
    have : (2 : ℚ) * 2 = 4 := by norm_num
    rw [this]
    exact h4

/-- The amended claim C18 at `A = (1, 2)` and `B = (2, 4)`, where `2 * A = B`. -/
theorem cross_of_collinear_witness :
    Vector2.Collinear ⟨F32.finite false 1, F32.finite false 2⟩
      ⟨F32.finite false 2, F32.finite false 4⟩
    ∧ ∃ s, Vector2.opMod (⟨F32.finite false 1, F32.finite false 2⟩ : Vector2 F32)
        ⟨F32.finite false 2, F32.finite false 4⟩ = F32.finite s 0 := by
  have h1 : F32.Representable 1 := by simpa using F32.representable_nat 1 (by norm_num)
  have h2 : F32.Representable 2 := by simpa using F32.representable_nat 2 (by norm_num)
  have h4 : F32.Representable 4 := by simpa using F32.representable_nat 4 (by norm_num)
  have hcol : Vector2.Collinear ⟨F32.finite false 1, F32.finite false 2⟩
      ⟨F32.finite false 2, F32.finite false 4⟩ := by
    refine ⟨2, 1, Or.inl (by norm_num), ?_, ?_⟩
    · rw [F32.toRat_finite, F32.toRat_finite]; norm_num
    · rw [F32.toRat_finite, F32.toRat_finite]; norm_num
  have hfin : (F32.finite false 1 * F32.finite false 4).IsFinite := by
    rw [F32.one_four_two_two.1]
    exact h4
  exact ⟨hcol, (cross_of_collinear ⟨F32.finite false 1, F32.finite false 2⟩
    ⟨F32.finite false 2, F32.finite false 4⟩).2 h1 h2 h2 h4 hfin hcol⟩

/-- Claim C18 fails as stated, in both directions.  For `A = (2 ^ (-80), 0)` and
`B = (0, 2 ^ (-80))` the product `A.X * B.Y` underflows to `0`, so `A % B` is `+0`, while
`A` and `B` are not linearly dependent.  For `A = B = (2 ^ 100, 2 ^ 100)`, which are
linearly dependent, both products overflow to `+inf` and `A % B` is NaN, not zero. -/
theorem cross_zero_iff_collinear_fails :
    (F32.Representable (1 / 2 ^ 80)
      ∧ Vector2.opMod (⟨F32.finite false (1 / 2 ^ 80), F32.finite false 0⟩ : Vector2 F32)
          ⟨F32.finite false 0, F32.finite false (1 / 2 ^ 80)⟩ = F32.finite false 0
      ∧ ¬ Vector2.Collinear ⟨F32.finite false (1 / 2 ^ 80), F32.finite false 0⟩
          ⟨F32.finite false 0, F32.finite false (1 / 2 ^ 80)⟩)
    ∧ (F32.Representable (2 ^ 100)
      ∧ Vector2.Collinear ⟨F32.finite false (2 ^ 100), F32.finite false (2 ^ 100)⟩
          ⟨F32.finite false (2 ^ 100), F32.finite false (2 ^ 100)⟩
      ∧ Vector2.opMod (⟨F32.finite false (2 ^ 100), F32.finite false (2 ^ 100)⟩ : Vector2 F32)
          ⟨F32.finite false (2 ^ 100), F32.finite false (2 ^ 100)⟩ = F32.nan) := by
  have hsmall : F32.Representable (1 / 2 ^ 80) :=
    F32.representable_eval _ (-103) 8388608 (by norm_num) (by norm_num)
      (Or.inl (by norm_num)) (by norm_num) (by norm_num) (by norm_num)
  have hbig : F32.Representable (2 ^ 100) :=
    F32.representable_eval _ 77 8388608 (by norm_num) (by norm_num)
      (Or.inl (by norm_num)) (by norm_num) (by norm_num) (by norm_num)
  have hunder : F32.finite false (1 / 2 ^ 80) * F32.finite false (1 / 2 ^ 80)
      = F32.finite false 0 := by
    rw [F32.mul_finite]
    exact F32.ofSignMag_eval false _ _ (-149) 0 (by norm_num) (by norm_num)
      (Or.inr rfl) (by norm_num) (by norm_num) (by norm_num) (by norm_num) (by norm_num)
  have hzz : F32.finite false 0 * F32.finite false 0 = F32.finite false 0 := by
    rw [F32.mul_finite]
    have : (0 : ℚ) * 0 = 0 := by norm_num
    rw [this]
    exact F32.ofSignMag_zero _
  have hsub : F32.finite false 0 - F32.finite false 0 = F32.finite false 0 :=
    F32.sub_same_mag false false 0 (fun _ => rfl)
  have hover : F32.finite false (2 ^ 100) * F32.finite false (2 ^ 100) = F32.inf false := by
    rw [F32.mul_finite]
    exact F32.ofSignMag_overflow _ _ (by norm_num)
  have hnan : F32.inf false - F32.inf false = F32.nan := rfl
  refine ⟨⟨hsmall, ?_, ?_⟩, ⟨hbig, ?_, ?_⟩⟩
  · rw [Vector2.opMod, hunder, hzz, hsub]
  · rintro ⟨s, t, hst, h1, h2⟩
    rw [F32.toRat_finite, F32.toRat_finite] at h1 h2
    simp only [Bool.false_eq_true, if_false, one_mul, mul_zero] at h1 h2
    have hs : s = 0 := by
      rcases mul_eq_zero.mp h1 with h | h
      · exact h
      · norm_num at h
    have ht : t = 0 := by
      rcases mul_eq_zero.mp h2.symm with h | h
      · exact h
      · norm_num at h
    rcases hst with h | h
    · exact h hs
    · exact h ht
  · exact ⟨1, 1, Or.inl one_ne_zero, rfl, rfl⟩
  · rw [Vector2.opMod, hover, hnan]

end CrossFacts

/-! ## Time steps in binary32 -/

section StepFacts

open F32

/-- The particle after `Integrate` when the guard `InverseMass <= 0` is false, over any
carrier. -/
theorem integrate_of_not_le {β : Type} [Zero β] [Add β] [Mul β] [LE β]
    [DecidableRel (fun a b : β => a ≤ b)] (pow : β → β → β) (p : Particle β) (dt : β)
    (h : ¬ p.InverseMass ≤ 0) :
    Particle.Integrate pow p dt
      = { Position := ⟨p.Position.X + p.Velocity.X * dt, p.Position.Y + p.Velocity.Y * dt⟩,
          Velocity :=
            ⟨(p.Velocity.X + (p.Acceleration.X + p.ForceAccumulation.X * p.InverseMass) * dt)
                * pow p.Drag dt,
              (p.Velocity.Y + (p.Acceleration.Y + p.ForceAccumulation.Y * p.InverseMass) * dt)
                * pow p.Drag dt⟩,
          Acceleration := p.Acceleration,
          ForceAccumulation := ⟨0, 0⟩,
          Drag := p.Drag,
          InverseMass := p.InverseMass } := by
  simp [Particle.Integrate, h, Particle.ClearForces, Vector2.Clear, Vector2.AddScaledVector,
    Vector2.opMulAssign]

/-- A finite number plus a finite number times a zero is finite and has the exact value of
the first number. -/
theorem F32.add_mul_zero (x y : F32) (s : Bool) (hx : x.IsFinite) (hy : y.IsFinite) :
    (x + y * F32.finite s 0).IsFinite
    ∧ F32.toRat (x + y * F32.finite s 0) = F32.toRat x := by
  obtain ⟨σ, a, rfl, ha⟩ := (F32.isFinite_iff x).mp hx
  obtain ⟨τ, b, rfl, -⟩ := (F32.isFinite_iff y).mp hy
  rw [F32.mul_finite, mul_zero, F32.ofSignMag_zero]
  by_cases hzero : a = 0
  · subst hzero
    rw [F32.add_finite_of_eq _ _ _ _ (by rw [F32.toRat_finite, F32.toRat_finite]; simp)]
    refine ⟨F32.representable_zero, ?_⟩
    rw [F32.toRat_finite, F32.toRat_finite, mul_zero, mul_zero]
  · have hpos : 0 < a := lt_of_le_of_ne ha.1 (Ne.symm hzero)
    have hq : F32.toRat (F32.finite σ a) + F32.toRat (F32.finite (xor τ s) 0)
        = F32.toRat (F32.finite σ a) := by
      rw [F32.toRat_finite _ 0, mul_zero, add_zero]
    have hne : F32.toRat (F32.finite σ a) + F32.toRat (F32.finite (xor τ s) 0) ≠ 0 := by
      rw [hq, F32.toRat_finite]
      cases σ <;> simpa using hzero
    rw [F32.add_finite_of_ne _ _ _ _ hne, hq]
    cases σ with
    | false =>
      have hv : F32.toRat (F32.finite false a) = a := by rw [F32.toRat_finite]; simp
      rw [hv, F32.ofRat_of_pos _ hpos, F32.ofSignMag_of_representable _ _ ha]
      exact ⟨ha, hv⟩
    | true =>
      have hv : F32.toRat (F32.finite true a) = -a := by rw [F32.toRat_finite]; simp
      rw [hv, F32.ofRat_of_neg _ (by linarith), neg_neg,
        F32.ofSignMag_of_representable _ _ ha]
      exact ⟨ha, hv⟩

/-- A finite number times `1` is itself. -/
theorem F32.mul_one_of_isFinite (x : F32) (hx : x.IsFinite) : x * 1 = x := by
  obtain ⟨σ, a, rfl, ha⟩ := (F32.isFinite_iff x).mp hx
  exact F32.mul_one_of_representable σ a ha

/-- Two finite numbers with the same exact value compare equal with `==`. -/
theorem F32.beq_of_toRat_eq (x y : F32) (hx : x.IsFinite) (hy : y.IsFinite)
    (h : F32.toRat x = F32.toRat y) : (x == y) = true := by
  obtain ⟨σ, a, rfl, -⟩ := (F32.isFinite_iff x).mp hx
  obtain ⟨τ, b, rfl, -⟩ := (F32.isFinite_iff y).mp hy
  show F32.eq _ _ = true
  simp only [F32.eq, decide_eq_true_eq]
  exact h

/-- Claim C16, as amended (zero time step). In binary32, for a particle with
`InverseMass > 0` whose position and velocity components are finite and whose resulting
acceleration `Acceleration + ForceAccumulation * InverseMass` is finite in both
components, and for a `pow` with `pow(Drag, 0) = 1`: after `Integrate(0)`, with the time
step `+0` or `-0`, the position and the velocity compare equal (`==`) to those before the
call. -/
theorem integrate_zero_step (pow : F32 → F32 → F32) (p : Particle F32) (s : Bool)
    (hm : p.InverseMass > 0) (hpow : pow p.Drag (F32.finite s 0) = 1)
    (hPX : p.Position.X.IsFinite) (hPY : p.Position.Y.IsFinite)
    (hVX : p.Velocity.X.IsFinite) (hVY : p.Velocity.Y.IsFinite)
    (hRX : (p.Acceleration.X + p.ForceAccumulation.X * p.InverseMass).IsFinite)
    (hRY : (p.Acceleration.Y + p.ForceAccumulation.Y * p.InverseMass).IsFinite) :
    (Particle.Integrate pow p (F32.finite s 0)).Position.opEq p.Position = true
    ∧ (Particle.Integrate pow p (F32.finite s 0)).Velocity.opEq p.Velocity = true := by
  rw [integrate_of_not_le pow p _ (F32.not_le_zero_of_pos _ hm), hpow]
  obtain ⟨hpx, hpx2⟩ := F32.add_mul_zero _ _ s hPX hVX
  obtain ⟨hpy, hpy2⟩ := F32.add_mul_zero _ _ s hPY hVY
  obtain ⟨hvx, hvx2⟩ := F32.add_mul_zero _ _ s hVX hRX
  obtain ⟨hvy, hvy2⟩ := F32.add_mul_zero _ _ s hVY hRY
  simp only [Vector2.opEq, Bool.and_eq_true]
  rw [F32.mul_one_of_isFinite _ hvx, F32.mul_one_of_isFinite _ hvy]
  exact ⟨⟨F32.beq_of_toRat_eq _ _ hpx hPX hpx2, F32.beq_of_toRat_eq _ _ hpy hPY hpy2⟩,
    ⟨F32.beq_of_toRat_eq _ _ hvx hVX hvx2, F32.beq_of_toRat_eq _ _ hvy hVY hvy2⟩⟩

/-- In binary32, `1 + 2 * 1` is `3` and `2 + 4 * 1` is `6`. -/
theorem F32.small_sums :
    F32.finite false 1 + F32.finite false 2 * F32.finite false 1 = F32.finite false 3
    ∧ F32.finite false 2 + F32.finite false 4 * F32.finite false 1 = F32.finite false 6 := by
  have h2 : F32.finite false 2 * F32.finite false 1 = F32.finite false 2 := by
    have h := F32.mul_one_of_representable false 2
      (by simpa using F32.representable_nat 2 (by norm_num))
    rw [F32.one_def] at h
    exact h
  have h4 : F32.finite false 4 * F32.finite false 1 = F32.finite false 4 := by
    have h := F32.mul_one_of_representable false 4
      (by simpa using F32.representable_nat 4 (by norm_num))
    rw [F32.one_def] at h
    exact h
  constructor
  · rw [h2, F32.add_finite_of_ne _ _ _ _ (by simp only [F32.toRat]; norm_num)]
    have hq : F32.toRat (F32.finite false 1) + F32.toRat (F32.finite false 2)
        = ((3 : ℕ) : ℚ) := by
      simp only [F32.toRat]; norm_num
    rw [hq, F32.ofRat_of_pos _ (by norm_num)]
    simpa using F32.ofSignMag_nat false 3 (by norm_num)
  · rw [h4, F32.add_finite_of_ne _ _ _ _ (by simp only [F32.toRat]; norm_num)]
    have hq : F32.toRat (F32.finite false 2) + F32.toRat (F32.finite false 4)
        = ((6 : ℕ) : ℚ) := by
      simp only [F32.toRat]; norm_num
    rw [hq, F32.ofRat_of_pos _ (by norm_num)]
    simpa using F32.ofSignMag_nat false 6 (by norm_num)

/-- Witness of C16 as amended: position `(1, 2)`, velocity `(3, 4)`, acceleration `(1, 2)`,
accumulated force `(2, 4)`, drag `1 / 2` and inverse mass `1`, integrated over the time
step `0`. -/
theorem integrate_zero_step_witness :
    let p : Particle F32 :=
      { Position := ⟨F32.finite false 1, F32.finite false 2⟩,
        Velocity := ⟨F32.finite false 3, F32.finite false 4⟩,
        Acceleration := ⟨F32.finite false 1, F32.finite false 2⟩,
        ForceAccumulation := ⟨F32.finite false 2, F32.finite false 4⟩,
        Drag := F32.finite false (1 / 2), InverseMass := F32.finite false 1 }
    (p.InverseMass > 0 ∧ F32.powSmall p.Drag (F32.finite false 0) = 1)
    ∧ (Particle.Integrate F32.powSmall p (F32.finite false 0)).Position.opEq p.Position = true
    ∧ (Particle.Integrate F32.powSmall p (F32.finite false 0)).Velocity.opEq p.Velocity
        = true := by
  intro p
  have hm : p.InverseMass > 0 := by
    simp only [p, GT.gt, F32.lt_def, F32.lt, F32.zero_def, F32.toRat]
    norm_num
  have hpow : F32.powSmall p.Drag (F32.finite false 0) = 1 := by
    simp only [F32.powSmall, if_true, F32.one_def]
  have h1 : F32.Representable 1 := by simpa using F32.representable_nat 1 (by norm_num)
  have h2 : F32.Representable 2 := by simpa using F32.representable_nat 2 (by norm_num)
  have h3 : F32.Representable 3 := by simpa using F32.representable_nat 3 (by norm_num)
  have h4 : F32.Representable 4 := by simpa using F32.representable_nat 4 (by norm_num)
  have h6 : F32.Representable 6 := by simpa using F32.representable_nat 6 (by norm_num)
  have hRX : (p.Acceleration.X + p.ForceAccumulation.X * p.InverseMass).IsFinite := by
    show (F32.finite false 1 + F32.finite false 2 * F32.finite false 1).IsFinite
    rw [F32.small_sums.1]
    exact h3
  have hRY : (p.Acceleration.Y + p.ForceAccumulation.Y * p.InverseMass).IsFinite := by
    show (F32.finite false 2 + F32.finite false 4 * F32.finite false 1).IsFinite
    rw [F32.small_sums.2]
    exact h6
  exact ⟨⟨hm, hpow⟩, integrate_zero_step F32.powSmall p false hm hpow h1 h2 h3 h4 hRX hRY⟩

/-- Claim C16 fails as stated: the particle with velocity `(3, 0)`, accumulated force
`(2 ^ 127, 0)`, inverse mass `4` (mass `0.25`) and drag `1 / 2` has finite mass, but the
resulting acceleration `0 + 2 ^ 127 * 4` overflows to `+inf`, `inf * 0` is NaN, and
after `Integrate(0)` the velocity component `X` is NaN instead of `3`. -/
theorem integrate_zero_step_fails :
    let p : Particle F32 :=
      { Position := ⟨F32.finite false 0, F32.finite false 0⟩,
        Velocity := ⟨F32.finite false 3, F32.finite false 0⟩,
        Acceleration := ⟨F32.finite false 0, F32.finite false 0⟩,
        ForceAccumulation := ⟨F32.finite false (2 ^ 127), F32.finite false 0⟩,
        Drag := F32.finite false (1 / 2), InverseMass := F32.finite false 4 }
    (F32.Representable (2 ^ 127) ∧ F32.Representable (1 / 2) ∧ p.InverseMass > 0
      ∧ p.Drag > 0)
    ∧ (Particle.Integrate F32.powSmall p (F32.finite false 0)).Velocity.X = F32.nan
    ∧ (Particle.Integrate F32.powSmall p (F32.finite false 0)).Velocity ≠ p.Velocity := by
  intro p
  have hbig : F32.Representable (2 ^ 127) :=
    F32.representable_eval _ 104 8388608 (by norm_num) (by norm_num)
      (Or.inl (by norm_num)) (by norm_num) (by norm_num) (by norm_num)
  have hhalf : F32.Representable (1 / 2) :=
    F32.representable_eval _ (-24) 8388608 (by norm_num) (by norm_num)
      (Or.inl (by norm_num)) (by norm_num) (by norm_num) (by norm_num)
  have hm : p.InverseMass > 0 := by
    simp only [p, GT.gt, F32.lt_def, F32.lt, F32.zero_def, F32.toRat]
    norm_num
  have hd : p.Drag > 0 := by
    simp only [p, GT.gt, F32.lt_def, F32.lt, F32.zero_def, F32.toRat]
    norm_num
  have hover : F32.finite false (2 ^ 127) * F32.finite false 4 = F32.inf false := by
    rw [F32.mul_finite]
    exact F32.ofSignMag_overflow _ _ (by norm_num)
  have hinf : F32.finite false 0 + F32.inf false = F32.inf false := rfl
  have hnan : F32.inf false * F32.finite false 0 = F32.nan := by
    show F32.mul _ _ = _
    simp only [F32.mul, if_true]
  have hadd : F32.finite false 3 + F32.nan = F32.nan := rfl
  have hmul : F32.nan * F32.powSmall (F32.finite false (1 / 2)) (F32.finite false 0)
      = F32.nan := rfl
  have hx : (Particle.Integrate F32.powSmall p (F32.finite false 0)).Velocity.X = F32.nan := by
    rw [integrate_of_not_le F32.powSmall p _ (F32.not_le_zero_of_pos _ hm)]
    show (F32.finite false 3
      + (F32.finite false 0 + F32.finite false (2 ^ 127) * F32.finite false 4)
        * F32.finite false 0)
      * F32.powSmall (F32.finite false (1 / 2)) (F32.finite false 0) = F32.nan
    rw [hover, hinf, hnan, hadd, hmul]
  refine ⟨⟨hbig, hhalf, hm, hd⟩, hx, ?_⟩
  intro h
  have hx2 := congrArg Vector2.X h
  rw [hx] at hx2
  exact F32.noConfusion hx2

/-- A finite number plus a zero is finite and has the same exact value. -/
theorem F32.add_zero_finite (x : F32) (ρ : Bool) (hx : x.IsFinite) :
    (x + F32.finite ρ 0).IsFinite ∧ F32.toRat (x + F32.finite ρ 0) = F32.toRat x := by
  have h1 : F32.Representable 1 := by simpa using F32.representable_nat 1 (by norm_num)
  have h := F32.add_mul_zero x (F32.finite false 1) ρ hx h1
  have e : F32.finite false 1 * F32.finite ρ 0 = F32.finite ρ 0 := by
    rw [F32.mul_finite, mul_zero, F32.ofSignMag_zero, Bool.false_xor]
  rw [e] at h
  exact h

/-- The acceleration term `(0 + 0 * InverseMass) * dt` of a particle with no acceleration
and no accumulated force is a zero when the inverse mass and the time step are finite. -/
theorem F32.zero_chain (im dt : F32) (him : im.IsFinite) (hdt : dt.IsFinite) :
    ∃ ρ, ((0 : F32) + 0 * im) * dt = F32.finite ρ 0 := by
  obtain ⟨σ, a, rfl, -⟩ := (F32.isFinite_iff im).mp him
  obtain ⟨τ, b, rfl, -⟩ := (F32.isFinite_iff dt).mp hdt
  rw [F32.zero_def, F32.mul_finite, zero_mul, F32.ofSignMag_zero,
    F32.add_finite_of_eq _ _ _ _ (by rw [F32.toRat_finite, F32.toRat_finite]; simp),
    F32.mul_finite, zero_mul, F32.ofSignMag_zero]
  exact ⟨_, rfl⟩

/-- The velocity after `Integrate` of a particle with finite inverse mass, no acceleration
and no accumulated force, over a finite time step: each component is the product of a
finite number of the same exact value as the old component with `pow(Drag, dt)`. -/
theorem integrate_drag_only (pow : F32 → F32 → F32) (p : Particle F32) (dt : F32)
    (hm : p.InverseMass > 0) (him : p.InverseMass.IsFinite)
    (ha : p.Acceleration = ⟨0, 0⟩) (hf : p.ForceAccumulation = ⟨0, 0⟩)
    (hVX : p.Velocity.X.IsFinite) (hVY : p.Velocity.Y.IsFinite) (hdt : dt.IsFinite) :
    ∃ vx vy : F32,
      (Particle.Integrate pow p dt).Velocity = ⟨vx * pow p.Drag dt, vy * pow p.Drag dt⟩
      ∧ (vx.IsFinite ∧ F32.toRat vx = F32.toRat p.Velocity.X)
      ∧ (vy.IsFinite ∧ F32.toRat vy = F32.toRat p.Velocity.Y) := by
  obtain ⟨ρ, hρ⟩ := F32.zero_chain p.InverseMass dt him hdt
  rw [integrate_of_not_le pow p _ (F32.not_le_zero_of_pos _ hm), ha, hf]
  refine ⟨p.Velocity.X + F32.finite ρ 0, p.Velocity.Y + F32.finite ρ 0, ?_,
    F32.add_zero_finite _ ρ hVX, F32.add_zero_finite _ ρ hVY⟩
  rw [← hρ]

/-- A representable non-zero finite number plus `+0` is that number. -/
theorem F32.add_zero_of_representable (s : Bool) (m : ℚ) (h : F32.Representable m)
    (hm : m ≠ 0) : F32.finite s m + F32.finite false 0 = F32.finite s m := by
  rw [F32.add_commutes]
  exact F32.zero_add_of_representable s m h hm

/-- The zero terms of an integration step with no acceleration and no force, and the sum
`1 + 1`, in binary32. -/
theorem F32.zero_terms :
    F32.finite false 0 * F32.finite false 1 = F32.finite false 0
    ∧ F32.finite false 0 * F32.finite false 2 = F32.finite false 0
    ∧ F32.finite false 0 + F32.finite false 0 = F32.finite false 0
    ∧ F32.finite false 1 + F32.finite false 1 = F32.finite false 2 := by
  refine ⟨?_, ?_, ?_, ?_⟩
  · rw [F32.mul_finite, zero_mul]
    exact F32.ofSignMag_zero _
  · rw [F32.mul_finite, zero_mul]
    exact F32.ofSignMag_zero _
  · exact F32.add_finite_of_eq _ _ _ _ (by simp only [F32.toRat]; norm_num)
  · rw [F32.add_finite_of_ne _ _ _ _ (by simp only [F32.toRat]; norm_num)]
    have hq : F32.toRat (F32.finite false 1) + F32.toRat (F32.finite false 1)
        = ((2 : ℕ) : ℚ) := by
      simp only [F32.toRat]; norm_num
    rw [hq, F32.ofRat_of_pos _ (by norm_num)]
    simpa using F32.ofSignMag_nat false 2 (by norm_num)

/-- The values of `pow` used below: `pow(x, 1)` is `x`, `pow(1 / 2, 2)` is `1 / 4` and
`pow(3 / 4, 2)` is `9 / 16`. -/
theorem F32.powSmall_values (x : F32) :
    F32.powSmall x (F32.finite false 1) = x
    ∧ F32.powSmall (F32.finite false (1 / 2)) (F32.finite false 2) = F32.finite false (1 / 4)
    ∧ F32.powSmall (F32.finite false (3 / 4)) (F32.finite false 2)
        = F32.finite false (9 / 16) := by
  have hne : ¬ ((2 : ℚ) = 1) := by norm_num
  refine ⟨?_, ?_, ?_⟩
  · simp [F32.powSmall]
  · simp only [F32.powSmall, OfNat.ofNat_ne_zero, if_false, F32.finite.injEq, hne,
      and_false, and_self, if_true, F32.mul]
    exact F32.ofSignMag_eval _ _ _ (-25) 8388608 (by norm_num) (by norm_num)
      (Or.inl (by norm_num)) (by norm_num) (by norm_num) (by norm_num) (by norm_num)
      (by norm_num)
  · simp only [F32.powSmall, OfNat.ofNat_ne_zero, if_false, F32.finite.injEq, hne,
      and_false, and_self, if_true, F32.mul]
    exact F32.ofSignMag_eval _ _ _ (-24) 9437184 (by norm_num) (by norm_num)
      (Or.inl (by norm_num)) (by norm_num) (by norm_num) (by norm_num) (by norm_num)
      (by norm_num)

end StepFacts

/-! ## Linear interpolation in binary32 -/

section LerpFacts

open F32

/-- In binary32, `1 - 0` is `1` and `1 - 1` is `+0`. -/
theorem F32.one_sub :
    (1 : F32) - 0 = F32.finite false 1 ∧ (1 : F32) - 1 = F32.finite false 0 := by
  constructor
  · show F32.add (F32.finite false 1) (F32.neg (F32.finite false 0)) = _
    simp only [F32.neg, Bool.not_false]
    have h := F32.add_finite_of_ne false true 1 0 (by simp only [F32.toRat]; norm_num)
    rw [F32.add_def] at h
    rw [h]
    have hq : F32.toRat (F32.finite false 1) + F32.toRat (F32.finite true 0)
        = ((1 : ℕ) : ℚ) := by
      simp only [F32.toRat]; norm_num
    rw [hq, F32.ofRat_of_pos _ (by norm_num)]
    simpa using F32.ofSignMag_nat false 1 (by norm_num)
  · show F32.add (F32.finite false 1) (F32.neg (F32.finite false 1)) = _
    simp only [F32.neg, Bool.not_false]
    have h := F32.add_finite_of_eq false true 1 1 (by simp only [F32.toRat]; norm_num)
    rw [F32.add_def] at h
    rw [h, Bool.false_and]

/-- The components of `Lerp`, over any carrier. -/
theorem Vector2.Lerp_eq {β : Type} [Add β] [Sub β] [Mul β] [One β] (a b : Vector2 β)
    (f : β) :
    a.Lerp b f = ⟨a.X * (1 - f) + b.X * f, a.Y * (1 - f) + b.Y * f⟩ := rfl

/-- In binary32, for finite `x` and `y`: `x * (1 - 0) + y * 0` compares equal to `x`, and
`x * (1 - 1) + y * 1` compares equal to `y`. -/
theorem F32.lerp_component (x y : F32) (hx : x.IsFinite) (hy : y.IsFinite) :
    (x * (1 - 0) + y * 0 == x) = true ∧ (x * (1 - 1) + y * 1 == y) = true := by
  constructor
  · rw [F32.one_sub.1, ← F32.one_def, F32.mul_one_of_isFinite x hx, F32.zero_def]
    obtain ⟨hfin, hval⟩ := F32.add_mul_zero x y false hx hy
    exact F32.beq_of_toRat_eq _ _ hfin hx hval
  · rw [F32.one_sub.2, F32.mul_one_of_isFinite y hy, F32.add_commutes]
    obtain ⟨hfin, hval⟩ := F32.add_mul_zero y x false hy hx
    exact F32.beq_of_toRat_eq _ _ hfin hy hval

/-- Claim C15, as amended. Over any carrier, `Lerp(other, f)` sets the vector to
`self * (1 - f) + other * f` componentwise. In binary32, for `self` and `other` with
finite components, the vector after `Lerp` with `f = 0` compares equal (`==`) to `self`,
and the vector after `Lerp` with `f = 1` compares equal to `other`. -/
theorem lerp_endpoints {β : Type} [Add β] [Sub β] [Mul β] [One β] (a b : Vector2 β) (f : β)
    (self other : Vector2 F32) :
    a.Lerp b f = (a.opMul (1 - f)).opAdd (b.opMul f)
    ∧ (self.X.IsFinite → self.Y.IsFinite → other.X.IsFinite → other.Y.IsFinite →
        (self.Lerp other 0).opEq self = true ∧ (self.Lerp other 1).opEq other = true) := by
  refine ⟨rfl, ?_⟩
  intro hsx hsy hox hoy
  obtain ⟨hx0, hx1⟩ := F32.lerp_component self.X other.X hsx hox
  obtain ⟨hy0, hy1⟩ := F32.lerp_component self.Y other.Y hsy hoy
  rw [Vector2.Lerp_eq, Vector2.Lerp_eq]
  simp only [Vector2.opEq, Bool.and_eq_true]
  exact ⟨⟨hx0, hy0⟩, ⟨hx1, hy1⟩⟩

/-- Witness of C15 as amended: `self = (1, 2)` and `other = (3, 4)`. -/
theorem lerp_endpoints_witness :
    ((F32.finite false 1).IsFinite ∧ (F32.finite false 2).IsFinite
      ∧ (F32.finite false 3).IsFinite ∧ (F32.finite false 4).IsFinite)
    ∧ (Vector2.Lerp (⟨F32.finite false 1, F32.finite false 2⟩ : Vector2 F32)
          ⟨F32.finite false 3, F32.finite false 4⟩ 0).opEq
        ⟨F32.finite false 1, F32.finite false 2⟩ = true
    ∧ (Vector2.Lerp (⟨F32.finite false 1, F32.finite false 2⟩ : Vector2 F32)
          ⟨F32.finite false 3, F32.finite false 4⟩ 1).opEq
        ⟨F32.finite false 3, F32.finite false 4⟩ = true := by
  have h1 : F32.Representable 1 := by simpa using F32.representable_nat 1 (by norm_num)
  have h2 : F32.Representable 2 := by simpa using F32.representable_nat 2 (by norm_num)
  have h3 : F32.Representable 3 := by simpa using F32.representable_nat 3 (by norm_num)
  have h4 : F32.Representable 4 := by simpa using F32.representable_nat 4 (by norm_num)
  exact ⟨⟨h1, h2, h3, h4⟩,
    (lerp_endpoints (⟨F32.finite false 1, F32.finite false 2⟩ : Vector2 F32)
      ⟨F32.finite false 3, F32.finite false 4⟩ 0
      ⟨F32.finite false 1, F32.finite false 2⟩
      ⟨F32.finite false 3, F32.finite false 4⟩).2 h1 h2 h3 h4⟩

/-- Claim C15 fails as stated: with `self = (1, 1)` and `other = (+inf, 0)`, `Lerp` with
`f = 0` computes `1 * (1 - 0) + inf * 0`, and `inf * 0` is NaN, so the component `X`
becomes NaN and `self` is changed; with `self = (+inf, 0)` and `other = (1, 1)`, `Lerp`
with `f = 1` computes `inf * (1 - 1) + 1 * 1`, which is NaN, not `1`. -/
theorem lerp_endpoints_fails :
    ((Vector2.Lerp (⟨F32.finite false 1, F32.finite false 1⟩ : Vector2 F32)
          ⟨F32.inf false, F32.finite false 0⟩ 0).X = F32.nan
      ∧ Vector2.Lerp (⟨F32.finite false 1, F32.finite false 1⟩ : Vector2 F32)
          ⟨F32.inf false, F32.finite false 0⟩ 0
        ≠ ⟨F32.finite false 1, F32.finite false 1⟩)
    ∧ ((Vector2.Lerp (⟨F32.inf false, F32.finite false 0⟩ : Vector2 F32)
          ⟨F32.finite false 1, F32.finite false 1⟩ 1).X = F32.nan
      ∧ Vector2.Lerp (⟨F32.inf false, F32.finite false 0⟩ : Vector2 F32)
          ⟨F32.finite false 1, F32.finite false 1⟩ 1
        ≠ ⟨F32.finite false 1, F32.finite false 1⟩) := by
  have hnan : F32.inf false * F32.finite false 0 = F32.nan := by
    show F32.mul _ _ = _
    simp only [F32.mul, if_true]
  have hadd : ∀ x : F32, x + F32.nan = F32.nan := by
    intro x
    cases x <;> rfl
  have hadd2 : ∀ x : F32, F32.nan + x = F32.nan := by
    intro x
    cases x <;> rfl
  have hx0 : (Vector2.Lerp (⟨F32.finite false 1, F32.finite false 1⟩ : Vector2 F32)
      ⟨F32.inf false, F32.finite false 0⟩ 0).X = F32.nan := by
    rw [Vector2.Lerp_eq]
    show F32.finite false 1 * (1 - 0) + F32.inf false * F32.finite false 0 = F32.nan
    rw [hnan, hadd]
  have hx1 : (Vector2.Lerp (⟨F32.inf false, F32.finite false 0⟩ : Vector2 F32)
      ⟨F32.finite false 1, F32.finite false 1⟩ 1).X = F32.nan := by
    rw [Vector2.Lerp_eq]
    show F32.inf false * (1 - 1) + F32.finite false 1 * 1 = F32.nan
    rw [F32.one_sub.2, hnan, hadd2]
  refine ⟨⟨hx0, ?_⟩, ⟨hx1, ?_⟩⟩
  · intro h
    have hx := congrArg Vector2.X h
    rw [hx0] at hx
    exact F32.noConfusion hx
  · intro h
    have hx := congrArg Vector2.X h
    rw [hx1] at hx
    exact F32.noConfusion hx

end LerpFacts

/-! ## Monotonicity of the magnitude in binary32 -/

section OrderFacts

open F32

/-- Rounding to the nearest integer is monotone. -/
theorem F32.roundEven_mono (x y : ℚ) (h : x ≤ y) : F32.roundEven x ≤ F32.roundEven y := by
  by_contra hlt
  push_neg at hlt
  have hx := F32.abs_roundEven_sub_le x
  have hy := F32.abs_roundEven_sub_le y
  have hint : (F32.roundEven y : ℚ) + 1 ≤ F32.roundEven x := by exact_mod_cast hlt
  rw [abs_le] at hx hy
  have hxy : x = y := by linarith [hx.1, hx.2, hy.1, hy.2]
  rw [hxy] at hlt
  exact lt_irrefl _ hlt

/-- The exponent of a magnitude is monotone. -/
theorem F32.expOf_mono (q r : ℚ) (hq : 0 < q) (h : q ≤ r) : F32.expOf q ≤ F32.expOf r := by
  unfold F32.expOf
  exact max_le_max (Int.log_mono_right hq h) (le_refl _)

/-- Rounding of magnitudes is monotone. -/
theorem F32.roundMag_mono (q r : ℚ) (hq : 0 ≤ q) (h : q ≤ r) :
    F32.roundMag q ≤ F32.roundMag r := by
  rcases eq_or_lt_of_le hq with hzero | hpos
  · rw [← hzero, F32.roundMag_zero]
    exact F32.roundMag_nonneg r (le_trans hq h)
  have hE := F32.expOf_mono q r hpos h
  rcases eq_or_lt_of_le hE with heq | hlt
  · have hu := F32.ulp_pos r
    simp only [F32.roundMag, heq]
    apply mul_le_mul_of_nonneg_right _ hu.le
    have hdiv : q / 2 ^ (F32.expOf r - 23) ≤ r / 2 ^ (F32.expOf r - 23) :=
      div_le_div_of_nonneg_right h hu.le
    exact_mod_cast F32.roundEven_mono _ _ hdiv
  · have he : -126 ≤ F32.expOf r := F32.expOf_ge r
    have h126 : (2 : ℚ) ^ (-126 : ℤ) ≤ r := by
      by_contra hcon
      have hr : F32.expOf r = -126 :=
        F32.expOf_eq r (-126) (lt_of_lt_of_le hpos h) (by norm_num) (Or.inr rfl)
          (lt_trans (not_le.mp hcon) (by norm_num))
      have := F32.expOf_ge q
      omega
    have hlow : (2 : ℚ) ^ F32.expOf r ≤ r := F32.pow_expOf_le r h126
    have hup : q ≤ (2 : ℚ) ^ F32.expOf r := by
      have h1 := F32.lt_pow_expOf q
      have h2 : (2 : ℚ) ^ (F32.expOf q + 1) ≤ (2 : ℚ) ^ F32.expOf r :=
        zpow_le_zpow_right₀ (by norm_num) (by omega)
      exact le_of_lt (lt_of_lt_of_le h1 h2)
    exact le_trans (F32.roundMag_le_pow q _ hq he hup) (F32.pow_le_roundMag r _ he hlow)

/-- The approximation of the square root of zero is zero. -/
theorem F32.sqrtApprox_zero : F32.sqrtApprox 0 = 0 := by
  have h := F32.sqrtApprox_sq 0
  rw [Nat.cast_zero, mul_zero] at h
  exact h

/-- The approximation of the square root is monotone. -/
theorem F32.sqrtApprox_mono (q r : ℚ) (hq : 0 ≤ q) (h : q ≤ r) :
    F32.sqrtApprox q ≤ F32.sqrtApprox r := by
  have hr : 0 ≤ r := le_trans hq h
  have hscale : q * 4 ^ 128 ≤ r * 4 ^ 128 := mul_le_mul_of_nonneg_right h (by positivity)
  have hfloor : ⌊q * 4 ^ 128⌋₊ ≤ ⌊r * 4 ^ 128⌋₊ := Nat.floor_mono hscale
  have hsqrt : Nat.sqrt ⌊q * 4 ^ 128⌋₊ ≤ Nat.sqrt ⌊r * 4 ^ 128⌋₊ := Nat.sqrt_le_sqrt hfloor
  have hpow : (0 : ℚ) < 2 ^ 128 := by positivity
  have hqn : ((Nat.sqrt ⌊q * 4 ^ 128⌋₊ : ℕ) : ℚ) * (Nat.sqrt ⌊q * 4 ^ 128⌋₊ : ℕ)
      ≤ q * 4 ^ 128 := by
    have h1 : Nat.sqrt ⌊q * 4 ^ 128⌋₊ * Nat.sqrt ⌊q * 4 ^ 128⌋₊ ≤ ⌊q * 4 ^ 128⌋₊ :=
      Nat.sqrt_le _
    have h2 : ((⌊q * 4 ^ 128⌋₊ : ℕ) : ℚ) ≤ q * 4 ^ 128 :=
      Nat.floor_le (mul_nonneg hq (by positivity))
    have h3 : ((Nat.sqrt ⌊q * 4 ^ 128⌋₊ * Nat.sqrt ⌊q * 4 ^ 128⌋₊ : ℕ) : ℚ)
        ≤ ((⌊q * 4 ^ 128⌋₊ : ℕ) : ℚ) := by exact_mod_cast h1
    push_cast at h3
    exact le_trans h3 h2
  have hstep : Nat.sqrt ⌊q * 4 ^ 128⌋₊ < Nat.sqrt ⌊r * 4 ^ 128⌋₊ →
      ((Nat.sqrt ⌊q * 4 ^ 128⌋₊ : ℕ) : ℚ) + 1 ≤ ((Nat.sqrt ⌊r * 4 ^ 128⌋₊ : ℕ) : ℚ) := by
    intro hlt
    exact_mod_cast hlt
  unfold F32.sqrtApprox
  simp only
  rcases eq_or_lt_of_le hsqrt with heq | hlt
  · rw [← heq]
    generalize ((Nat.sqrt ⌊q * 4 ^ 128⌋₊ : ℕ) : ℚ) = A at hqn ⊢
    generalize q * 4 ^ 128 = Q at hscale hqn ⊢
    generalize r * 4 ^ 128 = R at hscale ⊢
    generalize (2 : ℚ) ^ 128 = P at hpow ⊢
    split_ifs with h1 h2 h2
    · exact le_refl _
    · apply div_le_div_of_nonneg_right _ hpow.le
      linarith
    · exfalso
      apply h1
      apply le_antisymm hqn
      rw [h2]
      exact hscale
    · exact le_refl _
  · have hcast := hstep hlt
    generalize ((Nat.sqrt ⌊q * 4 ^ 128⌋₊ : ℕ) : ℚ) = A at hcast ⊢
    generalize ((Nat.sqrt ⌊r * 4 ^ 128⌋₊ : ℕ) : ℚ) = B at hcast ⊢
    generalize q * 4 ^ 128 = Q
    generalize r * 4 ^ 128 = R
    generalize (2 : ℚ) ^ 128 = P at hpow ⊢
    split_ifs <;> apply div_le_div_of_nonneg_right _ hpow.le <;> linarith

/-- A rounding of a non-negative magnitude with sign `+` is a non-negative value. -/
theorem F32.nonNeg_ofSignMag (q : ℚ) (hq : 0 ≤ q) : (F32.ofSignMag false q).NonNeg := by
  by_cases hlt : F32.roundMag q < 2 ^ 128
  · simp only [F32.ofSignMag, hlt, if_true, F32.NonNeg, true_and]
    exact F32.roundMag_nonneg q hq
  · simp only [F32.ofSignMag, hlt, if_false, F32.NonNeg]

/-- Roundings with sign `+` are monotone in the magnitude. -/
theorem F32.ofSignMag_mono (q r : ℚ) (hq : 0 ≤ q) (h : q ≤ r) :
    F32.ofSignMag false q ≤ F32.ofSignMag false r := by
  have hmono := F32.roundMag_mono q r hq h
  rw [F32.le_def]
  by_cases hr : F32.roundMag r < 2 ^ 128
  · have hlt : F32.roundMag q < 2 ^ 128 := lt_of_le_of_lt hmono hr
    simp only [F32.ofSignMag, hlt, hr, if_true, F32.le, F32.toRat, Bool.false_eq_true,
      if_false, decide_eq_true_eq]
    exact hmono
  · by_cases hlt : F32.roundMag q < 2 ^ 128
    · simp only [F32.ofSignMag, hlt, hr, if_true, if_false, F32.le, Bool.not_false]
    · simp only [F32.ofSignMag, hlt, hr, if_false, F32.le, Bool.not_false, Bool.or_true]

/-- The forms of a non-negative value. -/
theorem F32.nonNeg_iff (x : F32) :
    x.NonNeg ↔ x = F32.inf false ∨ ∃ m, 0 ≤ m ∧ x = F32.finite false m := by
  cases x with
  | nan => simp [F32.NonNeg]
  | inf s => simp [F32.NonNeg]
  | finite s m =>
    simp only [F32.NonNeg, false_or, F32.finite.injEq, reduceCtorEq]
    constructor
    · rintro ⟨rfl, h⟩
      exact ⟨m, h, rfl, rfl⟩
    · rintro ⟨m2, h, rfl, rfl⟩
      exact ⟨rfl, h⟩

/-- The sum of two finite non-negative numbers is the rounding of the exact sum. -/
theorem F32.add_nonneg_finite (a b : ℚ) (ha : 0 ≤ a) (hb : 0 ≤ b) :
    F32.finite false a + F32.finite false b = F32.ofSignMag false (a + b) := by
  have hq : F32.toRat (F32.finite false a) + F32.toRat (F32.finite false b) = a + b := by
    simp only [F32.toRat, Bool.false_eq_true, if_false]
  by_cases hzero : a + b = 0
  · rw [F32.add_finite_of_eq _ _ _ _ (by rw [hq]; exact hzero), hzero, F32.ofSignMag_zero,
      Bool.and_self]
  · rw [F32.add_finite_of_ne _ _ _ _ (by rw [hq]; exact hzero), hq,
      F32.ofRat_of_pos _ (lt_of_le_of_ne (add_nonneg ha hb) (Ne.symm hzero))]

/-- The square root of a finite non-negative number is the rounding of the approximation. -/
theorem F32.sqrt_nonneg_finite (a : ℚ) :
    F32.sqrt (F32.finite false a) = F32.ofSignMag false (F32.sqrtApprox a) := by
  by_cases hzero : a = 0
  · subst hzero
    rw [F32.sqrtApprox_zero, F32.ofSignMag_zero]
    simp only [F32.sqrt, if_true]
  · simp only [F32.sqrt, hzero, if_false, Bool.false_eq_true]

/-- Every non-negative value is at most `+inf`. -/
theorem F32.le_inf_of_nonNeg (x : F32) (hx : x.NonNeg) : x ≤ F32.inf false := by
  rw [F32.le_def]
  rcases (F32.nonNeg_iff x).mp hx with rfl | ⟨m, -, rfl⟩
  · simp only [F32.le, Bool.not_false, Bool.or_true]
  · simp only [F32.le, Bool.not_false]

/-- A non-negative value below a finite one is finite, with the smaller magnitude. -/
theorem F32.finite_of_le_finite (x : F32) (m : ℚ) (hx : x.NonNeg)
    (h : x ≤ F32.finite false m) : ∃ a, 0 ≤ a ∧ a ≤ m ∧ x = F32.finite false a := by
  rw [F32.le_def] at h
  rcases (F32.nonNeg_iff x).mp hx with rfl | ⟨a, ha, rfl⟩
  · simp only [F32.le, Bool.false_eq_true] at h
  · simp only [F32.le, F32.toRat, Bool.false_eq_true, if_false, decide_eq_true_eq] at h
    exact ⟨a, ha, h, rfl⟩

/-- The sum of two non-negative values is a non-negative value. -/
theorem F32.add_nonNeg (x y : F32) (hx : x.NonNeg) (hy : y.NonNeg) : (x + y).NonNeg := by
  rcases (F32.nonNeg_iff x).mp hx with rfl | ⟨a, ha, rfl⟩ <;>
    rcases (F32.nonNeg_iff y).mp hy with rfl | ⟨b, hb, rfl⟩
  · show (F32.add _ _).NonNeg
    simp only [F32.add, if_true, F32.NonNeg]
  · show (F32.add _ _).NonNeg
    simp only [F32.add, F32.NonNeg]
  · show (F32.add _ _).NonNeg
    simp only [F32.add, F32.NonNeg]
  · rw [F32.add_nonneg_finite a b ha hb]
    exact F32.nonNeg_ofSignMag _ (add_nonneg ha hb)

/-- Addition of non-negative values is monotone in both operands. -/
theorem F32.add_mono (x y z w : F32) (hx : x.NonNeg) (hy : y.NonNeg) (hz : z.NonNeg)
    (hw : w.NonNeg) (hxz : x ≤ z) (hyw : y ≤ w) : x + y ≤ z + w := by
  have hsum := F32.add_nonNeg x y hx hy
  rcases (F32.nonNeg_iff z).mp hz with rfl | ⟨c, hc, rfl⟩
  · have hinf : F32.inf false + w = F32.inf false := by
      rcases (F32.nonNeg_iff w).mp hw with rfl | ⟨d, -, rfl⟩
      · show F32.add _ _ = _
        simp only [F32.add, if_true]
      · rfl
    rw [hinf]
    exact F32.le_inf_of_nonNeg _ hsum
  · rcases (F32.nonNeg_iff w).mp hw with rfl | ⟨d, hd, rfl⟩
    · have hinf : F32.finite false c + F32.inf false = F32.inf false := rfl
      rw [hinf]
      exact F32.le_inf_of_nonNeg _ hsum
    · obtain ⟨a, ha, hac, rfl⟩ := F32.finite_of_le_finite x c hx hxz
      obtain ⟨b, hb, hbd, rfl⟩ := F32.finite_of_le_finite y d hy hyw
      rw [F32.add_nonneg_finite a b ha hb, F32.add_nonneg_finite c d hc hd]
      exact F32.ofSignMag_mono _ _ (add_nonneg ha hb) (add_le_add hac hbd)

/-- The square root of a non-negative value is a non-negative value. -/
theorem F32.sqrt_nonNeg (x : F32) (hx : x.NonNeg) : (F32.sqrt x).NonNeg := by
  rcases (F32.nonNeg_iff x).mp hx with rfl | ⟨a, ha, rfl⟩
  · simp only [F32.sqrt, Bool.false_eq_true, if_false, F32.NonNeg]
  · rw [F32.sqrt_nonneg_finite]
    exact F32.nonNeg_ofSignMag _ (F32.sqrtApprox_nonneg a)

/-- The square root is monotone on non-negative values. -/
theorem F32.sqrt_mono (x z : F32) (hx : x.NonNeg) (hz : z.NonNeg) (hxz : x ≤ z) :
    F32.sqrt x ≤ F32.sqrt z := by
  rcases (F32.nonNeg_iff z).mp hz with rfl | ⟨c, hc, rfl⟩
  · have hinf : F32.sqrt (F32.inf false) = F32.inf false := by
      simp only [F32.sqrt, Bool.false_eq_true, if_false]
    rw [hinf]
    exact F32.le_inf_of_nonNeg _ (F32.sqrt_nonNeg x hx)
  · obtain ⟨a, ha, hac, rfl⟩ := F32.finite_of_le_finite x c hx hxz
    rw [F32.sqrt_nonneg_finite, F32.sqrt_nonneg_finite]
    exact F32.ofSignMag_mono _ _ (F32.sqrtApprox_nonneg a) (F32.sqrtApprox_mono a c ha hac)

/-- The square of a finite number is the rounding of the square of its magnitude. -/
theorem F32.mul_self_finite (s : Bool) (a : ℚ) :
    F32.finite s a * F32.finite s a = F32.ofSignMag false (a * a) := by
  rw [F32.mul_finite, Bool.xor_self]

/-- The magnitude of a finite vector does not decrease when the magnitudes of its
components do not decrease. -/
theorem magnitude_mono (s t s2 t2 : Bool) (a b c d : ℚ) (ha : 0 ≤ a) (hb : 0 ≤ b)
    (hac : a ≤ c) (hbd : b ≤ d) :
    Vector2.Magnitude F32.sqrt ⟨F32.finite s a, F32.finite t b⟩
      ≤ Vector2.Magnitude F32.sqrt ⟨F32.finite s2 c, F32.finite t2 d⟩ := by
  have hc : 0 ≤ c := le_trans ha hac
  have hd : 0 ≤ d := le_trans hb hbd
  rw [Vector2.Magnitude, Vector2.Magnitude, F32.mul_self_finite, F32.mul_self_finite,
    F32.mul_self_finite, F32.mul_self_finite]
  have h1 := F32.nonNeg_ofSignMag (a * a) (mul_nonneg ha ha)
  have h2 := F32.nonNeg_ofSignMag (b * b) (mul_nonneg hb hb)
  have h3 := F32.nonNeg_ofSignMag (c * c) (mul_nonneg hc hc)
  have h4 := F32.nonNeg_ofSignMag (d * d) (mul_nonneg hd hd)
  apply F32.sqrt_mono _ _ (F32.add_nonNeg _ _ h1 h2) (F32.add_nonNeg _ _ h3 h4)
  exact F32.add_mono _ _ _ _ h1 h2 h3 h4
    (F32.ofSignMag_mono _ _ (mul_nonneg ha ha) (mul_le_mul hac hac ha hc))
    (F32.ofSignMag_mono _ _ (mul_nonneg hb hb) (mul_le_mul hbd hbd hb hd))

/-- No `float` is less than itself. -/
theorem F32.lt_irrefl (x : F32) : ¬ x < x := by
  rw [F32.lt_def]
  cases x with
  | nan => simp [F32.lt]
  | inf s => cases s <;> simp [F32.lt]
  | finite s m => simp [F32.lt]

/-- A finite number between `0` and `1` has a magnitude between `0` and `1`. -/
theorem F32.mag_le_one (c : F32) (hc : c.IsFinite) (h0 : 0 ≤ c) (h1 : c ≤ 1) :
    ∃ γ m, c = F32.finite γ m ∧ 0 ≤ m ∧ m ≤ 1 := by
  obtain ⟨γ, m, rfl, hm⟩ := (F32.isFinite_iff c).mp hc
  refine ⟨γ, m, rfl, hm.1, ?_⟩
  rw [F32.le_def, F32.zero_def] at h0
  rw [F32.le_def, F32.one_def] at h1
  simp only [F32.le, F32.toRat, Bool.false_eq_true, if_false, decide_eq_true_eq] at h0 h1
  cases γ with
  | false => simpa using h1
  | true =>
    have : -m ≥ 0 := by simpa using h0
    linarith

/-- The product of a finite number with a finite factor of magnitude at most `1` is
finite, and its magnitude is at most that of the number. -/
theorem F32.mul_le_one (σ γ : Bool) (a m : ℚ) (ha : F32.Representable a) (hm0 : 0 ≤ m)
    (hm1 : m ≤ 1) :
    ∃ r, F32.finite σ a * F32.finite γ m = F32.finite (xor σ γ) r ∧ 0 ≤ r ∧ r ≤ a := by
  have hprod : a * m ≤ a := by
    have := mul_le_mul_of_nonneg_left hm1 ha.1
    linarith
  have hle : F32.roundMag (a * m) ≤ a := by
    have h := F32.roundMag_mono (a * m) a (mul_nonneg ha.1 hm0) hprod
    rw [ha.2.1] at h
    exact h
  have hlt : F32.roundMag (a * m) < 2 ^ 128 := lt_of_le_of_lt hle ha.2.2
  refine ⟨F32.roundMag (a * m), ?_, F32.roundMag_nonneg _ (mul_nonneg ha.1 hm0), hle⟩
  rw [F32.mul_finite]
  simp only [F32.ofSignMag, hlt, if_true]

/-- Two finite numbers with the same exact value have the same magnitude. -/
theorem F32.mag_eq_of_toRat_eq (σ τ : Bool) (a b : ℚ) (ha : 0 ≤ a) (hb : 0 ≤ b)
    (h : F32.toRat (F32.finite σ a) = F32.toRat (F32.finite τ b)) : a = b := by
  rw [F32.toRat_finite, F32.toRat_finite] at h
  cases σ <;> cases τ <;>
    simp only [Bool.false_eq_true, if_false, if_true, one_mul, neg_mul] at h <;>
    linarith

/-- Claim C4, as amended (drag does not increase the speed). In binary32, with the
correctly rounded `sqrt`: for a particle with finite positive inverse mass, no
acceleration, no accumulated force and finite velocity, for a finite time step `dt` and a
`pow` whose value `pow(Drag, dt)` is a finite number between `0` and `1` (as it is for
`Drag` in `(0, 1)` and `dt > 0`), the magnitude of the velocity after `Integrate(dt)` is
less than or equal to the magnitude before the call. For a particle with
`InverseMass <= 0` the velocity is unchanged. -/
theorem drag_monotonicity (pow : F32 → F32 → F32) (p : Particle F32) (dt : F32) :
    (p.InverseMass > 0 → p.InverseMass.IsFinite → p.Acceleration = ⟨0, 0⟩ →
      p.ForceAccumulation = ⟨0, 0⟩ → p.Velocity.X.IsFinite → p.Velocity.Y.IsFinite →
      dt.IsFinite → (pow p.Drag dt).IsFinite → 0 ≤ pow p.Drag dt → pow p.Drag dt ≤ 1 →
      Vector2.Magnitude F32.sqrt (Particle.Integrate pow p dt).Velocity
        ≤ Vector2.Magnitude F32.sqrt p.Velocity)
    ∧ (p.InverseMass ≤ 0 → (Particle.Integrate pow p dt).Velocity = p.Velocity) := by
  constructor
  · intro hm him ha hf hVX hVY hdt hc hc0 hc1
    obtain ⟨vx, vy, hv, ⟨hvx, hvx2⟩, ⟨hvy, hvy2⟩⟩ :=
      integrate_drag_only pow p dt hm him ha hf hVX hVY hdt
    obtain ⟨γ, m, hcm, hm0, hm1⟩ := F32.mag_le_one _ hc hc0 hc1
    obtain ⟨σ, a, hx, hra⟩ := (F32.isFinite_iff p.Velocity.X).mp hVX
    obtain ⟨τ, b, hy, hrb⟩ := (F32.isFinite_iff p.Velocity.Y).mp hVY
    obtain ⟨σ2, a2, rfl, hra2⟩ := (F32.isFinite_iff vx).mp hvx
    obtain ⟨τ2, b2, rfl, hrb2⟩ := (F32.isFinite_iff vy).mp hvy
    rw [hx] at hvx2
    rw [hy] at hvy2
    have hae : a2 = a := F32.mag_eq_of_toRat_eq _ _ _ _ hra2.1 hra.1 hvx2
    have hbe : b2 = b := F32.mag_eq_of_toRat_eq _ _ _ _ hrb2.1 hrb.1 hvy2
    obtain ⟨r1, hr1, hr1a, hr1b⟩ := F32.mul_le_one σ2 γ a2 m hra2 hm0 hm1
    obtain ⟨r2, hr2, hr2a, hr2b⟩ := F32.mul_le_one τ2 γ b2 m hrb2 hm0 hm1
    have hV : p.Velocity = ⟨p.Velocity.X, p.Velocity.Y⟩ := rfl
    rw [hv, hcm, hr1, hr2, hV, hx, hy]
    exact magnitude_mono _ _ _ _ r1 r2 a b hr1a hr2a (hae ▸ hr1b) (hbe ▸ hr2b)
  · intro hle
    simp [Particle.Integrate, hle]

/-- Witness of C4 as amended: velocity `(3, 4)`, drag `1 / 2` and time step `1`, on a
particle of inverse mass `1` and on a particle of inverse mass `0`. -/
theorem drag_monotonicity_witness :
    let p : Particle F32 :=
      { Position := ⟨F32.finite false 0, F32.finite false 0⟩,
        Velocity := ⟨F32.finite false 3, F32.finite false 4⟩,
        Acceleration := ⟨0, 0⟩, ForceAccumulation := ⟨0, 0⟩,
        Drag := F32.finite false (1 / 2), InverseMass := F32.finite false 1 }
    let q : Particle F32 := { p with InverseMass := F32.finite false 0 }
    (p.InverseMass > 0 ∧ q.InverseMass ≤ 0
      ∧ 0 ≤ F32.powSmall p.Drag (F32.finite false 1)
      ∧ F32.powSmall p.Drag (F32.finite false 1) ≤ 1)
    ∧ Vector2.Magnitude F32.sqrt
        (Particle.Integrate F32.powSmall p (F32.finite false 1)).Velocity
        ≤ Vector2.Magnitude F32.sqrt p.Velocity
    ∧ (Particle.Integrate F32.powSmall q (F32.finite false 1)).Velocity = q.Velocity := by
  intro p q
  have hm : p.InverseMass > 0 := by
    simp only [p, GT.gt, F32.lt_def, F32.lt, F32.zero_def, F32.toRat]
    norm_num
  have hq : q.InverseMass ≤ 0 := by
    simp only [q, F32.le_def, F32.le, F32.zero_def, F32.toRat]
    norm_num
  have h1 : F32.Representable 1 := by simpa using F32.representable_nat 1 (by norm_num)
  have h3 : F32.Representable 3 := by simpa using F32.representable_nat 3 (by norm_num)
  have h4 : F32.Representable 4 := by simpa using F32.representable_nat 4 (by norm_num)
  have hhalf : F32.Representable (1 / 2) :=
    F32.representable_eval _ (-24) 8388608 (by norm_num) (by norm_num)
      (Or.inl (by norm_num)) (by norm_num) (by norm_num) (by norm_num)
  have hpow : F32.powSmall p.Drag (F32.finite false 1) = F32.finite false (1 / 2) :=
    (F32.powSmall_values _).1
  have hc : (F32.powSmall p.Drag (F32.finite false 1)).IsFinite := by
    rw [hpow]
    exact hhalf
  have hc0 : 0 ≤ F32.powSmall p.Drag (F32.finite false 1) := by
    rw [hpow]
    simp only [F32.le_def, F32.le, F32.zero_def, F32.toRat]
    norm_num
  have hc1 : F32.powSmall p.Drag (F32.finite false 1) ≤ 1 := by
    rw [hpow]
    simp only [F32.le_def, F32.le, F32.one_def, F32.toRat]
    norm_num
  exact ⟨⟨hm, hq, hc0, hc1⟩,
    (drag_monotonicity F32.powSmall p (F32.finite false 1)).1 hm h1 rfl rfl h3 h4 h1 hc
      hc0 hc1,
    (drag_monotonicity F32.powSmall q (F32.finite false 1)).2 hq⟩

/-- Claim C4 fails as stated, for three particles with drag in `(0, 1)`, no acceleration
and no force, integrated over `dt = 1`: a particle at rest (drag `1 / 2`, inverse mass
`1`) keeps the velocity `(0, 0)`; a particle with `InverseMass = 0` and velocity `(3, 4)`
is skipped by `Integrate`; and for the velocity `(2 ^ (-149), 0)`, drag `3 / 4` and
inverse mass `1`, the product `2 ^ (-149) * 0.75` rounds back to `2 ^ (-149)`. In each
case the velocity after the call is the velocity before, so its magnitude is not less. -/
theorem drag_monotonicity_fails :
    let rest : Particle F32 :=
      { Position := ⟨F32.finite false 0, F32.finite false 0⟩,
        Velocity := ⟨F32.finite false 0, F32.finite false 0⟩,
        Acceleration := ⟨F32.finite false 0, F32.finite false 0⟩,
        ForceAccumulation := ⟨F32.finite false 0, F32.finite false 0⟩,
        Drag := F32.finite false (1 / 2), InverseMass := F32.finite false 1 }
    let fixed : Particle F32 :=
      { rest with Velocity := ⟨F32.finite false 3, F32.finite false 4⟩,
                  InverseMass := F32.finite false 0 }
    let slow : Particle F32 :=
      { rest with Velocity := ⟨F32.finite false (1 / 2 ^ 149), F32.finite false 0⟩,
                  Drag := F32.finite false (3 / 4) }
    (F32.Representable (1 / 2) ∧ F32.Representable (3 / 4)
      ∧ F32.Representable (1 / 2 ^ 149)
      ∧ rest.Drag > 0 ∧ rest.Drag < 1 ∧ slow.Drag > 0 ∧ slow.Drag < 1
      ∧ F32.finite false 1 > 0 ∧ slow.InverseMass > 0)
    ∧ ((Particle.Integrate F32.powSmall rest (F32.finite false 1)).Velocity = rest.Velocity
      ∧ ¬ Vector2.Magnitude F32.sqrt
            (Particle.Integrate F32.powSmall rest (F32.finite false 1)).Velocity
          < Vector2.Magnitude F32.sqrt rest.Velocity)
    ∧ ((Particle.Integrate F32.powSmall fixed (F32.finite false 1)).Velocity
        = fixed.Velocity
      ∧ ¬ Vector2.Magnitude F32.sqrt
            (Particle.Integrate F32.powSmall fixed (F32.finite false 1)).Velocity
          < Vector2.Magnitude F32.sqrt fixed.Velocity)
    ∧ ((Particle.Integrate F32.powSmall slow (F32.finite false 1)).Velocity = slow.Velocity
      ∧ ¬ Vector2.Magnitude F32.sqrt
            (Particle.Integrate F32.powSmall slow (F32.finite false 1)).Velocity
          < Vector2.Magnitude F32.sqrt slow.Velocity) := by
  intro rest fixed slow
  have hhalf : F32.Representable (1 / 2) :=
    F32.representable_eval _ (-24) 8388608 (by norm_num) (by norm_num)
      (Or.inl (by norm_num)) (by norm_num) (by norm_num) (by norm_num)
  have hd : F32.Representable (3 / 4) :=
    F32.representable_eval _ (-24) 12582912 (by norm_num) (by norm_num)
      (Or.inl (by norm_num)) (by norm_num) (by norm_num) (by norm_num)
  have htiny : F32.Representable (1 / 2 ^ 149) :=
    F32.representable_eval _ (-149) 1 (by norm_num) (by norm_num)
      (Or.inr rfl) (by norm_num) (by norm_num) (by norm_num)
  have hpos : ∀ m : ℚ, 0 < m → F32.finite false m > 0 := by
    intro m hm
    simp only [GT.gt, F32.lt_def, F32.lt, F32.zero_def, F32.toRat, Bool.false_eq_true,
      if_false, decide_eq_true_eq]
    exact hm
  have hlt1 : ∀ m : ℚ, m < 1 → F32.finite false m < 1 := by
    intro m hm
    simp only [F32.lt_def, F32.lt, F32.one_def, F32.toRat, Bool.false_eq_true,
      if_false, decide_eq_true_eq]
    exact hm
  obtain ⟨hz1, -, hzz, -⟩ := F32.zero_terms
  have hzhalf : F32.finite false 0 * F32.finite false (1 / 2) = F32.finite false 0 := by
    rw [F32.mul_finite, zero_mul]
    exact F32.ofSignMag_zero _
  have hzd : F32.finite false 0 * F32.finite false (3 / 4) = F32.finite false 0 := by
    rw [F32.mul_finite, zero_mul]
    exact F32.ofSignMag_zero _
  have htz : F32.finite false (1 / 2 ^ 149) + F32.finite false 0
      = F32.finite false (1 / 2 ^ 149) :=
    F32.add_zero_of_representable _ _ htiny (by norm_num)
  have htd : F32.finite false (1 / 2 ^ 149) * F32.finite false (3 / 4)
      = F32.finite false (1 / 2 ^ 149) := by
    rw [F32.mul_finite]
    exact F32.ofSignMag_eval _ _ _ (-149) 1 (by norm_num) (by norm_num)
      (Or.inr rfl) (by norm_num) (by norm_num) (by norm_num) (by norm_num) (by norm_num)
  have hrest : (Particle.Integrate F32.powSmall rest (F32.finite false 1)).Velocity
      = rest.Velocity := by
    rw [integrate_of_not_le F32.powSmall rest _ (F32.not_le_zero_of_pos _ (hpos 1 (by norm_num)))]
    show (⟨(F32.finite false 0
            + (F32.finite false 0 + F32.finite false 0 * F32.finite false 1)
              * F32.finite false 1)
          * F32.powSmall (F32.finite false (1 / 2)) (F32.finite false 1),
        (F32.finite false 0
            + (F32.finite false 0 + F32.finite false 0 * F32.finite false 1)
              * F32.finite false 1)
          * F32.powSmall (F32.finite false (1 / 2)) (F32.finite false 1)⟩ : Vector2 F32)
      = ⟨F32.finite false 0, F32.finite false 0⟩
    rw [hz1, hzz, hz1, hzz, (F32.powSmall_values _).1, hzhalf]
  have hfixed : (Particle.Integrate F32.powSmall fixed (F32.finite false 1)).Velocity
      = fixed.Velocity := by
    have hle : fixed.InverseMass ≤ 0 := by
      simp only [fixed, F32.le_def, F32.le, F32.zero_def, F32.toRat]
      norm_num
    simp [Particle.Integrate, hle]
  have hslow : (Particle.Integrate F32.powSmall slow (F32.finite false 1)).Velocity
      = slow.Velocity := by
    rw [integrate_of_not_le F32.powSmall slow _ (F32.not_le_zero_of_pos _ (hpos 1 (by norm_num)))]
    show (⟨(F32.finite false (1 / 2 ^ 149)
            + (F32.finite false 0 + F32.finite false 0 * F32.finite false 1)
              * F32.finite false 1)
          * F32.powSmall (F32.finite false (3 / 4)) (F32.finite false 1),
        (F32.finite false 0
            + (F32.finite false 0 + F32.finite false 0 * F32.finite false 1)
              * F32.finite false 1)
          * F32.powSmall (F32.finite false (3 / 4)) (F32.finite false 1)⟩ : Vector2 F32)
      = ⟨F32.finite false (1 / 2 ^ 149), F32.finite false 0⟩
    rw [hz1, hzz, hz1, hzz, htz, (F32.powSmall_values _).1, htd, hzd]
  refine ⟨⟨hhalf, hd, htiny, hpos _ (by norm_num), hlt1 _ (by norm_num),
    hpos _ (by norm_num), hlt1 _ (by norm_num), hpos 1 (by norm_num), hpos 1 (by norm_num)⟩,
    ⟨hrest, ?_⟩, ⟨hfixed, ?_⟩, ⟨hslow, ?_⟩⟩
  · rw [hrest]
    exact F32.lt_irrefl _
  · rw [hfixed]
    exact F32.lt_irrefl _
  · rw [hslow]
    exact F32.lt_irrefl _

end OrderFacts

/-! ## Rounding errors of the magnitude in binary32 -/

section ToleranceFacts

open F32

/-- The rounding factor is at least `1`. -/
theorem F32.one_le_roundFactor : (1 : ℚ) ≤ F32.roundFactor := by
  unfold F32.roundFactor
  norm_num

/-- Powers of the rounding factor are at least `1`. -/
theorem F32.one_le_roundFactor_pow (k : ℕ) : (1 : ℚ) ≤ F32.roundFactor ^ k :=
  one_le_pow₀ F32.one_le_roundFactor

/-- Powers of the rounding factor are positive. -/
theorem F32.roundFactor_pow_pos (k : ℕ) : (0 : ℚ) < F32.roundFactor ^ k :=
  lt_of_lt_of_le one_pos (F32.one_le_roundFactor_pow k)

/-- A non-negative magnitude is close to itself. -/
theorem F32.close_refl (k : ℕ) (x : ℚ) (hx : 0 ≤ x) : F32.Close k x x := by
  have h := F32.one_le_roundFactor_pow k
  constructor <;> nlinarith

/-- Closeness is symmetric. -/
theorem F32.close_symm {k : ℕ} {x y : ℚ} (h : F32.Close k x y) : F32.Close k y x :=
  ⟨h.2, h.1⟩

/-- Closeness with more roundings allowed. -/
theorem F32.close_mono {j k : ℕ} {x y : ℚ} (hjk : j ≤ k) (hx : 0 ≤ x) (hy : 0 ≤ y)
    (h : F32.Close j x y) : F32.Close k x y := by
  have hpow : F32.roundFactor ^ j ≤ F32.roundFactor ^ k :=
    pow_le_pow_right₀ F32.one_le_roundFactor hjk
  exact ⟨le_trans h.1 (mul_le_mul_of_nonneg_right hpow hy),
    le_trans h.2 (mul_le_mul_of_nonneg_right hpow hx)⟩

/-- Closeness composes. -/
theorem F32.close_trans {j k : ℕ} {x y z : ℚ} (h1 : F32.Close j x y)
    (h2 : F32.Close k y z) : F32.Close (j + k) x z := by
  have hj := (F32.roundFactor_pow_pos j).le
  have hk := (F32.roundFactor_pow_pos k).le
  constructor
  · calc x ≤ F32.roundFactor ^ j * y := h1.1
      _ ≤ F32.roundFactor ^ j * (F32.roundFactor ^ k * z) :=
          mul_le_mul_of_nonneg_left h2.1 hj
      _ = F32.roundFactor ^ (j + k) * z := by rw [pow_add]; ring
  · calc z ≤ F32.roundFactor ^ k * y := h2.2
      _ ≤ F32.roundFactor ^ k * (F32.roundFactor ^ j * x) :=
          mul_le_mul_of_nonneg_left h1.2 hk
      _ = F32.roundFactor ^ (j + k) * x := by rw [pow_add]; ring

/-- Closeness of products. -/
theorem F32.close_mul {j k : ℕ} {x y z w : ℚ} (hx : 0 ≤ x) (hy : 0 ≤ y) (hz : 0 ≤ z)
    (hw : 0 ≤ w) (h1 : F32.Close j x y) (h2 : F32.Close k z w) :
    F32.Close (j + k) (x * z) (y * w) := by
  have hj := (F32.roundFactor_pow_pos j).le
  have hk := (F32.roundFactor_pow_pos k).le
  constructor
  · calc x * z ≤ (F32.roundFactor ^ j * y) * (F32.roundFactor ^ k * w) :=
          mul_le_mul h1.1 h2.1 hz (mul_nonneg hj hy)
      _ = F32.roundFactor ^ (j + k) * (y * w) := by rw [pow_add]; ring
  · calc y * w ≤ (F32.roundFactor ^ j * x) * (F32.roundFactor ^ k * z) :=
          mul_le_mul h1.2 h2.2 hw (mul_nonneg hj hx)
      _ = F32.roundFactor ^ (j + k) * (x * z) := by rw [pow_add]; ring

/-- Closeness of sums. -/
theorem F32.close_add {k : ℕ} {x y z w : ℚ} (h1 : F32.Close k x y) (h2 : F32.Close k z w) :
    F32.Close k (x + z) (y + w) := by
  constructor
  · have := add_le_add h1.1 h2.1
    linarith
  · have := add_le_add h1.2 h2.2
    linarith

/-- Closeness of quotients. -/
theorem F32.close_div {j k : ℕ} {x y m n : ℚ} (hx : 0 ≤ x) (hy : 0 ≤ y) (hm : 0 < m)
    (hn : 0 < n) (h1 : F32.Close j x y) (h2 : F32.Close k m n) :
    F32.Close (j + k) (x / m) (y / n) := by
  have hj := (F32.roundFactor_pow_pos j).le
  have hk := (F32.roundFactor_pow_pos k).le
  constructor
  · rw [div_le_iff₀ hm]
    have hrw : F32.roundFactor ^ (j + k) * (y / n) * m
        = (F32.roundFactor ^ j * y) * (F32.roundFactor ^ k * m) / n := by
      rw [pow_add]; field_simp; ring
    rw [hrw, le_div_iff₀ hn]
    exact mul_le_mul h1.1 h2.2 hn.le (mul_nonneg hj hy)
  · rw [div_le_iff₀ hn]
    have hrw : F32.roundFactor ^ (j + k) * (x / m) * n
        = (F32.roundFactor ^ j * x) * (F32.roundFactor ^ k * n) / m := by
      rw [pow_add]; field_simp; ring
    rw [hrw, le_div_iff₀ hm]
    exact mul_le_mul h1.2 h2.1 hm.le (mul_nonneg hj hx)

/-- One rounding of a magnitude that is zero or in the normal range keeps it close. -/
theorem F32.close_roundMag (q : ℚ) (hq : q = 0 ∨ (2 : ℚ) ^ (-126 : ℤ) ≤ q) :
    F32.Close 1 (F32.roundMag q) q := by
  rcases hq with rfl | hq
  · rw [F32.roundMag_zero]
    exact F32.close_refl 1 0 (le_refl _)
  · have hpos : 0 < q := lt_of_lt_of_le (by positivity) hq
    have h := F32.abs_roundMag_sub_le_rel q hq
    rw [abs_le] at h
    have hu : (2 : ℚ) ^ (-24 : ℤ) = 1 / 16777216 := by norm_num
    rw [hu] at h
    unfold F32.Close F32.roundFactor
    rw [pow_one]
    constructor <;> nlinarith [h.1, h.2]

/-- The approximation of the square root is exact on the square of a multiple of
`2 ^ (-128)`. -/
theorem F32.sqrtApprox_sq_scaled (k : ℕ) :
    F32.sqrtApprox ((k : ℚ) / 2 ^ 128 * ((k : ℚ) / 2 ^ 128)) = (k : ℚ) / 2 ^ 128 := by
  have hq : (k : ℚ) / 2 ^ 128 * ((k : ℚ) / 2 ^ 128) * 4 ^ 128 = ((k * k : ℕ) : ℚ) := by
    push_cast
    have h4 : (4 : ℚ) ^ 128 = 2 ^ 128 * 2 ^ 128 := by norm_num
    rw [h4]
    field_simp
  have hfloor : ⌊(k : ℚ) / 2 ^ 128 * ((k : ℚ) / 2 ^ 128) * 4 ^ 128⌋₊ = k * k := by
    rw [hq, Nat.floor_natCast]
  have hsqrt : Nat.sqrt (k * k) = k := Nat.sqrt_eq _
  have hexact : (k : ℚ) * (k : ℚ)
      = (k : ℚ) / 2 ^ 128 * ((k : ℚ) / 2 ^ 128) * 4 ^ 128 := by
    rw [hq]
    push_cast
    ring
  simp only [F32.sqrtApprox, hfloor, hsqrt, hexact, if_true]

/-- The approximation of the square root is exact on the even powers of two from
`2 ^ (-256)` on. -/
theorem F32.sqrtApprox_zpow (e : ℤ) (he : -128 ≤ e) :
    F32.sqrtApprox ((2 : ℚ) ^ (e + e)) = (2 : ℚ) ^ e := by
  have hk : (2 : ℚ) ^ e = ((2 ^ (e + 128).toNat : ℕ) : ℚ) / 2 ^ 128 := by
    have hnat : (((e + 128).toNat : ℕ) : ℤ) = e + 128 := Int.toNat_of_nonneg (by omega)
    push_cast
    rw [← zpow_natCast (2 : ℚ) (e + 128).toNat, hnat, zpow_add₀ (by norm_num : (2 : ℚ) ≠ 0)]
    have h128 : (2 : ℚ) ^ (128 : ℤ) = 2 ^ 128 := by norm_num
    rw [h128]
    field_simp
  have hsq : (2 : ℚ) ^ (e + e) = (2 : ℚ) ^ e * (2 : ℚ) ^ e :=
    zpow_add₀ (by norm_num : (2 : ℚ) ≠ 0) e e
  rw [hsq, hk]
  exact F32.sqrtApprox_sq_scaled _

/-- The approximation of the square root does not go below a power of two whose square
the argument reaches. -/
theorem F32.pow_le_sqrtApprox (q : ℚ) (e : ℤ) (he : -128 ≤ e)
    (h : (2 : ℚ) ^ (e + e) ≤ q) : (2 : ℚ) ^ e ≤ F32.sqrtApprox q := by
  have hmono := F32.sqrtApprox_mono _ q (by positivity) h
  rw [F32.sqrtApprox_zpow e he] at hmono
  exact hmono

/-- The approximation of the square root does not go above a power of two whose square
bounds the argument. -/
theorem F32.sqrtApprox_le_pow (q : ℚ) (e : ℤ) (hq : 0 ≤ q) (he : -128 ≤ e)
    (h : q ≤ (2 : ℚ) ^ (e + e)) : F32.sqrtApprox q ≤ (2 : ℚ) ^ e := by
  have hmono := F32.sqrtApprox_mono q _ hq h
  rw [F32.sqrtApprox_zpow e he] at hmono
  exact hmono

/-- The approximation of the square root: its square is the argument, or the argument
lies between the squares of the approximation minus and plus `2 ^ (-129)`. -/
theorem F32.sqrtApprox_spec (q : ℚ) (hq : 0 ≤ q) :
    F32.sqrtApprox q * F32.sqrtApprox q = q
    ∨ (1 / 2 / 2 ^ 128 ≤ F32.sqrtApprox q
      ∧ (F32.sqrtApprox q - 1 / 2 / 2 ^ 128) * (F32.sqrtApprox q - 1 / 2 / 2 ^ 128) ≤ q
      ∧ q ≤ (F32.sqrtApprox q + 1 / 2 / 2 ^ 128)
          * (F32.sqrtApprox q + 1 / 2 / 2 ^ 128)) := by
  have h4 : (4 : ℚ) ^ 128 = 2 ^ 128 * 2 ^ 128 := by norm_num
  have hN : 0 ≤ q * 4 ^ 128 := mul_nonneg hq (by positivity)
  have hfl : ((⌊q * 4 ^ 128⌋₊ : ℕ) : ℚ) ≤ q * 4 ^ 128 := Nat.floor_le hN
  have hfu : q * 4 ^ 128 < ((⌊q * 4 ^ 128⌋₊ : ℕ) : ℚ) + 1 := Nat.lt_floor_add_one _
  have hs1 : ((Nat.sqrt ⌊q * 4 ^ 128⌋₊ : ℕ) : ℚ) * (Nat.sqrt ⌊q * 4 ^ 128⌋₊ : ℕ)
      ≤ ((⌊q * 4 ^ 128⌋₊ : ℕ) : ℚ) := by
    exact_mod_cast Nat.sqrt_le _
  have hs2 : ((⌊q * 4 ^ 128⌋₊ : ℕ) : ℚ) + 1
      ≤ (((Nat.sqrt ⌊q * 4 ^ 128⌋₊ : ℕ) : ℚ) + 1) * ((Nat.sqrt ⌊q * 4 ^ 128⌋₊ : ℕ) + 1) := by
    have h := Nat.lt_succ_sqrt ⌊q * 4 ^ 128⌋₊
    have h2 : ⌊q * 4 ^ 128⌋₊ + 1
        ≤ (Nat.sqrt ⌊q * 4 ^ 128⌋₊ + 1) * (Nat.sqrt ⌊q * 4 ^ 128⌋₊ + 1) := h
    exact_mod_cast h2
  have hA : (0 : ℚ) ≤ ((Nat.sqrt ⌊q * 4 ^ 128⌋₊ : ℕ) : ℚ) := Nat.cast_nonneg _
  have hP : (0 : ℚ) < 2 ^ 128 := by positivity
  unfold F32.sqrtApprox
  simp only
  generalize ((Nat.sqrt ⌊q * 4 ^ 128⌋₊ : ℕ) : ℚ) = A at hs1 hs2 hA ⊢
  generalize ((⌊q * 4 ^ 128⌋₊ : ℕ) : ℚ) = n at hs1 hs2 hfl hfu
  rw [h4] at hfl hfu ⊢
  generalize (2 : ℚ) ^ 128 = P at hP hfl hfu ⊢
  have hPP : 0 < P * P := mul_pos hP hP
  split_ifs with hex
  · left
    rw [div_mul_div_comm, hex]
    field_simp
  · right
    have e1 : (A + 1 / 2) / P - 1 / 2 / P = A / P := by ring
    have e2 : (A + 1 / 2) / P + 1 / 2 / P = (A + 1) / P := by ring
    rw [e1, e2, div_mul_div_comm, div_mul_div_comm, div_le_iff₀ hPP, le_div_iff₀ hPP]
    refine ⟨?_, ?_, ?_⟩
    · apply div_le_div_of_nonneg_right _ hP.le
      linarith
    · linarith
    · linarith

/-- The square of the approximation of the square root is close to the argument. -/
theorem F32.close_sqrtApprox (q : ℚ) (hq : (2 : ℚ) ^ (-200 : ℤ) ≤ q) :
    F32.Close 1 (F32.sqrtApprox q * F32.sqrtApprox q) q := by
  have hq0 : 0 ≤ q := le_trans (by positivity) hq
  have ht : (2 : ℚ) ^ (-100 : ℤ) ≤ F32.sqrtApprox q :=
    F32.pow_le_sqrtApprox q (-100) (by norm_num) (by simpa using hq)
  rcases F32.sqrtApprox_spec q hq0 with hex | ⟨-, hlow, hup⟩
  · rw [hex]
    exact F32.close_refl 1 q hq0
  · have h100 : (2 : ℚ) ^ (-100 : ℤ) = 1 / 2 ^ 100 := by norm_num
    rw [h100] at ht
    generalize F32.sqrtApprox q = t at ht hlow hup ⊢
    have htpos : 0 < t := lt_of_lt_of_le (by positivity) ht
    have hh : (1 : ℚ) / 2 / 2 ^ 128 ≤ 1 / 2 ^ 29 * t := by
      have : (1 : ℚ) / 2 / 2 ^ 128 = 1 / 2 ^ 29 * (1 / 2 ^ 100) := by norm_num
      rw [this]
      exact mul_le_mul_of_nonneg_left ht (by positivity)
    have hh0 : (0 : ℚ) ≤ 1 / 2 / 2 ^ 128 := by positivity
    generalize (1 : ℚ) / 2 / 2 ^ 128 = h at hh hh0 hlow hup
    have hup1 : t + h ≤ (1 + 1 / 2 ^ 29) * t := by linarith
    have hlow1 : (1 - 1 / 2 ^ 29) * t ≤ t - h := by linarith
    have hlow0 : (0 : ℚ) ≤ (1 - 1 / 2 ^ 29) * t := mul_nonneg (by norm_num) htpos.le
    have hth : 0 ≤ t + h := by linarith
    have hup2 : (t + h) * (t + h) ≤ ((1 + 1 / 2 ^ 29) * t) * ((1 + 1 / 2 ^ 29) * t) :=
      mul_le_mul hup1 hup1 hth (le_trans hth hup1)
    have hlow2 : ((1 - 1 / 2 ^ 29) * t) * ((1 - 1 / 2 ^ 29) * t) ≤ (t - h) * (t - h) :=
      mul_le_mul hlow1 hlow1 hlow0 (le_trans hlow0 hlow1)
    have htt : 0 ≤ t * t := mul_nonneg htpos.le htpos.le
    have hc1 : ((1 : ℚ) + 1 / 2 ^ 29) * (1 + 1 / 2 ^ 29) ≤ 16777216 / 16777215 := by
      norm_num
    have hc2 : (1 : ℚ) ≤ 16777216 / 16777215 * ((1 - 1 / 2 ^ 29) * (1 - 1 / 2 ^ 29)) := by
      norm_num
    unfold F32.Close F32.roundFactor
    rw [pow_one]
    constructor
    · have h1 : t * t ≤ 16777216 / 16777215 * (((1 - 1 / 2 ^ 29) * t)
          * ((1 - 1 / 2 ^ 29) * t)) := by
        have := mul_le_mul_of_nonneg_right hc2 htt
        linarith
      have h2 : (16777216 : ℚ) / 16777215 * (((1 - 1 / 2 ^ 29) * t) * ((1 - 1 / 2 ^ 29) * t))
          ≤ 16777216 / 16777215 * q :=
        mul_le_mul_of_nonneg_left (le_trans hlow2 hlow) (by norm_num)
      exact le_trans h1 h2
    · have h1 : ((1 + 1 / 2 ^ 29) * t) * ((1 + 1 / 2 ^ 29) * t)
          ≤ 16777216 / 16777215 * (t * t) := by
        have := mul_le_mul_of_nonneg_right hc1 htt
        linarith
      exact le_trans hup (le_trans hup2 h1)

/-- A rounding below `2 ^ 128` is the finite number with the rounded magnitude. -/
theorem F32.ofSignMag_of_lt (s : Bool) (q : ℚ) (h : F32.roundMag q < 2 ^ 128) :
    F32.ofSignMag s q = F32.finite s (F32.roundMag q) := by
  simp only [F32.ofSignMag, h, if_true]

/-- A magnitude of at most `2 ^ 127` is below `2 ^ 128`. -/
theorem F32.lt_of_le_zpow (x : ℚ) (e : ℤ) (he : e ≤ 127) (h : x ≤ (2 : ℚ) ^ e) :
    x < 2 ^ 128 := by
  have h1 : (2 : ℚ) ^ e ≤ (2 : ℚ) ^ (127 : ℤ) := zpow_le_zpow_right₀ (by norm_num) he
  have h2 : (2 : ℚ) ^ (127 : ℤ) < 2 ^ 128 := by norm_num
  exact lt_of_le_of_lt (le_trans h h1) h2

/-- A magnitude of at least `2 ^ e` with `e` from `-126` on is in the normal range. -/
theorem F32.normal_of_zpow_le (x : ℚ) (e : ℤ) (he : -126 ≤ e) (h : (2 : ℚ) ^ e ≤ x) :
    (2 : ℚ) ^ (-126 : ℤ) ≤ x :=
  le_trans (zpow_le_zpow_right₀ (by norm_num) he) h

/-- The rounded square of a magnitude that is zero or between `2 ^ lo` and `2 ^ hi`. -/
theorem F32.square_facts (a : ℚ) (lo hi : ℤ) (hlo : -61 ≤ lo) (hlh : lo ≤ hi)
    (ha : a = 0 ∨ ((2 : ℚ) ^ lo ≤ a ∧ a ≤ (2 : ℚ) ^ hi)) :
    0 ≤ a ∧ 0 ≤ F32.roundMag (a * a) ∧ F32.roundMag (a * a) ≤ (2 : ℚ) ^ (hi + hi)
    ∧ (a ≠ 0 → (2 : ℚ) ^ (lo + lo) ≤ F32.roundMag (a * a))
    ∧ F32.Close 1 (F32.roundMag (a * a)) (a * a) := by
  have hpl : (0 : ℚ) < (2 : ℚ) ^ lo := by positivity
  have hph : (0 : ℚ) < (2 : ℚ) ^ (hi + hi) := by positivity
  rcases ha with rfl | ⟨h1, h2⟩
  · rw [mul_zero, F32.roundMag_zero]
    exact ⟨le_refl _, le_refl _, hph.le, fun h => absurd rfl h,
      F32.close_refl 1 0 (le_refl _)⟩
  · have ha0 : 0 ≤ a := le_trans hpl.le h1
    have hlow : (2 : ℚ) ^ (lo + lo) ≤ a * a := by
      rw [zpow_add₀ (by norm_num : (2 : ℚ) ≠ 0)]
      exact mul_le_mul h1 h1 hpl.le ha0
    have hup : a * a ≤ (2 : ℚ) ^ (hi + hi) := by
      rw [zpow_add₀ (by norm_num : (2 : ℚ) ≠ 0)]
      exact mul_le_mul h2 h2 ha0 (le_trans ha0 h2)
    have hsq : 0 ≤ a * a := mul_nonneg ha0 ha0
    exact ⟨ha0, F32.roundMag_nonneg _ hsq,
      F32.roundMag_le_pow _ _ hsq (by omega) hup,
      fun _ => F32.pow_le_roundMag _ _ (by omega) hlow,
      F32.close_roundMag _ (Or.inr (F32.normal_of_zpow_le _ _ (by omega) hlow))⟩

/-- The magnitude of a finite vector whose components are zero or between `2 ^ lo` and
`2 ^ hi` in magnitude, not both zero: a finite positive number between `2 ^ lo` and
`2 ^ (hi + 1)` whose square is within five roundings of the exact sum of squares. -/
theorem magnitude_close (σ τ : Bool) (a b : ℚ) (lo hi : ℤ) (hlo : -61 ≤ lo) (hlh : lo ≤ hi)
    (hhi : hi ≤ 61) (ha : a = 0 ∨ ((2 : ℚ) ^ lo ≤ a ∧ a ≤ (2 : ℚ) ^ hi))
    (hb : b = 0 ∨ ((2 : ℚ) ^ lo ≤ b ∧ b ≤ (2 : ℚ) ^ hi)) (hne : a ≠ 0 ∨ b ≠ 0) :
    ∃ M, Vector2.Magnitude F32.sqrt ⟨F32.finite σ a, F32.finite τ b⟩ = F32.finite false M
      ∧ (2 : ℚ) ^ lo ≤ M ∧ M ≤ (2 : ℚ) ^ (hi + 1)
      ∧ F32.Close 5 (M * M) (a * a + b * b) ∧ F32.Representable M := by
  obtain ⟨ha0, hA0, hAup, hAlow, hAc⟩ := F32.square_facts a lo hi hlo hlh ha
  obtain ⟨hb0, hB0, hBup, hBlow, hBc⟩ := F32.square_facts b lo hi hlo hlh hb
  have hAlt : F32.roundMag (a * a) < 2 ^ 128 := F32.lt_of_le_zpow _ _ (by omega) hAup
  have hBlt : F32.roundMag (b * b) < 2 ^ 128 := F32.lt_of_le_zpow _ _ (by omega) hBup
  have hs0 : 0 ≤ F32.roundMag (a * a) + F32.roundMag (b * b) := add_nonneg hA0 hB0
  have hslow : (2 : ℚ) ^ (lo + lo) ≤ F32.roundMag (a * a) + F32.roundMag (b * b) := by
    rcases hne with h | h
    · have := hAlow h
      linarith
    · have := hBlow h
      linarith
  have hsup : F32.roundMag (a * a) + F32.roundMag (b * b)
      ≤ (2 : ℚ) ^ ((hi + 1) + (hi + 1)) := by
    have h1 : (2 : ℚ) ^ (hi + hi + 1) = (2 : ℚ) ^ (hi + hi) * 2 :=
      zpow_add_one₀ (by norm_num) _
    have h2 : (2 : ℚ) ^ (hi + hi + 1) ≤ (2 : ℚ) ^ ((hi + 1) + (hi + 1)) :=
      zpow_le_zpow_right₀ (by norm_num) (by omega)
    linarith
  have hS0 := F32.roundMag_nonneg _ hs0
  have hSlow := F32.pow_le_roundMag _ _ (by omega) hslow
  have hSup := F32.roundMag_le_pow _ _ hs0 (by omega) hsup
  have hSlt := F32.lt_of_le_zpow _ _ (by omega) hSup
  have hSc := F32.close_roundMag _ (Or.inr (F32.normal_of_zpow_le _ _ (by omega) hslow))
  have htlow := F32.pow_le_sqrtApprox _ lo (by omega) hSlow
  have htup := F32.sqrtApprox_le_pow _ (hi + 1) hS0 (by omega) hSup
  have ht0 := F32.sqrtApprox_nonneg
    (F32.roundMag (F32.roundMag (a * a) + F32.roundMag (b * b)))
  have htc := F32.close_sqrtApprox _
    (le_trans (zpow_le_zpow_right₀ (by norm_num) (by omega)) hSlow)
  have hMlow := F32.pow_le_roundMag _ _ (by omega) htlow
  have hMup := F32.roundMag_le_pow _ _ ht0 (by omega) htup
  have hMlt := F32.lt_of_le_zpow _ _ (by omega) hMup
  have hM0 := F32.roundMag_nonneg _ ht0
  have hMc := F32.close_roundMag _ (Or.inr (F32.normal_of_zpow_le _ _ (by omega) htlow))
  refine ⟨_, ?_, hMlow, hMup, ?_, F32.representable_roundMag _ ht0 hMlt⟩
  · rw [Vector2.Magnitude, F32.mul_self_finite, F32.mul_self_finite,
      F32.ofSignMag_of_lt _ _ hAlt, F32.ofSignMag_of_lt _ _ hBlt,
      F32.add_nonneg_finite _ _ hA0 hB0, F32.ofSignMag_of_lt _ _ hSlt,
      F32.sqrt_nonneg_finite, F32.ofSignMag_of_lt _ _ hMlt]
  · have h1 := F32.close_trans hSc (F32.close_add hAc hBc)
    have h2 := F32.close_trans htc h1
    have h3 := F32.close_trans (F32.close_mul hM0 ht0 hM0 ht0 hMc hMc) h2
    exact h3

/-- The components of `Normalize`, over any carrier. -/
theorem Vector2.Normalize_eq {β : Type} [Add β] [Mul β] [Div β] (sqrt : β → β)
    (w : Vector2 β) :
    Vector2.Normalize sqrt w
      = ⟨w.X / Vector2.Magnitude sqrt w, w.Y / Vector2.Magnitude sqrt w⟩ := rfl

/-- The absolute value of the exact value of a finite number is its magnitude. -/
theorem F32.abs_toRat_finite (σ : Bool) (a : ℚ) (ha : 0 ≤ a) :
    |F32.toRat (F32.finite σ a)| = a := by
  rw [F32.toRat_finite]
  cases σ
  · simp only [Bool.false_eq_true, if_false, one_mul]
    exact abs_of_nonneg ha
  · simp only [if_true, neg_mul, one_mul, abs_neg]
    exact abs_of_nonneg ha

/-- The rounded quotient of a magnitude that is zero or between `2 ^ (-30)` and `2 ^ 30`
by a magnitude between `2 ^ (-30)` and `2 ^ 31`. -/
theorem F32.quotient_facts (a M : ℚ)
    (ha : a = 0 ∨ ((2 : ℚ) ^ (-30 : ℤ) ≤ a ∧ a ≤ (2 : ℚ) ^ (30 : ℤ)))
    (hMlow : (2 : ℚ) ^ (-30 : ℤ) ≤ M) (hMup : M ≤ (2 : ℚ) ^ (31 : ℤ)) :
    F32.roundMag (a / M) < 2 ^ 128
    ∧ (F32.roundMag (a / M) = 0
      ∨ ((2 : ℚ) ^ (-61 : ℤ) ≤ F32.roundMag (a / M)
        ∧ F32.roundMag (a / M) ≤ (2 : ℚ) ^ (60 : ℤ)))
    ∧ (a ≠ 0 → F32.roundMag (a / M) ≠ 0)
    ∧ F32.Close 1 (F32.roundMag (a / M)) (a / M) := by
  have hMpos : 0 < M := lt_of_lt_of_le (by positivity) hMlow
  rcases ha with rfl | ⟨h1, h2⟩
  · rw [zero_div, F32.roundMag_zero]
    exact ⟨by norm_num, Or.inl rfl, fun h => absurd rfl h, F32.close_refl 1 0 (le_refl _)⟩
  · have ha0 : 0 < a := lt_of_lt_of_le (by positivity) h1
    have hlow : (2 : ℚ) ^ (-61 : ℤ) ≤ a / M := by
      rw [le_div_iff₀ hMpos]
      have h61 : (2 : ℚ) ^ (-61 : ℤ) * 2 ^ (31 : ℤ) = 2 ^ (-30 : ℤ) := by norm_num
      calc (2 : ℚ) ^ (-61 : ℤ) * M ≤ (2 : ℚ) ^ (-61 : ℤ) * 2 ^ (31 : ℤ) :=
            mul_le_mul_of_nonneg_left hMup (by positivity)
        _ = 2 ^ (-30 : ℤ) := h61
        _ ≤ a := h1
    have hup : a / M ≤ (2 : ℚ) ^ (60 : ℤ) := by
      rw [div_le_iff₀ hMpos]
      have h60 : (2 : ℚ) ^ (60 : ℤ) * 2 ^ (-30 : ℤ) = 2 ^ (30 : ℤ) := by norm_num
      calc a ≤ 2 ^ (30 : ℤ) := h2
        _ = (2 : ℚ) ^ (60 : ℤ) * 2 ^ (-30 : ℤ) := h60.symm
        _ ≤ (2 : ℚ) ^ (60 : ℤ) * M := mul_le_mul_of_nonneg_left hMlow (by positivity)
    have hq0 : 0 ≤ a / M := div_nonneg ha0.le hMpos.le
    have hrlow := F32.pow_le_roundMag _ _ (by norm_num) hlow
    have hrup := F32.roundMag_le_pow _ _ hq0 (by norm_num) hup
    refine ⟨F32.lt_of_le_zpow _ _ (by norm_num) hrup, Or.inr ⟨hrlow, hrup⟩, ?_,
      F32.close_roundMag _ (Or.inr (F32.normal_of_zpow_le _ _ (by norm_num) hlow))⟩
    intro _ hzero
    rw [hzero] at hrlow
    exact absurd hrlow (by norm_num)

/-- A magnitude whose square is within twelve roundings of `1` is within `2 ^ (-21)` of
`1`. -/
theorem F32.near_one_of_close (r : ℚ) (hr : 0 ≤ r) (h : F32.Close 12 (r * r) 1) :
    |r - 1| ≤ 1 / 2 ^ 21 := by
  obtain ⟨h1, h2⟩ := h
  have hsplit : F32.roundFactor ^ 12 = F32.roundFactor ^ 6 * F32.roundFactor ^ 6 := by
    rw [← pow_add]
  have hK0 : (0 : ℚ) ≤ F32.roundFactor ^ 6 := (F32.roundFactor_pow_pos 6).le
  have hK1 : F32.roundFactor ^ 6 ≤ 1 + 1 / 2 ^ 21 := by
    unfold F32.roundFactor
    norm_num
  have hK2 : F32.roundFactor ^ 6 * (1 - 1 / 2 ^ 21) ≤ 1 := by
    unfold F32.roundFactor
    norm_num
  rw [hsplit, mul_one] at h1
  rw [hsplit] at h2
  generalize F32.roundFactor ^ 6 = K at hK0 hK1 hK2 h1 h2
  have hle : r ≤ K := (mul_self_le_mul_self_iff hr hK0).mpr h1
  have hge : 1 ≤ K * r := by
    apply (mul_self_le_mul_self_iff (by norm_num) (mul_nonneg hK0 hr)).mpr
    calc (1 : ℚ) * 1 = 1 := by norm_num
      _ ≤ K * K * (r * r) := h2
      _ = K * r * (K * r) := by ring
  rw [abs_le]
  constructor
  · by_contra hcon
    push_neg at hcon
    have hlt : r < 1 - 1 / 2 ^ 21 := by linarith
    have : K * r ≤ K * (1 - 1 / 2 ^ 21) := mul_le_mul_of_nonneg_left hlt.le hK0
    have hKpos : 0 < K := by
      by_contra hK
      have : K = 0 := le_antisymm (not_lt.mp hK) hK0
      rw [this, zero_mul] at hge
      exact absurd hge (by norm_num)
    have hstrict : K * r < K * (1 - 1 / 2 ^ 21) := mul_lt_mul_of_pos_left hlt hKpos
    linarith
  · linarith

/-- Claim C13, as amended (normalize round trip). Over any carrier and any `sqrt`,
`Normalize` returns the vector of the components divided by the magnitude; it is a
`const` member, so `v` itself is the same value afterwards. In binary32 with the
correctly rounded `sqrt`: for a finite vector `v` whose components are zero or between
`2 ^ (-30)` and `2 ^ 30` in absolute value, not both zero, `v.Normalize().Magnitude()` is
a finite number within `2 ^ (-21)` of `1`. -/
theorem normalize_magnitude {β : Type} [Add β] [Mul β] [Div β] (sqrt : β → β)
    (w : Vector2 β) (v : Vector2 F32) :
    Vector2.Normalize sqrt w = w.opDiv (Vector2.Magnitude sqrt w)
    ∧ (v.X.IsFinite → v.Y.IsFinite →
        (F32.toRat v.X = 0 ∨ (1 / 2 ^ 30 ≤ |F32.toRat v.X| ∧ |F32.toRat v.X| ≤ 2 ^ 30)) →
        (F32.toRat v.Y = 0 ∨ (1 / 2 ^ 30 ≤ |F32.toRat v.Y| ∧ |F32.toRat v.Y| ≤ 2 ^ 30)) →
        (F32.toRat v.X ≠ 0 ∨ F32.toRat v.Y ≠ 0) →
        ∃ r, Vector2.Magnitude F32.sqrt (Vector2.Normalize F32.sqrt v) = F32.finite false r
          ∧ |r - 1| ≤ 1 / 2 ^ 21) := by
  refine ⟨rfl, ?_⟩
  intro hX hY hxr hyr hne
  obtain ⟨vx, vy⟩ := v
  obtain ⟨σ, a, rfl, hra⟩ := (F32.isFinite_iff vx).mp hX
  obtain ⟨τ, b, rfl, hrb⟩ := (F32.isFinite_iff vy).mp hY
  have hlo30 : (2 : ℚ) ^ (-30 : ℤ) = 1 / 2 ^ 30 := by norm_num
  have hhi30 : (2 : ℚ) ^ (30 : ℤ) = 2 ^ 30 := by norm_num
  have hzero : ∀ (s : Bool) (m : ℚ), 0 ≤ m → (F32.toRat (F32.finite s m) = 0 ↔ m = 0) := by
    intro s m hm
    rw [← abs_eq_zero, F32.abs_toRat_finite s m hm]
  have ha : a = 0 ∨ ((2 : ℚ) ^ (-30 : ℤ) ≤ a ∧ a ≤ (2 : ℚ) ^ (30 : ℤ)) := by
    rw [hlo30, hhi30]
    rcases hxr with h | h
    · exact Or.inl ((hzero σ a hra.1).mp h)
    · rw [F32.abs_toRat_finite σ a hra.1] at h
      exact Or.inr h
  have hb : b = 0 ∨ ((2 : ℚ) ^ (-30 : ℤ) ≤ b ∧ b ≤ (2 : ℚ) ^ (30 : ℤ)) := by
    rw [hlo30, hhi30]
    rcases hyr with h | h
    · exact Or.inl ((hzero τ b hrb.1).mp h)
    · rw [F32.abs_toRat_finite τ b hrb.1] at h
      exact Or.inr h
  have hne2 : a ≠ 0 ∨ b ≠ 0 := by
    rcases hne with h | h
    · exact Or.inl (fun h0 => h ((hzero σ a hra.1).mpr h0))
    · exact Or.inr (fun h0 => h ((hzero τ b hrb.1).mpr h0))
  obtain ⟨M, hM, hMlow, hMup, hMc, -⟩ :=
    magnitude_close σ τ a b (-30) 30 (by norm_num) (by norm_num) (by norm_num) ha hb hne2
  have hMpos : 0 < M := lt_of_lt_of_le (by positivity) hMlow
  obtain ⟨hxlt, hxrange, hxne, hxc⟩ := F32.quotient_facts a M ha hMlow hMup
  obtain ⟨hylt, hyrange, hyne, hyc⟩ := F32.quotient_facts b M hb hMlow hMup
  have hne3 : F32.roundMag (a / M) ≠ 0 ∨ F32.roundMag (b / M) ≠ 0 := by
    rcases hne2 with h | h
    · exact Or.inl (hxne h)
    · exact Or.inr (hyne h)
  obtain ⟨R, hR, hRlow, -, hRc, hRrep⟩ :=
    magnitude_close (xor σ false) (xor τ false) (F32.roundMag (a / M))
      (F32.roundMag (b / M)) (-61) 60 (by norm_num) (by norm_num) (by norm_num)
      hxrange hyrange hne3
  refine ⟨R, ?_, ?_⟩
  · rw [Vector2.Normalize_eq, hM]
    show Vector2.Magnitude F32.sqrt
      ⟨F32.finite σ a / F32.finite false M, F32.finite τ b / F32.finite false M⟩ = _
    rw [F32.div_finite _ _ _ _ hMpos.ne', F32.div_finite _ _ _ _ hMpos.ne',
      F32.ofSignMag_of_lt _ _ hxlt, F32.ofSignMag_of_lt _ _ hylt]
    exact hR
  · apply F32.near_one_of_close R hRrep.1
    have ha0 := hra.1
    have hb0 := hrb.1
    have hqa : 0 ≤ a / M := div_nonneg ha0 hMpos.le
    have hqb : 0 ≤ b / M := div_nonneg hb0 hMpos.le
    have hcx0 := F32.roundMag_nonneg _ hqa
    have hcy0 := F32.roundMag_nonneg _ hqb
    have hsq : 0 < a * a + b * b := by
      rcases hne2 with h | h
      · have : 0 < a * a := mul_pos (lt_of_le_of_ne ha0 (Ne.symm h))
          (lt_of_le_of_ne ha0 (Ne.symm h))
        nlinarith [mul_nonneg hb0 hb0]
      · have : 0 < b * b := mul_pos (lt_of_le_of_ne hb0 (Ne.symm h))
          (lt_of_le_of_ne hb0 (Ne.symm h))
        nlinarith [mul_nonneg ha0 ha0]
    have h1 := F32.close_add (F32.close_mul hcx0 hqa hcx0 hqa hxc hxc)
      (F32.close_mul hcy0 hqb hcy0 hqb hyc hyc)
    have hsum : a / M * (a / M) + b / M * (b / M) = (a * a + b * b) / (M * M) := by
      field_simp
    rw [hsum] at h1
    have h2 := F32.close_div hsq.le hsq.le (mul_pos hMpos hMpos) hsq
      (F32.close_refl 0 _ hsq.le) hMc
    rw [div_self hsq.ne'] at h2
    have h3 := F32.close_trans hRc (F32.close_trans h1 h2)
    have hidx : 5 + ((1 + 1) + (0 + 5)) = 12 := by norm_num
    rw [hidx] at h3
    exact h3

/-- Witness of C13 as amended: the vector `(3, 4)`. -/
theorem normalize_magnitude_witness :
    ((F32.finite false 3).IsFinite ∧ (F32.finite false 4).IsFinite
      ∧ 1 / 2 ^ 30 ≤ |F32.toRat (F32.finite false 3)|
      ∧ |F32.toRat (F32.finite false 3)| ≤ 2 ^ 30
      ∧ 1 / 2 ^ 30 ≤ |F32.toRat (F32.finite false 4)|
      ∧ |F32.toRat (F32.finite false 4)| ≤ 2 ^ 30)
    ∧ ∃ r, Vector2.Magnitude F32.sqrt
          (Vector2.Normalize F32.sqrt ⟨F32.finite false 3, F32.finite false 4⟩)
        = F32.finite false r ∧ |r - 1| ≤ 1 / 2 ^ 21 := by
  have h3 : F32.Representable 3 := by simpa using F32.representable_nat 3 (by norm_num)
  have h4 : F32.Representable 4 := by simpa using F32.representable_nat 4 (by norm_num)
  have ha3 : |F32.toRat (F32.finite false 3)| = 3 := F32.abs_toRat_finite _ _ (by norm_num)
  have ha4 : |F32.toRat (F32.finite false 4)| = 4 := F32.abs_toRat_finite _ _ (by norm_num)
  have hx : 1 / 2 ^ 30 ≤ |F32.toRat (F32.finite false 3)|
      ∧ |F32.toRat (F32.finite false 3)| ≤ 2 ^ 30 := by
    rw [ha3]
    norm_num
  have hy : 1 / 2 ^ 30 ≤ |F32.toRat (F32.finite false 4)|
      ∧ |F32.toRat (F32.finite false 4)| ≤ 2 ^ 30 := by
    rw [ha4]
    norm_num
  have hne : F32.toRat (F32.finite false 3) ≠ 0 := by
    intro h
    rw [h, abs_zero] at ha3
    norm_num at ha3
  exact ⟨⟨h3, h4, hx.1, hx.2, hy.1, hy.2⟩,
    (normalize_magnitude F32.sqrt (⟨F32.finite false 3, F32.finite false 4⟩ : Vector2 F32)
      ⟨F32.finite false 3, F32.finite false 4⟩).2 h3 h4 (Or.inr hx) (Or.inr hy)
      (Or.inl hne)⟩

/-- Claim C13 fails as stated: for `v = (3 * 2 ^ 64, 4 * 2 ^ 64)` both squares overflow,
`v.Magnitude()` is `+inf` (not zero), `v.Normalize()` is `(0, 0)` and its magnitude is
`0`, not `1`. -/
theorem normalize_magnitude_fails :
    (F32.Representable (3 * 2 ^ 64) ∧ F32.Representable (4 * 2 ^ 64))
    ∧ Vector2.Magnitude F32.sqrt
        ⟨F32.finite false (3 * 2 ^ 64), F32.finite false (4 * 2 ^ 64)⟩ = F32.inf false
    ∧ F32.inf false ≠ 0
    ∧ Vector2.Normalize F32.sqrt
        ⟨F32.finite false (3 * 2 ^ 64), F32.finite false (4 * 2 ^ 64)⟩
        = ⟨F32.finite false 0, F32.finite false 0⟩
    ∧ Vector2.Magnitude F32.sqrt (Vector2.Normalize F32.sqrt
        ⟨F32.finite false (3 * 2 ^ 64), F32.finite false (4 * 2 ^ 64)⟩) = F32.finite false 0
    ∧ F32.finite false 0 ≠ 1 := by
  have hr3 : F32.Representable (3 * 2 ^ 64) :=
    F32.representable_eval _ 42 12582912 (by norm_num) (by norm_num)
      (Or.inl (by norm_num)) (by norm_num) (by norm_num) (by norm_num)
  have hr4 : F32.Representable (4 * 2 ^ 64) :=
    F32.representable_eval _ 43 8388608 (by norm_num) (by norm_num)
      (Or.inl (by norm_num)) (by norm_num) (by norm_num) (by norm_num)
  have hx : F32.finite false (3 * 2 ^ 64) * F32.finite false (3 * 2 ^ 64)
      = F32.inf false := by
    rw [F32.mul_self_finite]
    exact F32.ofSignMag_overflow _ _ (by norm_num)
  have hy : F32.finite false (4 * 2 ^ 64) * F32.finite false (4 * 2 ^ 64)
      = F32.inf false := by
    rw [F32.mul_self_finite]
    exact F32.ofSignMag_overflow _ _ (by norm_num)
  have hsum : F32.inf false + F32.inf false = F32.inf false := rfl
  have hroot : F32.sqrt (F32.inf false) = F32.inf false := rfl
  have hmag : Vector2.Magnitude F32.sqrt
      ⟨F32.finite false (3 * 2 ^ 64), F32.finite false (4 * 2 ^ 64)⟩ = F32.inf false := by
    rw [Vector2.Magnitude, hx, hy, hsum, hroot]
  have hdx : F32.finite false (3 * 2 ^ 64) / F32.inf false = F32.finite false 0 := rfl
  have hdy : F32.finite false (4 * 2 ^ 64) / F32.inf false = F32.finite false 0 := rfl
  have hnorm : Vector2.Normalize F32.sqrt
      ⟨F32.finite false (3 * 2 ^ 64), F32.finite false (4 * 2 ^ 64)⟩
      = ⟨F32.finite false 0, F32.finite false 0⟩ := by
    rw [Vector2.Normalize_eq, hmag]
    show (⟨F32.finite false (3 * 2 ^ 64) / F32.inf false,
      F32.finite false (4 * 2 ^ 64) / F32.inf false⟩ : Vector2 F32) = _
    rw [hdx, hdy]
  have hzz : F32.finite false 0 * F32.finite false 0 = F32.finite false 0 := by
    rw [F32.mul_self_finite, mul_zero]
    exact F32.ofSignMag_zero _
  have hzero : F32.sqrt (F32.finite false 0) = F32.finite false 0 := by
    rw [F32.sqrt, if_pos rfl]
  refine ⟨⟨hr3, hr4⟩, hmag, ?_, hnorm, ?_, ?_⟩
  · rw [F32.zero_def]
    exact fun h => F32.noConfusion h
  · rw [hnorm, Vector2.Magnitude, hzz, F32.zero_terms.2.2.1, hzero]
  · rw [F32.one_def]
    intro h
    simp only [F32.finite.injEq, true_and] at h
    norm_num at h

end ToleranceFacts

/-! ## The Euclidean norm in binary32 -/

section EuclideanFacts

open F32

/-- A magnitude whose square is within five roundings of `S` has a square within
`2 ^ (-21) * S` of `S`. -/
theorem F32.abs_sub_le_of_close (m S : ℚ) (hS : 0 ≤ S) (h : F32.Close 5 m S) :
    |m - S| ≤ 1 / 2 ^ 21 * S := by
  obtain ⟨h1, h2⟩ := h
  have hK1 : F32.roundFactor ^ 5 ≤ 1 + 1 / 2 ^ 21 := by
    unfold F32.roundFactor
    norm_num
  have hK2 : F32.roundFactor ^ 5 * (1 - 1 / 2 ^ 21) ≤ 1 := by
    unfold F32.roundFactor
    norm_num
  have hK0 : (0 : ℚ) < F32.roundFactor ^ 5 := F32.roundFactor_pow_pos 5
  generalize F32.roundFactor ^ 5 = K at hK0 hK1 hK2 h1 h2
  rw [abs_le]
  constructor
  · have h3 : K * ((1 - 1 / 2 ^ 21) * S) ≤ K * m := by
      have := mul_le_mul_of_nonneg_right hK2 hS
      linarith
    have h4 := le_of_mul_le_mul_left h3 hK0
    linarith
  · have := mul_le_mul_of_nonneg_right hK1 hS
    linarith

/-- Claim C14, as amended. Over any carrier and any `sqrt`, `Distance(a, b)` equals
`(a - b).Magnitude()`: both are `sqrt(dX * dX + dY * dY)` on the component differences.
In binary32 with the correctly rounded `sqrt`, a magnitude is never less than zero; for a
finite vector `v` whose components are zero or between `2 ^ (-61)` and `2 ^ 61` in
absolute value, not both zero, `v.Magnitude()` is a finite number whose square is within
the relative error `2 ^ (-21)` of `v.X ^ 2 + v.Y ^ 2`; `Vector2(3, 4).Magnitude()` is `5`
and `Distance((0, 0), (3, 4))` is `5`. -/
theorem distance_magnitude {β : Type} [Add β] [Sub β] [Mul β] (sqrt : β → β)
    (a b : Vector2 β) (v : Vector2 F32) :
    Vector2.Distance sqrt a b = Vector2.Magnitude sqrt (a.opSub b)
    ∧ ¬ Vector2.Magnitude F32.sqrt v < 0
    ∧ (v.X.IsFinite → v.Y.IsFinite →
        (F32.toRat v.X = 0 ∨ (1 / 2 ^ 61 ≤ |F32.toRat v.X| ∧ |F32.toRat v.X| ≤ 2 ^ 61)) →
        (F32.toRat v.Y = 0 ∨ (1 / 2 ^ 61 ≤ |F32.toRat v.Y| ∧ |F32.toRat v.Y| ≤ 2 ^ 61)) →
        (F32.toRat v.X ≠ 0 ∨ F32.toRat v.Y ≠ 0) →
        ∃ m, Vector2.Magnitude F32.sqrt v = F32.finite false m ∧ 0 < m
          ∧ |m * m - (F32.toRat v.X * F32.toRat v.X + F32.toRat v.Y * F32.toRat v.Y)|
              ≤ 1 / 2 ^ 21
                * (F32.toRat v.X * F32.toRat v.X + F32.toRat v.Y * F32.toRat v.Y))
    ∧ Vector2.Magnitude F32.sqrt ⟨F32.finite false 3, F32.finite false 4⟩ = F32.finite false 5
    ∧ Vector2.Distance F32.sqrt ⟨0, 0⟩ ⟨F32.finite false 3, F32.finite false 4⟩
        = F32.finite false 5 := by
  obtain ⟨hpos, hneg, hroot⟩ := F32.three_four_five
  refine ⟨rfl, F32.sqrt_not_neg _, ?_, ?_, ?_⟩
  · intro hX hY hxr hyr hne
    obtain ⟨vx, vy⟩ := v
    obtain ⟨σ, x, rfl, hrx⟩ := (F32.isFinite_iff vx).mp hX
    obtain ⟨τ, y, rfl, hry⟩ := (F32.isFinite_iff vy).mp hY
    have hlo61 : (2 : ℚ) ^ (-61 : ℤ) = 1 / 2 ^ 61 := by norm_num
    have hhi61 : (2 : ℚ) ^ (61 : ℤ) = 2 ^ 61 := by norm_num
    have hzero : ∀ (s : Bool) (m : ℚ), 0 ≤ m →
        (F32.toRat (F32.finite s m) = 0 ↔ m = 0) := by
      intro s m hm
      rw [← abs_eq_zero, F32.abs_toRat_finite s m hm]
    have hsq : ∀ (s : Bool) (m : ℚ),
        F32.toRat (F32.finite s m) * F32.toRat (F32.finite s m) = m * m := by
      intro s m
      rw [F32.toRat_finite]
      cases s <;> simp
    have hx : x = 0 ∨ ((2 : ℚ) ^ (-61 : ℤ) ≤ x ∧ x ≤ (2 : ℚ) ^ (61 : ℤ)) := by
      rw [hlo61, hhi61]
      rcases hxr with h | h
      · exact Or.inl ((hzero σ x hrx.1).mp h)
      · rw [F32.abs_toRat_finite σ x hrx.1] at h
        exact Or.inr h
    have hy : y = 0 ∨ ((2 : ℚ) ^ (-61 : ℤ) ≤ y ∧ y ≤ (2 : ℚ) ^ (61 : ℤ)) := by
      rw [hlo61, hhi61]
      rcases hyr with h | h
      · exact Or.inl ((hzero τ y hry.1).mp h)
      · rw [F32.abs_toRat_finite τ y hry.1] at h
        exact Or.inr h
    have hne2 : x ≠ 0 ∨ y ≠ 0 := by
      rcases hne with h | h
      · exact Or.inl (fun h0 => h ((hzero σ x hrx.1).mpr h0))
      · exact Or.inr (fun h0 => h ((hzero τ y hry.1).mpr h0))
    obtain ⟨M, hM, hMlow, -, hMc, -⟩ :=
      magnitude_close σ τ x y (-61) 61 (by norm_num) (by norm_num) (by norm_num) hx hy hne2
    refine ⟨M, hM, lt_of_lt_of_le (by positivity) hMlow, ?_⟩
    show |M * M - (F32.toRat (F32.finite σ x) * F32.toRat (F32.finite σ x)
        + F32.toRat (F32.finite τ y) * F32.toRat (F32.finite τ y))|
      ≤ 1 / 2 ^ 21 * (F32.toRat (F32.finite σ x) * F32.toRat (F32.finite σ x)
        + F32.toRat (F32.finite τ y) * F32.toRat (F32.finite τ y))
    rw [hsq, hsq]
    exact F32.abs_sub_le_of_close _ _
      (add_nonneg (mul_self_nonneg x) (mul_self_nonneg y)) hMc
  · rw [Vector2.Magnitude, hpos, hroot]
  · have h3 : (0 : F32) - F32.finite false 3 = F32.finite true 3 := by
      show F32.add (F32.finite false 0) (F32.neg (F32.finite false 3)) = _
      simp only [F32.neg, Bool.not_false]
      have h := F32.zero_add_of_representable true 3
        (by simpa using F32.representable_nat 3 (by norm_num)) (by norm_num)
      rw [F32.zero_def] at h
      exact h
    have h4 : (0 : F32) - F32.finite false 4 = F32.finite true 4 := by
      show F32.add (F32.finite false 0) (F32.neg (F32.finite false 4)) = _
      simp only [F32.neg, Bool.not_false]
      have h := F32.zero_add_of_representable true 4
        (by simpa using F32.representable_nat 4 (by norm_num)) (by norm_num)
      rw [F32.zero_def] at h
      exact h
    rw [Vector2.Distance, h3, h4, hneg, hroot]

/-- Witness of C14 as amended: the vector `(1, 2)`, whose magnitude is not a binary32
number. -/
theorem distance_magnitude_witness :
    ((F32.finite false 1).IsFinite ∧ (F32.finite false 2).IsFinite
      ∧ 1 / 2 ^ 61 ≤ |F32.toRat (F32.finite false 1)|
      ∧ |F32.toRat (F32.finite false 1)| ≤ 2 ^ 61
      ∧ 1 / 2 ^ 61 ≤ |F32.toRat (F32.finite false 2)|
      ∧ |F32.toRat (F32.finite false 2)| ≤ 2 ^ 61)
    ∧ ∃ m, Vector2.Magnitude F32.sqrt ⟨F32.finite false 1, F32.finite false 2⟩
          = F32.finite false m ∧ 0 < m
        ∧ |m * m - (F32.toRat (F32.finite false 1) * F32.toRat (F32.finite false 1)
              + F32.toRat (F32.finite false 2) * F32.toRat (F32.finite false 2))|
            ≤ 1 / 2 ^ 21
              * (F32.toRat (F32.finite false 1) * F32.toRat (F32.finite false 1)
                + F32.toRat (F32.finite false 2) * F32.toRat (F32.finite false 2)) := by
  have h1 : F32.Representable 1 := by simpa using F32.representable_nat 1 (by norm_num)
  have h2 : F32.Representable 2 := by simpa using F32.representable_nat 2 (by norm_num)
  have ha1 : |F32.toRat (F32.finite false 1)| = 1 := F32.abs_toRat_finite _ _ (by norm_num)
  have ha2 : |F32.toRat (F32.finite false 2)| = 2 := F32.abs_toRat_finite _ _ (by norm_num)
  have hx : 1 / 2 ^ 61 ≤ |F32.toRat (F32.finite false 1)|
      ∧ |F32.toRat (F32.finite false 1)| ≤ 2 ^ 61 := by
    rw [ha1]
    norm_num
  have hy : 1 / 2 ^ 61 ≤ |F32.toRat (F32.finite false 2)|
      ∧ |F32.toRat (F32.finite false 2)| ≤ 2 ^ 61 := by
    rw [ha2]
    norm_num
  have hne : F32.toRat (F32.finite false 1) ≠ 0 := by
    intro h
    rw [h, abs_zero] at ha1
    norm_num at ha1
  exact ⟨⟨h1, h2, hx.1, hx.2, hy.1, hy.2⟩,
    (distance_magnitude F32.sqrt (⟨F32.finite false 1, F32.finite false 2⟩ : Vector2 F32)
      ⟨F32.finite false 1, F32.finite false 2⟩
      ⟨F32.finite false 1, F32.finite false 2⟩).2.2.1 h1 h2 (Or.inr hx) (Or.inr hy)
      (Or.inl hne)⟩

/-- Claim C14 fails as stated: for `v = (3 * 2 ^ (-80), 4 * 2 ^ (-80))` both squares
underflow to `0`, so `Magnitude()` is `0`, while `v.X ^ 2 + v.Y ^ 2` is `25 * 2 ^ (-160)`,
whose square root is `5 * 2 ^ (-80)`. -/
theorem magnitude_euclidean_fails :
    (F32.Representable (3 / 2 ^ 80) ∧ F32.Representable (4 / 2 ^ 80))
    ∧ Vector2.Magnitude F32.sqrt
        ⟨F32.finite false (3 / 2 ^ 80), F32.finite false (4 / 2 ^ 80)⟩ = F32.finite false 0
    ∧ F32.toRat (Vector2.Magnitude F32.sqrt
        ⟨F32.finite false (3 / 2 ^ 80), F32.finite false (4 / 2 ^ 80)⟩) ^ 2
        ≠ F32.toRat (F32.finite false (3 / 2 ^ 80)) ^ 2
          + F32.toRat (F32.finite false (4 / 2 ^ 80)) ^ 2 := by
  have hr3 : F32.Representable (3 / 2 ^ 80) :=
    F32.representable_eval _ (-102) 12582912 (by norm_num) (by norm_num)
      (Or.inl (by norm_num)) (by norm_num) (by norm_num) (by norm_num)
  have hr4 : F32.Representable (4 / 2 ^ 80) :=
    F32.representable_eval _ (-101) 8388608 (by norm_num) (by norm_num)
      (Or.inl (by norm_num)) (by norm_num) (by norm_num) (by norm_num)
  have hx : F32.finite false (3 / 2 ^ 80) * F32.finite false (3 / 2 ^ 80)
      = F32.finite false 0 := by
    rw [F32.mul_finite]
    exact F32.ofSignMag_eval false _ _ (-149) 0 (by norm_num) (by norm_num)
      (Or.inr rfl) (by norm_num) (by norm_num) (by norm_num) (by norm_num) (by norm_num)
  have hy : F32.finite false (4 / 2 ^ 80) * F32.finite false (4 / 2 ^ 80)
      = F32.finite false 0 := by
    rw [F32.mul_finite]
    exact F32.ofSignMag_eval false _ _ (-149) 0 (by norm_num) (by norm_num)
      (Or.inr rfl) (by norm_num) (by norm_num) (by norm_num) (by norm_num) (by norm_num)
  have hsum : F32.finite false 0 + F32.finite false 0 = F32.finite false 0 :=
    F32.add_finite_of_eq _ _ _ _ (by simp only [F32.toRat]; norm_num)
  have hzero : F32.sqrt (F32.finite false 0) = F32.finite false 0 := by
    rw [F32.sqrt, if_pos rfl]
  have hmag : Vector2.Magnitude F32.sqrt
      ⟨F32.finite false (3 / 2 ^ 80), F32.finite false (4 / 2 ^ 80)⟩ = F32.finite false 0 := by
    rw [Vector2.Magnitude, hx, hy, hsum, hzero]
  refine ⟨⟨hr3, hr4⟩, hmag, ?_⟩
  rw [hmag]
  simp only [F32.toRat, Bool.false_eq_true, if_false]
  norm_num

end EuclideanFacts

end Impulse2D
